import Mathlib

/-!
# libremote: transport, value codec and render cache

A shallow embedding of `src/libremote.c` (the lite-xl remote streaming plugin).

Conventions of the embedding
* The target is an LP64 little-endian platform with a signed `char`
  (x86-64 Linux): `int` and `unsigned` are 32 bits, `size_t` and pointers 64 bits.
* A block of memory is a `List Byte`; a C pointer into a block is represented
  by the bytes from the pointer to the end of the block.
* A function returns `none` when the C call has no defined result: a loop
  that never exits, or an access outside the allocated block.
* Bytes that C leaves indeterminate (fresh `realloc` memory, struct padding)
  are zero.
* Everything the operating system or the compression library decides is a
  parameter: the outcome of `read`, the outcomes of `write`, the four
  operations of the codec.
-/

set_option autoImplicit false

namespace Remote

/-! ## Machine integers and bytes -/

abbrev Byte := Fin 256

/-- The byte holding the low eight bits of `n`. -/
def byteOf (n : Nat) : Byte := ⟨n % 256, Nat.mod_lt _ (by decide)⟩

/-- Little-endian representation of `n` in `k` bytes (higher bits are dropped). -/
def le : Nat → Nat → List Byte
  | 0, _ => []
  | k + 1, n => byteOf n :: le k (n / 256)

/-- Value of a little-endian byte string. -/
def unle : List Byte → Nat
  | [] => 0
  | b :: bs => b.val + 256 * unle bs

/-- Conversion of an unsigned value to `int` (two's complement, 32 bits). -/
def toInt32 (n : Nat) : Int :=
  if n % 2 ^ 32 < 2 ^ 31 then ((n % 2 ^ 32 : Nat) : Int) else ((n % 2 ^ 32 : Nat) : Int) - 2 ^ 32

/-- Conversion of a signed value to a 32-bit unsigned one. -/
def toU32 (i : Int) : Nat := (i % 2 ^ 32).toNat

/-- Conversion of a signed value to `size_t`. -/
def toSizeT (i : Int) : Nat := (i % 2 ^ 64).toNat

/-- Read `k` bytes at the pointer `mem`: the bytes and the advanced pointer. -/
def takeBytes (k : Nat) (mem : List Byte) : Option (List Byte × List Byte) :=
  if k ≤ mem.length then some (mem.take k, mem.drop k) else none

/-- Read a `k`-byte little-endian integer at the pointer `mem`. -/
def takeLE (k : Nat) (mem : List Byte) : Option (Nat × List Byte) :=
  match takeBytes k mem with
  | none => none
  | some (bs, rest) => some (unle bs, rest)

/-- Overwrite `mem` from offset `off` with `bs` (`memcpy(&mem[off], bs, len)`). -/
def writeAt (mem : List Byte) (off : Nat) (bs : List Byte) : List Byte :=
  mem.take off ++ bs ++ mem.drop (off + bs.length)

/-! ## Growable buffer (`array_t`) -/

structure array_t where
  size : Nat
  capacity : Nat
  length : Nat
  data : List Byte
  deriving DecidableEq, Repr

/-- The logical contents: the first `length` bytes of the block. -/
def array_t.contents (a : array_t) : List Byte := a.data.take a.length

/-- Representation invariant of a buffer in memory: `data` points to `capacity`
bytes, of which `length` are in use. -/
def array_t.WF (a : array_t) : Prop :=
  a.data.length = a.capacity ∧ a.length ≤ a.capacity ∧ a.capacity < 2 ^ 64

instance (a : array_t) : Decidable a.WF := by unfold array_t.WF; infer_instance

/-- The loop `while (capacity < length) capacity <<= 1;` on a 64-bit
`size_t`. After 64 shifts the capacity is 0 and stays 0, so running out of the
fuel given by `array_reserve` means that the C loop never exits. -/
def reserve_loop : Nat → Nat → Nat → Option Nat
  | 0, _, _ => none
  | fuel + 1, capacity, length =>
    if capacity < length then reserve_loop fuel ((capacity * 2) % 2 ^ 64) length
    else some capacity

/-- The call `realloc(data, n)`: the old bytes are kept, new ones are zero. -/
def realloc (data : List Byte) (n : Nat) : List Byte :=
  data.take n ++ List.replicate (n - data.length) 0

/-- The function `array_reserve`: the returned value and the buffer after the call. -/
def array_reserve (a : array_t) (length : Nat) : Option (Nat × array_t) :=
  if a.capacity < length then
    match reserve_loop 65 (if a.capacity = 0 then 1 else a.capacity) length with
    | none => none
    | some c => some (length, { a with capacity := c, data := realloc a.data c })
  else some (length, a)

/-- The function `array_append`. -/
def array_append (a : array_t) (bytes : List Byte) : Option (Nat × array_t) :=
  let a1 := if a.size = 0 then { a with size := bytes.length } else a
  match array_reserve a1 ((bytes.length + a1.length) % 2 ^ 64) with
  | none => none
  | some (_, a2) =>
    if a2.length + bytes.length ≤ a2.data.length then
      let n := (a2.length + bytes.length) % 2 ^ 64
      some (n, { a2 with data := writeAt a2.data a2.length bytes, length := n })
    else none

/-- The function `array_clear`. -/
def array_clear (a : array_t) : array_t := { a with length := 0 }

/-- The function `array_shift`. With `size` above `length` the count
`array->length - size` passed to `memmove` and the new length wrap modulo 2^64
(`size_t`); `memmove` then runs over the end of the block, and of that move
the model keeps the bytes that lie in the block. -/
def array_shift (a : array_t) (size : Nat) : Option array_t :=
  if size = 0 then some a
  else if size ≤ a.length ∧ a.length ≤ a.data.length then
    some { a with
      data := writeAt a.data 0 ((a.data.drop size).take (a.length - size)),
      length := a.length - size }
  else if a.length < size ∧ a.length ≤ a.data.length then
    some { a with
      data := writeAt a.data 0
        ((a.data.drop size).take (toSizeT ((a.length : Int) - (size : Int)))),
      length := toSizeT ((a.length : Int) - (size : Int)) }
  else none

/-- A buffer as `memset(…, 0, …)` leaves it. -/
def array_t.zero : array_t := { size := 0, capacity := 0, length := 0, data := [] }

/-! ## Value codec (`push_lua`, `pull_lua`) -/

/-- The Lua values the codec carries. A float is its IEEE-754 bit pattern. -/
inductive Value where
  | nil
  | boolean (b : Bool)
  | integer (i : Int)
  | number (bits : Nat)
  | string (s : List Byte)
  deriving DecidableEq, Repr

/-- Type tags of `lua.h`. -/
def LUA_TNIL : Int := 0
def LUA_TBOOLEAN : Int := 1
def LUA_TNUMBER : Int := 3
def LUA_TSTRING : Int := 4
/-- Type tag defined in `libremote.c` for numbers of integer subtype. -/
def LUA_TINTEGER : Int := 200

/-- The value of `type` in the loop of `push_lua`. -/
def Value.tag : Value → Int
  | .nil => LUA_TNIL
  | .boolean _ => LUA_TBOOLEAN
  | .integer _ => LUA_TINTEGER
  | .number _ => LUA_TNUMBER
  | .string _ => LUA_TSTRING

/-- The bytes `push_lua` appends after the tag of a value. -/
def Value.payload : Value → List (List Byte)
  | .nil => []
  | .boolean b => [[if b then 1 else 0]]
  | .integer i => [le 4 (toU32 i)]
  | .number bits => [le 8 bits]
  | .string s => [le 8 s.length, s]

/-- Run `array_append` for each byte string in turn. -/
def append_all : array_t → List (List Byte) → Option array_t
  | a, [] => some a
  | a, bs :: rest =>
    match array_append a bs with
    | none => none
    | some (_, a1) => append_all a1 rest

/-- The body of the loop of `push_lua` for one stack slot. -/
def push_lua_value (buffer : array_t) (v : Value) : Option array_t :=
  append_all buffer (le 4 (toU32 v.tag) :: v.payload)

/-- The loop of `push_lua` over the `n` topmost stack slots, bottom first. -/
def push_lua_loop : array_t → List Value → Option array_t
  | buffer, [] => some buffer
  | buffer, v :: vs =>
    match push_lua_value buffer v with
    | none => none
    | some b1 => push_lua_loop b1 vs

/-- The function `push_lua` applied to the `n = vals.length` topmost stack
slots `vals`. -/
def push_lua (vals : List Value) (buffer : array_t) : Option array_t :=
  match array_append buffer (le 4 vals.length) with
  | none => none
  | some (_, b1) => push_lua_loop b1 vals

/-- The loop of `pull_lua`: `n` iterations from the pointer `cmd_ptr`; the
result lists the values pushed on the Lua stack, in order. A tag matching
no `case` pushes nothing and moves the pointer past the tag only. -/
def pull_lua_loop : Nat → List Byte → Option (List Value)
  | 0, _ => some []
  | n + 1, cmd_ptr =>
    match takeLE 4 cmd_ptr with
    | none => none
    | some (t, p) =>
      let type := toInt32 t
      if type = LUA_TNIL then (pull_lua_loop n p).map (Value.nil :: ·)
      else if type = LUA_TINTEGER then
        match takeLE 4 p with
        | none => none
        | some (i, p1) => (pull_lua_loop n p1).map (Value.integer (toInt32 i) :: ·)
      else if type = LUA_TBOOLEAN then
        match takeLE 1 p with
        | none => none
        | some (c, p1) => (pull_lua_loop n p1).map (Value.boolean (c != 0) :: ·)
      else if type = LUA_TSTRING then
        match takeLE 8 p with
        | none => none
        | some (length, p1) =>
          match takeBytes length p1 with
          | none => none
          | some (s, p2) => (pull_lua_loop n p2).map (Value.string s :: ·)
      else if type = LUA_TNUMBER then
        match takeLE 8 p with
        | none => none
        | some (bits, p1) => (pull_lua_loop n p1).map (Value.number bits :: ·)
      else pull_lua_loop n p

/-- The function `pull_lua`: the returned `arg_count` and the values pushed. -/
def pull_lua (buffer : array_t) : Option (Int × List Value) :=
  if 0 < buffer.length then
    match takeLE 4 buffer.data with
    | none => none
    | some (n, p) =>
      match pull_lua_loop (toInt32 n).toNat p with
      | none => none
      | some vals => some (toInt32 n, vals)
  else some (0, [])

/-! ## Encoded tuples -/

/-- Concatenation of byte strings. -/
def concat_all : List (List Byte) → List Byte
  | [] => []
  | bs :: rest => bs ++ concat_all rest

/-- A record of an encoded tuple: a value as `push_lua` writes it, or a bare
tag outside the five tags `pull_lua` knows. -/
inductive Record where
  | value (v : Value)
  | other (tag : Int)
  deriving DecidableEq, Repr

/-- The bytes of a value: tag, then payload. -/
def Value.bytes (v : Value) : List Byte := concat_all (le 4 (toU32 v.tag) :: v.payload)

/-- The bytes of a record. -/
def Record.bytes : Record → List Byte
  | .value v => v.bytes
  | .other tag => le 4 (toU32 tag)

/-- The bytes of a sequence of records. -/
def Record.all_bytes (rs : List Record) : List Byte := concat_all (rs.map Record.bytes)

/-- The values among a sequence of records. -/
def Record.values : List Record → List Value
  | [] => []
  | .value v :: rs => v :: Record.values rs
  | .other _ :: rs => Record.values rs

/-- A value whose payload fits the wire format: an integer in the range of
`int`, a 64-bit float pattern, a string whose length fits `size_t`. -/
def Value.fits : Value → Prop
  | .integer i => -2 ^ 31 ≤ i ∧ i < 2 ^ 31
  | .number bits => bits < 2 ^ 64
  | .string s => s.length < 2 ^ 64
  | _ => True

instance (v : Value) : Decidable v.fits := by
  cases v <;> unfold Value.fits <;> infer_instance

/-- A record as above: a fitting value, or an `int` tag that is none of the
five known tags. -/
def Record.fits : Record → Prop
  | .value v => v.fits
  | .other tag => -2 ^ 31 ≤ tag ∧ tag < 2 ^ 31 ∧ tag ≠ LUA_TNIL ∧ tag ≠ LUA_TINTEGER
      ∧ tag ≠ LUA_TBOOLEAN ∧ tag ≠ LUA_TSTRING ∧ tag ≠ LUA_TNUMBER

instance (r : Record) : Decidable r.fits := by
  cases r <;> unfold Record.fits <;> infer_instance

/-- The bytes `push_lua` produces for a tuple: the count, then the values. -/
def encode_tuple (v : List Value) : List Byte :=
  le 4 v.length ++ concat_all (v.map Value.bytes)

/-! ## Checksum -/

def HASH_INITIAL : Nat := 2166136261

/-- The function `hash` on an `unsigned` accumulator, over the bytes `data`. -/
def hash (h : Nat) (data : List Byte) : Nat :=
  data.foldl (fun acc p => ((acc ^^^ p.val) * 16777619) % 2 ^ 32) h

/-! ## Duplex transport -/

def PACKET_NONE : Nat := 0
def PACKET_COMMAND_BUFFER : Nat := 1
def PACKET_FONT_REGISTER : Nat := 2
def PACKET_EVENT : Nat := 3

structure SDuplex where
  fd : Int
  incoming_packet_type : Nat
  incoming_compressed_buffer : array_t
  incoming_buffer : array_t
  outgoing_compressed_buffer : array_t
  outgoing_buffer : array_t
  deriving DecidableEq, Repr

/-- What a call of the compression library returns: the bytes it produced,
or an error code. -/
inductive CodecResult where
  | ok (bytes : List Byte)
  | error (code : Nat)
  deriving DecidableEq, Repr

/-- The four operations of the compression library (`zstd.h`), as parameters.
The first argument of `compress` and `decompress` is the capacity of the
destination. -/
structure Codec where
  compressBound : Nat → Nat
  compress : Nat → List Byte → CodecResult
  getFrameContentSize : List Byte → Nat
  decompress : Nat → List Byte → CodecResult

/-- What one `read` on the socket returns: bytes (none at end of stream),
`EAGAIN`/`EWOULDBLOCK`, or another error. -/
inductive ReadOutcome where
  | data (bytes : List Byte)
  | would_block
  | error
  deriving DecidableEq, Repr

/-- What one `write` on the socket does: it takes up to `n` of the bytes
offered and returns their number, or fails with `EAGAIN`/`EWOULDBLOCK`, or
fails with another error. -/
inductive WriteOutcome where
  | wrote (n : Nat)
  | again
  | error
  deriving DecidableEq, Repr

/-- The `array_t*` argument of `send_compressed_buffer`: the callers pass
either the channel's own `outgoing_buffer` or a buffer outside the channel. -/
inductive BufferArg where
  | outgoing
  | other (b : array_t)
  deriving DecidableEq, Repr

/-- The buffer the argument points to. -/
def BufferArg.get (d : SDuplex) : BufferArg → array_t
  | .outgoing => d.outgoing_buffer
  | .other b => b

/-- The channel after a store through the argument. -/
def BufferArg.set (d : SDuplex) (b : array_t) : BufferArg → SDuplex
  | .outgoing => { d with outgoing_buffer := b }
  | .other _ => d

/-- Result of `send_compressed_buffer`: the returned value, the channel and
the caller's buffer after the call, the bytes put on the socket, and the
outcomes of `write` not yet used. -/
structure SendResult where
  ret : Int
  duplex : SDuplex
  buffer : array_t
  wire : List Byte
  rest : List WriteOutcome
  deriving DecidableEq, Repr

/-- Store `bs` at offset `off` of a block, inside the block. -/
def store (mem : List Byte) (off : Nat) (bs : List Byte) : Option (List Byte) :=
  if off + bs.length ≤ mem.length then some (writeAt mem off bs) else none

/-- The `do … while` loop of `send_compressed_buffer` over the block `data`:
the final `written_length`, whether the socket was closed, and the bytes put
on the socket. It is undefined when the listed outcomes are used up while
the loop is still running. -/
def write_loop (data : List Byte) (to_write_length : Int) :
    List WriteOutcome → Int → List Byte → Option (Int × Bool × List Byte × List WriteOutcome)
  | [], _, _ => none
  | .error :: ws, written_length, wire => some (written_length, true, wire, ws)
  | .again :: ws, written_length, wire =>
    if written_length < to_write_length then write_loop data to_write_length ws written_length wire
    else some (written_length, false, wire, ws)
  | .wrote n :: ws, written_length, wire =>
    let written := min n (toSizeT (to_write_length - written_length))
    if written < 2 ^ 31 ∧ written_length.toNat + written ≤ data.length then
      let wire1 := wire ++ (data.drop written_length.toNat).take written
      if written_length + written < to_write_length then
        write_loop data to_write_length ws (written_length + written) wire1
      else some (written_length + written, false, wire1, ws)
    else none

/-- The function `send_compressed_buffer`. A failing `ZSTD_compress` has no
modelled result (the C code would use the error code as a length). -/
def send_compressed_buffer (c : Codec) (ws : List WriteOutcome) (duplex : SDuplex)
    (type : Nat) (buffer : BufferArg) : Option SendResult :=
  if duplex.fd = 0 then
    let b := array_clear (buffer.get duplex)
    some { ret := -1, duplex := buffer.set duplex b, buffer := b, wire := [], rest := ws }
  else
    match array_reserve duplex.outgoing_compressed_buffer
        ((c.compressBound (buffer.get duplex).length + 4 + 1) % 2 ^ 64) with
    | none => none
    | some (length, ocb) =>
      match store ocb.data 0 [byteOf type] with
      | none => none
      | some data0 =>
        if (buffer.get duplex).length ≤ (buffer.get duplex).data.length then
          match c.compress (toSizeT ((length : Int) - 1 - 4)) (buffer.get duplex).contents with
          | .error _ => none
          | .ok out =>
            if out.length ≤ toSizeT ((length : Int) - 1 - 4) then
              match store data0 5 out with
              | none => none
              | some data1 =>
                match array_shift (buffer.get duplex) (buffer.get duplex).length with
                | none => none
                | some b =>
                  match store data1 1 (le 4 out.length) with
                  | none => none
                  | some data2 =>
                    let d1 := buffer.set { duplex with
                      outgoing_compressed_buffer := { ocb with data := data2 } } b
                    match write_loop data2 (toInt32 (out.length + 1 + 4)) ws 0 [] with
                    | none => none
                    | some (written_length, closed, wire, rest) =>
                      some { ret := written_length,
                             duplex := if closed then { d1 with fd := 0 } else d1,
                             buffer := b, wire := wire, rest := rest }
            else none
        else none

/-- Conversion of the `char` at the head of a frame to `EPacketType`. -/
def charToEnum (b : Byte) : Nat := if b.val < 128 then b.val else b.val + (2 ^ 32 - 256)

/-- Lines 203 to 219 of `recv_compressed_buffer`: what follows the `read`. -/
def recv_decode (c : Codec) (duplex : SDuplex) : Option (Int × SDuplex) :=
  let icb := duplex.incoming_compressed_buffer
  if icb.length < 1 + 4 then some (1, duplex)
  else
    match takeLE 4 (icb.data.drop 1) with
    | none => none
    | some (compressed_length, _) =>
      match array_reserve icb (toSizeT (toInt32 compressed_length + 1 + 4)) with
      | none => none
      | some (r, icb1) =>
        let total_packet_length : Int := toInt32 r
        let d1 := { duplex with incoming_compressed_buffer := icb1 }
        if icb1.length < toSizeT total_packet_length then some (1, d1)
        else
          match icb1.data with
          | [] => none
          | t :: _ =>
            match takeBytes (toSizeT (total_packet_length - 1 - 4)) (icb1.data.drop 5) with
            | none => none
            | some (src, _) =>
              match array_reserve d1.incoming_buffer (c.getFrameContentSize src) with
              | none => none
              | some (_, ib) =>
                match c.decompress ib.capacity src with
                | .error _ =>
                  some (0, { d1 with incoming_packet_type := charToEnum t,
                                     incoming_buffer := ib, fd := 0 })
                | .ok out =>
                  match store ib.data 0 out with
                  | none => none
                  | some data1 =>
                    match array_shift icb1 (toSizeT total_packet_length) with
                    | none => none
                    | some icb2 =>
                      some (1, { d1 with incoming_packet_type := charToEnum t,
                                         incoming_buffer :=
                                           { ib with data := data1, length := out.length },
                                         incoming_compressed_buffer := icb2 })

/-- The function `recv_compressed_buffer`, given the outcome of its `read`.
Bytes are a possible outcome only when they fit the space offered to `read`
(`capacity - length`) and their count fits the `int` receiving it. -/
def recv_compressed_buffer (c : Codec) (r : ReadOutcome) (duplex : SDuplex) :
    Option (Int × SDuplex) :=
  if duplex.fd = 0 then some (-1, duplex)
  else
    match r with
    | .error => some (0, { duplex with fd := 0 })
    | .would_block => recv_decode c duplex
    | .data bytes =>
      let icb := duplex.incoming_compressed_buffer
      if icb.length + bytes.length ≤ icb.capacity ∧ icb.capacity ≤ icb.data.length
          ∧ bytes.length < 2 ^ 31 then
        recv_decode c { duplex with incoming_compressed_buffer :=
          { icb with data := writeAt icb.data icb.length bytes,
                     length := icb.length + bytes.length } }
      else none

/-- One call of `recv_compressed_buffer` per chunk, each chunk being what the
`read` of that call delivers. -/
def recv_chunks (c : Codec) : SDuplex → List (List Byte) → Option SDuplex
  | d, [] => some d
  | d, chunk :: rest =>
    match recv_compressed_buffer c (.data chunk) d with
    | none => none
    | some (_, d1) => recv_chunks c d1 rest

/-! ## Drawing commands and the render cache -/

/-- The struct `RenColor`, fields in memory order. -/
structure RenColor where
  b : Byte
  g : Byte
  r : Byte
  a : Byte
  deriving DecidableEq, Repr

/-- The struct `RenRect`; the fields are `int`s. -/
structure RenRect where
  x : Int
  y : Int
  width : Int
  height : Int
  deriving DecidableEq, Repr

def SET_CLIP : Nat := 0
def DRAW_TEXT : Nat := 1
def DRAW_RECT : Nat := 2

/-- Sizes and offsets of the command structs on the target:
`Command` is `type` (4 bytes) and `size` (4 bytes); in `DrawTextCommand` the
member `text` starts at offset 49 and `sizeof` is 56. -/
def sizeof_SetClipCommand : Nat := 24
def sizeof_DrawRectCommand : Nat := 28
def sizeof_DrawTextCommand : Nat := 56
def offsetof_text : Nat := 49
/-- The struct `SFont`: `index` at offset 0, `font` at offset 8. -/
def sizeof_SFont : Nat := 16

def RenColor.bytes (c : RenColor) : List Byte := [c.b, c.g, c.r, c.a]

def RenRect.bytes (r : RenRect) : List Byte :=
  le 4 (toU32 r.x) ++ (le 4 (toU32 r.y) ++ (le 4 (toU32 r.width) ++ le 4 (toU32 r.height)))

structure SRencache where
  buffer : array_t
  checksum : Nat
  deriving DecidableEq, Repr

/-- The struct `SServer`, together with `cmd_array`, the static scratch buffer
of `f_server_draw_text`. -/
structure SServer where
  duplex : SDuplex
  listening : Int
  registered_fonts : array_t
  rencache : SRencache
  previous_rencache_checksum : Nat
  cmd_array : array_t
  deriving DecidableEq, Repr

/-- The loop of `get_font_index` from entry `i` on, `entries` pointing to it. -/
def get_font_index_loop (font : Nat) : Nat → List Byte → Option Int
  | 0, _ => some (-1)
  | k + 1, entries =>
    match takeLE 8 (entries.drop 8) with
    | none => none
    | some (f, _) =>
      if f = font then
        match takeLE 4 entries with
        | none => none
        | some (index, _) => some (toInt32 index)
      else get_font_index_loop font k (entries.drop sizeof_SFont)

/-- The function `get_font_index`; a font handle is the pointer value. The
division `length / size` has no result while `size` is 0. -/
def get_font_index (server : SServer) (font : Nat) : Option Int :=
  if server.registered_fonts.size = 0 then none
  else get_font_index_loop font
    (server.registered_fonts.length / server.registered_fonts.size)
    server.registered_fonts.data

/-- The function `push_command`, `command` pointing to the record. The byte
count is passed to `hash` as an `int`. -/
def push_command (rencache : SRencache) (command : List Byte) : Option (Int × SRencache) :=
  match takeLE 4 (command.drop 4) with
  | none => none
  | some (size, _) =>
    match takeBytes size command with
    | none => none
    | some (bytes, _) =>
      match array_append rencache.buffer bytes with
      | none => none
      | some (_, buffer) =>
        if size < 2 ^ 31 then
          some (size, { buffer := buffer, checksum := hash rencache.checksum bytes })
        else none

/-- The function `f_server_begin_frame`. -/
def f_server_begin_frame (server : SServer) : SServer :=
  { server with rencache :=
      { buffer := array_clear server.rencache.buffer, checksum := HASH_INITIAL } }

/-- The function `f_server_end_frame`: the boolean pushed, the server after the
call, the bytes put on the socket and the unused outcomes of `write`. The
`fcntl` calls around the send are not modelled. -/
def f_server_end_frame (c : Codec) (ws : List WriteOutcome) (server : SServer) :
    Option (Bool × SServer × List Byte × List WriteOutcome) :=
  if server.rencache.checksum ≠ server.previous_rencache_checksum ∧ server.duplex.fd ≠ 0 then
    match send_compressed_buffer c ws server.duplex PACKET_COMMAND_BUFFER
        (.other server.rencache.buffer) with
    | none => none
    | some r =>
      some (true,
        { server with
          duplex := r.duplex,
          rencache := { server.rencache with buffer := r.buffer },
          previous_rencache_checksum := server.rencache.checksum },
        r.wire, r.rest)
  else some (false, server, [], ws)

/-- The function `f_server_set_clip_rect`, from the rectangle `rect_to_grid`
returns. -/
def f_server_set_clip_rect (server : SServer) (rect : RenRect) : Option SServer :=
  match push_command server.rencache
      (le 4 SET_CLIP ++ (le 4 sizeof_SetClipCommand ++ rect.bytes)) with
  | none => none
  | some (_, rencache) => some { server with rencache := rencache }

/-- The function `f_server_draw_rect`, from the rectangle `rect_to_grid`
returns and the colour `checkcolor` returns. -/
def f_server_draw_rect (server : SServer) (rect : RenRect) (color : RenColor) :
    Option SServer :=
  match push_command server.rencache
      (le 4 DRAW_RECT ++ (le 4 sizeof_DrawRectCommand ++ (rect.bytes ++ color.bytes))) with
  | none => none
  | some (_, rencache) => some { server with rencache := rencache }

/-- The members of a `DrawTextCommand` before `text` (49 bytes): `command`,
`color`, `fonts` (only `fonts[0]` is given, the other four slots are 0),
`text_x`, `y`, `len` and `tab_size`. -/
def DrawTextCommand_head (len : Nat) (color : RenColor) (font0 : Int) (text_x : Nat)
    (y : Int) : List Byte :=
  le 4 DRAW_TEXT ++ (le 4 (sizeof_DrawTextCommand + len) ++ (color.bytes
    ++ (le 4 (toU32 font0) ++ (le 16 0 ++ (le 4 text_x ++ (le 4 (toU32 y) ++ (le 8 len
    ++ [2])))))))

/-- The 56 bytes stored by `*cmd = (DrawTextCommand){ … }`: the members and
the padding up to `sizeof`. -/
def DrawTextCommand_bytes (len : Nat) (color : RenColor) (font0 : Int) (text_x : Nat)
    (y : Int) : List Byte :=
  DrawTextCommand_head len color font0 text_x y ++ List.replicate 7 0

/-- The function `f_server_draw_text` for a single font (the test
`lua_type(L, 1) != LUA_TTABLE` on the server userdata always holds). The
arguments are the font pointer, the text, `x` as the `float` stored in
`text_x` (its bit pattern), `y` as the `int` stored, and the colour. The
result is `Except.error` when `luaL_error` is raised. -/
def f_server_draw_text (server : SServer) (font : Nat) (text : List Byte) (x : Nat)
    (y : Int) (color : RenColor) : Option (Except String SServer) :=
  if server.duplex.fd ≠ 0 then
    match get_font_index server font with
    | none => none
    | some font0 =>
      if font0 = -1 then some (.error "can't find unregistered font")
      else
        match array_reserve server.cmd_array ((sizeof_DrawTextCommand + text.length) % 2 ^ 64) with
        | none => none
        | some (_, cmd_array) =>
          match store cmd_array.data 0 (DrawTextCommand_bytes text.length color font0 x y) with
          | none => none
          | some cmd0 =>
            match store cmd0 offsetof_text text with
            | none => none
            | some cmd =>
              match push_command server.rencache cmd with
              | none => none
              | some (_, rencache) =>
                some (.ok { server with
                  cmd_array := { cmd_array with data := cmd }, rencache := rencache })
  else some (.ok server)

/-- The function `f_server_register_font`: `size` and `options` are the Lua
values at stack slots 5 and 6. -/
def f_server_register_font (c : Codec) (ws : List WriteOutcome) (server : SServer)
    (path contents : List Byte) (font : Nat) (size options : Value) :
    Option (SServer × List Byte × List WriteOutcome) :=
  let index : Int := toInt32 (server.registered_fonts.length + 1)
  match array_append server.registered_fonts
      (le 4 (toU32 index) ++ [0, 0, 0, 0] ++ le 8 font) with
  | none => none
  | some (_, registered_fonts) =>
    match push_lua [.string path, .string contents, .integer index, size, options]
        server.duplex.outgoing_buffer with
    | none => none
    | some outgoing =>
      match send_compressed_buffer c ws { server.duplex with outgoing_buffer := outgoing }
          PACKET_FONT_REGISTER .outgoing with
      | none => none
      | some r =>
        some ({ server with duplex := r.duplex, registered_fonts := registered_fonts },
          r.wire, r.rest)

/-- The function `f_server_wait_event`: the values returned to Lua. -/
def f_server_wait_event (c : Codec) (r : ReadOutcome) (server : SServer) :
    Option (List Value × SServer) :=
  if server.duplex.fd ≠ 0 then
    if server.duplex.incoming_packet_type ≠ PACKET_NONE then some ([.boolean true], server)
    else
      match recv_compressed_buffer c r server.duplex with
      | none => none
      | some (ret, d) => some ([.boolean (ret != 0)], { server with duplex := d })
  else some ([], server)

/-- The function `f_server_poll_event`: the count returned and the values
`pull_lua` pushed. -/
def f_server_poll_event (c : Codec) (r : ReadOutcome) (server : SServer) :
    Option (Int × List Value × SServer) :=
  if server.duplex.fd ≠ 0 then
    match (if server.duplex.incoming_packet_type = PACKET_NONE
           then (recv_compressed_buffer c r server.duplex).map (·.2)
           else some server.duplex) with
    | none => none
    | some d =>
      if d.incoming_packet_type ≠ PACKET_NONE then
        match pull_lua d.incoming_buffer with
        | none => none
        | some (n, vals) =>
          some (n, vals, { server with duplex :=
            { d with incoming_buffer := array_clear d.incoming_buffer,
                     incoming_packet_type := PACKET_NONE } })
      else some (0, [], { server with duplex := d })
  else some (0, [], server)

/-- The function `f_server_send_event` on the values above the server on the stack. -/
def f_server_send_event (c : Codec) (ws : List WriteOutcome) (server : SServer)
    (vals : List Value) : Option (SServer × List Byte × List WriteOutcome) :=
  match push_lua vals server.duplex.outgoing_buffer with
  | none => none
  | some outgoing =>
    match send_compressed_buffer c ws { server.duplex with outgoing_buffer := outgoing }
        PACKET_EVENT .outgoing with
    | none => none
    | some r => some ({ server with duplex := r.duplex }, r.wire, r.rest)

/-- The function `f_server`: the server after construction (sockets apart). -/
def f_server (listening : Int) : Option SServer :=
  match array_reserve array_t.zero 4096 with
  | none => none
  | some (_, b) =>
    some { duplex := { fd := 0, incoming_packet_type := PACKET_NONE,
                       incoming_compressed_buffer := b, incoming_buffer := array_t.zero,
                       outgoing_compressed_buffer := b, outgoing_buffer := array_t.zero },
           listening := listening, registered_fonts := array_t.zero,
           rencache := { buffer := array_t.zero, checksum := 0 },
           previous_rencache_checksum := 0, cmd_array := array_t.zero }

/-- The function `f_server_accept`, given the descriptor `accept` returns. -/
def f_server_accept (server : SServer) (fd : Int) : Except String SServer :=
  if fd = -1 then .error "can't accept"
  else .ok { server with duplex := { server.duplex with fd := fd }, listening := 0 }

/-! ## Client -/

/-- The struct `SClient`, together with `fonts`, the Lua table that
`font_table` references (a font object is an opaque number). -/
structure SClient where
  duplex : SDuplex
  font_table : Int
  registered_fonts : array_t
  fonts : List (Int × Nat)
  deriving DecidableEq, Repr

/-- The function `f_client_send_event`. -/
def f_client_send_event (c : Codec) (ws : List WriteOutcome) (client : SClient)
    (vals : List Value) : Option (SClient × List Byte × List WriteOutcome) :=
  match push_lua vals client.duplex.outgoing_buffer with
  | none => none
  | some outgoing =>
    match send_compressed_buffer c ws { client.duplex with outgoing_buffer := outgoing }
        PACKET_EVENT .outgoing with
    | none => none
    | some r => some ({ client with duplex := r.duplex }, r.wire, r.rest)

/-- The function `f_client_has_event`: the boolean pushed. (The dump of the
pending payload to a file is not modelled.) -/
def f_client_has_event (c : Codec) (r : ReadOutcome) (client : SClient) :
    Option (Bool × SClient) :=
  match (if client.duplex.incoming_packet_type = PACKET_NONE ∧ client.duplex.fd ≠ 0
         then (recv_compressed_buffer c r client.duplex).map (·.2)
         else some client.duplex) with
  | none => none
  | some d => some (d.incoming_packet_type != PACKET_NONE, { client with duplex := d })

/-- A call of a renderer callback with its arguments: `set_clip` and
`draw_rect` get the four rectangle fields (and the colour table), `draw_text`
gets the font object, the text, `text_x` (bit pattern of the `float`), `y`
and the colour table. -/
inductive Call where
  | set_clip (rect : RenRect)
  | draw_rect (rect : RenRect) (color : RenColor)
  | draw_text (font : Nat) (text : List Byte) (x : Nat) (y : Int) (color : RenColor)
  deriving DecidableEq, Repr

/-- Read a `k`-byte field at offset `off` of the struct at `p`. -/
def field (p : List Byte) (off k : Nat) : Option Nat :=
  (takeLE k (p.drop off)).map (·.1)

/-- Read a `RenRect` at offset `off` of the struct at `p`. -/
def field_rect (p : List Byte) (off : Nat) : Option RenRect :=
  match field p off 4, field p (off + 4) 4, field p (off + 8) 4, field p (off + 12) 4 with
  | some x, some y, some w, some h =>
    some { x := toInt32 x, y := toInt32 y, width := toInt32 w, height := toInt32 h }
  | _, _, _, _ => none

/-- Read a `RenColor` at offset `off` of the struct at `p`. -/
def field_color (p : List Byte) (off : Nat) : Option RenColor :=
  match p.drop off with
  | b :: g :: r :: a :: _ => some { b := b, g := g, r := r, a := a }
  | _ => none

/-- The body of the `switch (command->type)` of the replay loop: the callback
invoked for the record at `command`, if any. -/
def replay_command (fonts : List (Int × Nat)) (command : List Byte) (type : Nat) :
    Option (List Call) :=
  if type = SET_CLIP then
    (field_rect command 8).map (fun rect => [Call.set_clip rect])
  else if type = DRAW_RECT then
    match field_rect command 8, field_color command 24 with
    | some rect, some color => some [Call.draw_rect rect color]
    | _, _ => none
  else if type = DRAW_TEXT then
    match field command 12 4 with
    | none => none
    | some font0 =>
      match fonts.lookup (toInt32 font0) with
      | none => some []
      | some font =>
        match field command 40 8, field command 32 4, field command 36 4,
            field_color command 8 with
        | some len, some text_x, some y, some color =>
          match takeBytes len (command.drop offsetof_text) with
          | none => none
          | some (text, _) => some [Call.draw_text font text text_x (toInt32 y) color]
        | _, _, _, _ => none
  else some []

/-- The loop `while (command < end_command)` of `f_client_process_event`;
`remaining` is `end_command - command` (0 once the pointer is at or past the
end). The cursor never moves backwards, so with the fuel `length + 1` given
by the caller, running out of fuel means that a record of size 0 was met and
the C loop never exits. -/
def replay_loop (fonts : List (Int × Nat)) : Nat → List Byte → Nat → Option (List Call)
  | 0, _, _ => none
  | fuel + 1, command, remaining =>
    if 0 < remaining then
      match field command 0 4, field command 4 4 with
      | some type, some size =>
        match replay_command fonts command type with
        | none => none
        | some calls =>
          (replay_loop fonts fuel (command.drop size) (remaining - size)).map (calls ++ ·)
      | _, _ => none
    else some []

/-- Integer value of a Lua value as `lua_tointeger` gives it; the conversion
of floats and of numeric strings is not modelled. -/
def lua_tointeger : Value → Option Int
  | .integer i => some i
  | .nil => some 0
  | .boolean _ => some 0
  | _ => none

/-- Result of `f_client_process_event`: the values returned to Lua, the
renderer callbacks invoked, and the client after the call. -/
structure ProcessResult where
  returned : List Value
  calls : List Call
  client : SClient
  deriving DecidableEq, Repr

/-- The function `f_client_process_event`. The font loader (stack slot 5) is
the parameter `font_load`, returning the font object or nothing (`nil`). The
font-register branch is modelled only when `pull_lua` pushed the five values
it counted. -/
def f_client_process_event (font_load : List Value → Option Nat) (client : SClient) :
    Option ProcessResult :=
  if client.duplex.fd = 0 then
    some { returned := [.string ("quit".toUTF8.toList.map (fun u => byteOf u.toNat))],
           calls := [], client := client }
  else if client.duplex.incoming_packet_type = PACKET_NONE then
    some { returned := [], calls := [], client := client }
  else
    let result := client.duplex.incoming_buffer
    let done : SClient :=
      { client with duplex := { client.duplex with incoming_packet_type := PACKET_NONE } }
    if client.duplex.incoming_packet_type = PACKET_COMMAND_BUFFER then
      match replay_loop client.fonts (result.length + 1) result.data result.length with
      | none => none
      | some calls => some { returned := [], calls := calls, client := done }
    else if client.duplex.incoming_packet_type = PACKET_FONT_REGISTER then
      match pull_lua result with
      | some (5, [path, contents, idx, size, options]) =>
        match lua_tointeger idx with
        | none => none
        | some i =>
          let others := client.fonts.filter (fun e => e.1 != i)
          let loaded := font_load [path, contents, idx, size, options]
          let fonts1 := match loaded with
            | none => others
            | some f => (i, f) :: others
          some { returned := [], calls := [], client := { done with fonts := fonts1 } }
      | _ => none
    else if client.duplex.incoming_packet_type = PACKET_EVENT then
      match pull_lua result with
      | none => none
      | some (_, vals) => some { returned := vals, calls := [], client := done }
    else some { returned := [], calls := [], client := done }

/-! ## Auxiliary notions for the statements -/

/-- The channel once the bytes `bs` have been read into its incoming
compressed buffer, which held nothing. -/
def SDuplex.pending (d : SDuplex) (bs : List Byte) : SDuplex :=
  { d with incoming_compressed_buffer :=
      { d.incoming_compressed_buffer with
        data := writeAt d.incoming_compressed_buffer.data 0 bs, length := bs.length } }

/-- A frame on the wire: type byte, compressed length, compressed payload. -/
def frame_bytes (type : Byte) (payload : List Byte) : List Byte :=
  type :: (le 4 payload.length ++ payload)

/-- The state a sequence of steps ends in, when every step has a result. -/
def final_state (r : Option (Int × SDuplex)) : Option SDuplex := r.map (·.2)

/-! ## A small codec and a small channel for the examples -/

/-- A codec that stores the data behind the magic byte 83; anything else is
not a frame. -/
def stored_codec : Codec where
  compressBound n := n + 1
  compress capacity src :=
    if src.length + 1 ≤ capacity then .ok (83 :: src) else .error (2 ^ 64 - 70)
  getFrameContentSize src :=
    match src with
    | 83 :: rest => rest.length
    | _ => 2 ^ 64 - 2
  decompress capacity src :=
    match src with
    | 83 :: rest => if rest.length ≤ capacity then .ok rest else .error (2 ^ 64 - 70)
    | _ => .error (2 ^ 64 - 10)

/-- An open channel with 16-byte compressed buffers and nothing pending. -/
def small_duplex : SDuplex :=
  { fd := 4, incoming_packet_type := PACKET_NONE,
    incoming_compressed_buffer :=
      { size := 0, capacity := 16, length := 0, data := List.replicate 16 0 },
    incoming_buffer := array_t.zero,
    outgoing_compressed_buffer :=
      { size := 0, capacity := 16, length := 0, data := List.replicate 16 0 },
    outgoing_buffer := array_t.zero }

/-! ## A server session for the examples -/

/-- The result of a call that raised no Lua error. -/
def no_error {α : Type} : Option (Except String α) → Option α
  | some (.ok a) => some a
  | _ => none

def white : RenColor := { b := 255, g := 255, r := 255, a := 255 }

/-- A server after construction, `accept` (descriptor 4) and the
registration of one font (handle 1000) over a socket that takes all bytes. -/
def connected_server : Option SServer :=
  ((f_server 3).bind (fun s => no_error (some (f_server_accept s 4)))).bind (fun s =>
    (f_server_register_font stored_codec [.wrote 4096] s [102] [120] 1000 .nil .nil).map
      (·.1))

/-- The server after one more frame that drew the text `abcdefgH`. -/
def used_server : Option SServer :=
  connected_server.bind (fun s =>
    (no_error (f_server_draw_text (f_server_begin_frame s) 1000
        [97, 98, 99, 100, 101, 102, 103, 72] 0 5 white)).bind (fun s1 =>
      (f_server_end_frame stored_codec [.wrote 4096] s1).map (·.2.1)))

/-- One frame: `begin_frame`, the text `x`, the text `abcdefgh`, `end_frame`
over a socket that takes all bytes. The result is what `end_frame` pushed,
the bytes sent and the server after the frame. -/
def two_text_frame (s : SServer) : Option (Bool × List Byte × SServer) :=
  (no_error (f_server_draw_text (f_server_begin_frame s) 1000 [120] 0 5 white)).bind (fun s1 =>
    (no_error (f_server_draw_text s1 1000 [97, 98, 99, 100, 101, 102, 103, 104] 0 5
        white)).bind (fun s2 =>
      (f_server_end_frame stored_codec [.wrote 4096] s2).map (fun r => (r.1, r.2.2.1, r.2.1))))

/-- The connected server after `begin_frame` and one rectangle. -/
def rect_server : Option SServer :=
  connected_server.bind (fun s =>
    f_server_draw_rect (f_server_begin_frame s)
      { x := 10, y := 10, width := 5, height := 5 } white)

/-- A small server with an open channel whose frame holds one `SetClip`
record; nothing was sent before. -/
def small_server : SServer :=
  { duplex := { small_duplex with
      outgoing_compressed_buffer :=
        { size := 0, capacity := 32, length := 0, data := List.replicate 32 0 } },
    listening := 0,
    registered_fonts := array_t.zero,
    rencache :=
      { buffer := { size := 24, capacity := 32, length := 24,
                    data := le 4 SET_CLIP ++ le 4 24 ++ le 16 0 ++ le 8 0 },
        checksum := hash HASH_INITIAL (le 4 SET_CLIP ++ le 4 24 ++ le 16 0) },
    previous_rencache_checksum := 0,
    cmd_array := array_t.zero }

/-- A closed channel whose outgoing buffer holds an encoded empty tuple, as
`push_lua` leaves it just before the send. -/
def closed_duplex : SDuplex :=
  { small_duplex with
    fd := 0,
    outgoing_buffer := { size := 4, capacity := 4, length := 4, data := [0, 0, 0, 0] } }

/-- A small client with an open channel and no fonts. -/
def small_client : SClient :=
  { duplex := small_duplex, font_table := 1, registered_fonts := array_t.zero, fonts := [] }

/-! ## Command sequences -/

/-- A drawing call on the server, with the arguments as they are stored in
the record. -/
inductive Cmd where
  | set_clip (rect : RenRect)
  | draw_rect (rect : RenRect) (color : RenColor)
  | draw_text (font : Nat) (text : List Byte) (x : Nat) (y : Int) (color : RenColor)
  deriving DecidableEq, Repr

/-- The server function a drawing call runs. -/
def draw_one (server : SServer) : Cmd → Option (Except String SServer)
  | .set_clip rect => (f_server_set_clip_rect server rect).map .ok
  | .draw_rect rect color => (f_server_draw_rect server rect color).map .ok
  | .draw_text font text x y color => f_server_draw_text server font text x y color

/-- Drawing calls in sequence, up to the first Lua error. -/
def draw_all : SServer → List Cmd → Option (Except String SServer)
  | server, [] => some (.ok server)
  | server, cmd :: rest =>
    match draw_one server cmd with
    | some (.ok s1) => draw_all s1 rest
    | other => other

/-- A value in the range of `int`. -/
def fits_int (i : Int) : Prop := -2 ^ 31 ≤ i ∧ i < 2 ^ 31

instance (i : Int) : Decidable (fits_int i) := by unfold fits_int; infer_instance

/-- Arguments that the record fields can hold: `int` coordinates, a 32-bit
float pattern, a text whose record size fits an `int`. -/
def Cmd.fits : Cmd → Prop
  | .set_clip rect =>
    fits_int rect.x ∧ fits_int rect.y ∧ fits_int rect.width ∧ fits_int rect.height
  | .draw_rect rect _ =>
    fits_int rect.x ∧ fits_int rect.y ∧ fits_int rect.width ∧ fits_int rect.height
  | .draw_text _ text x y _ =>
    sizeof_DrawTextCommand + text.length < 2 ^ 31 ∧ x < 2 ^ 32 ∧ fits_int y

instance (cmd : Cmd) : Decidable cmd.fits := by
  cases cmd <;> unfold Cmd.fits <;> infer_instance

/-- The `size` field of the record of a drawing call. -/
def Cmd.size : Cmd → Nat
  | .set_clip _ => sizeof_SetClipCommand
  | .draw_rect _ _ => sizeof_DrawRectCommand
  | .draw_text _ text _ _ _ => sizeof_DrawTextCommand + text.length

/-- The record of a drawing call; `junk` stands for the seven bytes that
follow the text of a `DrawText` record. -/
def Cmd.record (server : SServer) (junk : List Byte) : Cmd → List Byte
  | .set_clip rect => le 4 SET_CLIP ++ (le 4 sizeof_SetClipCommand ++ rect.bytes)
  | .draw_rect rect color =>
    le 4 DRAW_RECT ++ (le 4 sizeof_DrawRectCommand ++ (rect.bytes ++ color.bytes))
  | .draw_text font text x y color =>
    DrawTextCommand_head text.length color ((get_font_index server font).getD (-1)) x y
      ++ (text ++ junk)

/-- The records of a sequence of drawing calls, one junk string per call. -/
def records (server : SServer) : List Cmd → List (List Byte) → List Byte
  | [], _ => []
  | cmd :: cmds, [] => cmd.record server [] ++ records server cmds []
  | cmd :: cmds, junk :: junks => cmd.record server junk ++ records server cmds junks

/-- The callbacks the replay is to invoke for a sequence of drawing calls:
one per call, in order, with the arguments of the call; a text whose font
index has no entry in the client's font table invokes nothing. -/
def expected_calls (server : SServer) (fonts : List (Int × Nat)) : List Cmd → List Call
  | [] => []
  | .set_clip rect :: rest => Call.set_clip rect :: expected_calls server fonts rest
  | .draw_rect rect color :: rest =>
    Call.draw_rect rect color :: expected_calls server fonts rest
  | .draw_text font text x y color :: rest =>
    match (get_font_index server font).bind (fun i => fonts.lookup i) with
    | some f => Call.draw_text f text x y color :: expected_calls server fonts rest
    | none => expected_calls server fonts rest

/-- The font of a text call is registered: `get_font_index` finds an index. -/
def Cmd.registered (server : SServer) : Cmd → Prop
  | .draw_text font _ _ _ _ =>
    get_font_index server font ≠ none ∧ get_font_index server font ≠ some (-1)
  | _ => True

instance (server : SServer) (cmd : Cmd) : Decidable (cmd.registered server) := by
  cases cmd <;> unfold Cmd.registered <;> infer_instance

/-- A small server with an open channel and two registered fonts (handle 1000
with index 1, handle 2000 with index 17). -/
def font_server : SServer :=
  { small_server with
    registered_fonts :=
      { size := 16, capacity := 32, length := 32,
        data := le 4 1 ++ le 4 0 ++ le 8 1000 ++ le 4 17 ++ le 4 0 ++ le 8 2000 } }

/-- A frame of four drawing calls; the second text uses the font that the
client below has not loaded. -/
def four_calls : List Cmd :=
  [.set_clip { x := 0, y := 0, width := 100, height := 100 },
   .draw_text 1000 [104, 105] 1092616192 20 white,
   .draw_text 2000 [104, 111] 1092616192 40 white,
   .draw_rect { x := 10, y := 10, width := 5, height := 5 } white]

/-- The command buffer of `font_server` after `begin_frame` and the four calls. -/
def four_calls_buffer : array_t :=
  match draw_all (f_server_begin_frame font_server) four_calls with
  | some (.ok s) => s.rencache.buffer
  | _ => array_t.zero

/-- A small client with an open channel, one loaded font (index 1, font
object 77) and the frame of the four calls pending as a command buffer. -/
def font_client : SClient :=
  { small_client with
    duplex := { small_duplex with
      incoming_packet_type := PACKET_COMMAND_BUFFER, incoming_buffer := four_calls_buffer },
    fonts := [(1, 77)] }

/-! ## Further states used by the properties of the buffer operations -/

/-- A buffer of capacity 4 that holds the three bytes 1, 2, 3. -/
def three_bytes : array_t := { size := 1, capacity := 4, length := 3, data := [1, 2, 3, 0] }

/-- A block of memory that is exactly one command record: the `size` member
(the `uint32_t` at offset 4) holds the number of its bytes, which an `int`
can hold. -/
def is_record (command : List Byte) : Prop :=
  8 ≤ command.length ∧ command.length < 2 ^ 31
    ∧ (command.drop 4).take 4 = le 4 command.length

instance (command : List Byte) : Decidable (is_record command) := by
  unfold is_record; infer_instance

/-- Calls of `push_command` in sequence, one per command. -/
def push_all : SRencache → List (List Byte) → Option SRencache
  | rencache, [] => some rencache
  | rencache, command :: rest =>
    match push_command rencache command with
    | none => none
    | some (_, r1) => push_all r1 rest

/-- The storing codec, except that it reports the content size 7 for data
that is not a frame. -/
def small_hint_codec : Codec :=
  { stored_codec with
    getFrameContentSize := fun src =>
      match src with
      | 83 :: rest => rest.length
      | _ => 7 }

/-! ## Sequences of font registrations -/

/-- The 16 bytes of an `SFont` in memory: `index`, four padding bytes, `font`. -/
def SFont_bytes (index : Int) (font : Nat) : List Byte :=
  le 4 (toU32 index) ++ [0, 0, 0, 0] ++ le 8 font

/-- The entries that successive registrations of the handles `fonts` append
to a registry that holds `length` bytes. -/
def registry_bytes : Nat → List Nat → List Byte
  | _, [] => []
  | length, font :: rest =>
    SFont_bytes (toInt32 (length + 1)) font ++ registry_bytes (length + sizeof_SFont) rest

/-- The arguments of one call of `register_font`, and the outcomes of the
`write`s of that call. -/
structure FontCall where
  path : List Byte
  contents : List Byte
  font : Nat
  size : Value
  options : Value
  ws : List WriteOutcome
  deriving DecidableEq, Repr

/-- Calls of `f_server_register_font` in sequence. -/
def register_all (c : Codec) : SServer → List FontCall → Option SServer
  | server, [] => some server
  | server, call :: rest =>
    match f_server_register_font c call.ws server call.path call.contents call.font
        call.size call.options with
    | none => none
    | some (s1, _, _) => register_all c s1 rest

/-- The member `((SFont*)registered_fonts.data)[k].index`. -/
def assigned_index (server : SServer) (k : Nat) : Option Int :=
  (field server.registered_fonts.data (sizeof_SFont * k) 4).map toInt32

/-- The server `font_server` with its channel closed. -/
def closed_font_server : SServer := { font_server with duplex := closed_duplex }

/-- Two registrations, of the handles 1000 and 2000, each over a socket that
takes all bytes at the first `write`. -/
def two_fonts : List FontCall :=
  [{ path := [102], contents := [120], font := 1000, size := .nil, options := .nil,
     ws := [.wrote (2 ^ 31)] },
   { path := [103], contents := [121], font := 2000, size := .nil, options := .nil,
     ws := [.wrote (2 ^ 31)] }]

/-! ## Consuming a frame -/

/-- The channel after `f_server_poll_event` has consumed the pending frame:
`array_clear(&incoming_buffer)` and `incoming_packet_type = PACKET_NONE`. -/
def SDuplex.consumed (d : SDuplex) : SDuplex :=
  { d with incoming_buffer := array_clear d.incoming_buffer,
           incoming_packet_type := PACKET_NONE }

/-! ## The cursor of the replay loop -/

/-- The struct `Command` up to its flexible array member: `type` and `size`. -/
def sizeof_Command : Nat := 8

/-- The loop `while (command < end_command)` of `f_client_process_event`
once more, with the cursor made visible: `cursor` is `command - result->data`
and `length` is `result->length`. The result holds the callbacks invoked, the
offset and the `size` member of every record visited, in order, and the
cursor at the exit of the loop. -/
def replay_trace (fonts : List (Int × Nat)) :
    Nat → List Byte → Nat → Nat → Option (List Call × List (Nat × Nat) × Nat)
  | 0, _, _, _ => none
  | fuel + 1, data, cursor, length =>
    if cursor < length then
      match field (data.drop cursor) 0 4, field (data.drop cursor) 4 4 with
      | some type, some size =>
        match replay_command fonts (data.drop cursor) type with
        | none => none
        | some calls =>
          (replay_trace fonts fuel data (cursor + size) length).map
            (fun r => (calls ++ r.1, (cursor, size) :: r.2.1, r.2.2))
      | _, _ => none
    else some ([], [], cursor)

/-- Offset and size of the record of each drawing call, for records stored
one after the other from the offset `offset` on. -/
def record_offsets : Nat → List Cmd → List (Nat × Nat)
  | _, [] => []
  | offset, cmd :: rest => (offset, cmd.size) :: record_offsets (offset + cmd.size) rest

/-! # Theorems -/

/-! ### Bytes and machine integers -/

theorem le_length (k n : Nat) : (le k n).length = k := by
  induction k generalizing n with
  | zero => rfl
  | succ k ih => simp [le, ih]

theorem unle_le (k n : Nat) : unle (le k n) = n % 256 ^ k := by
  induction k generalizing n with
  | zero => simp [le, unle, Nat.mod_one]
  | succ k ih =>
    simp only [le, unle, ih, byteOf]
    rw [Nat.pow_succ, Nat.mul_comm (256 ^ k) 256, Nat.mod_mul]

theorem takeBytes_append (bs rest : List Byte) :
    takeBytes bs.length (bs ++ rest) = some (bs, rest) := by
  simp [takeBytes]

theorem takeBytes_append_of_length (k : Nat) (bs rest : List Byte) (h : bs.length = k) :
    takeBytes k (bs ++ rest) = some (bs, rest) := by
  subst h; exact takeBytes_append bs rest

theorem takeLE_le (k n : Nat) (rest : List Byte) :
    takeLE k (le k n ++ rest) = some (n % 256 ^ k, rest) := by
  simp [takeLE, takeBytes_append_of_length k (le k n) rest (le_length k n), unle_le]

theorem toInt32_toU32 (i : Int) (h1 : -2 ^ 31 ≤ i) (h2 : i < 2 ^ 31) :
    toInt32 (toU32 i) = i := by
  unfold toInt32 toU32
  omega

theorem toU32_lt (i : Int) : toU32 i < 2 ^ 32 := by
  unfold toU32
  omega

/-! ### Growable buffer -/

theorem reserve_loop_spec (fuel c len : Nat) (hc : 1 ≤ c) (hc64 : c < 2 ^ 64)
    (hlen : len ≤ 2 ^ 63) (hfuel : len ≤ c * 2 ^ fuel) :
    ∃ c1, reserve_loop (fuel + 1) c len = some c1 ∧ len ≤ c1 ∧ c ≤ c1 ∧ c1 < 2 ^ 64 := by
  induction fuel generalizing c with
  | zero =>
    have : ¬ c < len := by simpa using hfuel
    exact ⟨c, by simp [reserve_loop, this], by omega, le_refl _, hc64⟩
  | succ fuel ih =>
    by_cases h : c < len
    · have h2 : c * 2 < 2 ^ 64 := by omega
      have hmod : (c * 2) % 2 ^ 64 = c * 2 := Nat.mod_eq_of_lt h2
      have hf : len ≤ (c * 2) * 2 ^ fuel := by
        rw [Nat.pow_succ] at hfuel
        calc len ≤ c * (2 ^ fuel * 2) := hfuel
          _ = (c * 2) * 2 ^ fuel := by ring
      obtain ⟨c1, h1, h3, h4, h5⟩ := ih (c * 2) (by omega) h2 hf
      refine ⟨c1, ?_, h3, by omega, h5⟩
      rw [reserve_loop, if_pos h, hmod]
      exact h1
    · exact ⟨c, by rw [reserve_loop, if_neg h], by omega, le_refl _, hc64⟩

theorem array_reserve_spec (a : array_t) (n : Nat) (hwf : a.WF) (hn : n ≤ 2 ^ 63) :
    ∃ a1, array_reserve a n = some (n, a1) ∧ a1.WF ∧ a1.length = a.length ∧ a1.size = a.size
      ∧ n ≤ a1.capacity ∧ a.capacity ≤ a1.capacity
      ∧ a1.data = a.data ++ List.replicate (a1.capacity - a.capacity) 0 := by
  obtain ⟨hd, hl, hc⟩ := hwf
  by_cases h : a.capacity < n
  · have hc0 : 1 ≤ (if a.capacity = 0 then 1 else a.capacity) := by split <;> omega
    have hc1 : (if a.capacity = 0 then 1 else a.capacity) < 2 ^ 64 := by split <;> omega
    have hf : n ≤ (if a.capacity = 0 then 1 else a.capacity) * 2 ^ 64 := by
      have : n ≤ 1 * 2 ^ 64 := by omega
      exact le_trans this (Nat.mul_le_mul_right _ hc0)
    obtain ⟨c1, h1, h2, h3, h4⟩ := reserve_loop_spec 64 _ n hc0 hc1 hn hf
    have hcap : a.capacity ≤ c1 := by
      have : a.capacity ≤ (if a.capacity = 0 then 1 else a.capacity) := by split <;> omega
      omega
    refine ⟨{ a with capacity := c1, data := realloc a.data c1 }, ?_, ?_, rfl, rfl, h2, hcap, ?_⟩
    · simp only [array_reserve, if_pos h, h1]
    · refine ⟨?_, by simp only; omega, h4⟩
      simp only [realloc, List.length_append, List.length_take, List.length_replicate]
      omega
    · simp only [realloc]
      rw [List.take_of_length_le (by omega), hd]
  · refine ⟨a, by simp [array_reserve, h], ⟨hd, hl, hc⟩, rfl, rfl, by omega, le_refl _, by simp⟩

theorem writeAt_length (mem bs : List Byte) (off : Nat) (h : off + bs.length ≤ mem.length) :
    (writeAt mem off bs).length = mem.length := by
  simp only [writeAt, List.length_append, List.length_take, List.length_drop]
  omega

theorem writeAt_take (mem bs : List Byte) (off : Nat) (h : off ≤ mem.length) :
    (writeAt mem off bs).take (off + bs.length) = mem.take off ++ bs := by
  have h1 : (mem.take off ++ bs).length = off + bs.length := by
    simp [List.length_take]; omega
  unfold writeAt
  rw [← h1, List.take_left]

theorem array_append_spec (a : array_t) (bs : List Byte) (hwf : a.WF)
    (h : a.length + bs.length ≤ 2 ^ 63) :
    ∃ a1, array_append a bs = some (a.length + bs.length, a1) ∧ a1.WF
      ∧ a1.length = a.length + bs.length ∧ a1.contents = a.contents ++ bs
      ∧ a.capacity ≤ a1.capacity := by
  have hwf1 : (if a.size = 0 then { a with size := bs.length } else a).WF := by
    split <;> exact hwf
  have hl1 : (if a.size = 0 then { a with size := bs.length } else a).length = a.length := by
    split <;> rfl
  have hc1 : (if a.size = 0 then { a with size := bs.length } else a).capacity = a.capacity := by
    split <;> rfl
  have hd1 : (if a.size = 0 then { a with size := bs.length } else a).data = a.data := by
    split <;> rfl
  have hmod : (bs.length + a.length) % 2 ^ 64 = bs.length + a.length :=
    Nat.mod_eq_of_lt (by omega)
  obtain ⟨a2, h2, hwf2, hlen2, _, hn2, hcap2, hdata2⟩ :=
    array_reserve_spec _ (bs.length + a.length) hwf1 (by omega)
  rw [hl1] at hlen2
  rw [hc1] at hcap2
  rw [hd1, hc1] at hdata2
  obtain ⟨hd, hl, hc⟩ := hwf2
  have hfit : a2.length + bs.length ≤ a2.data.length := by omega
  have hmod2 : (a2.length + bs.length) % 2 ^ 64 = a.length + bs.length := by
    rw [hlen2]; exact Nat.mod_eq_of_lt (by omega)
  refine ⟨{ a2 with data := writeAt a2.data a2.length bs, length := a.length + bs.length },
    ?_, ?_, rfl, ?_, hcap2⟩
  · simp only [array_append, hl1, hmod, h2, if_pos hfit, hmod2]
  · refine ⟨?_, by simp only; omega, hc⟩
    simp only
    rw [writeAt_length _ _ _ hfit, hd]
  · simp only [array_t.contents]
    rw [hlen2, writeAt_take _ _ _ (by omega), hdata2]
    rw [List.take_append_of_le_length (by rw [hwf.1]; exact hwf.2.1)]

theorem reserve_loop_zero (fuel len : Nat) (h : 0 < len) : reserve_loop fuel 0 len = none := by
  induction fuel with
  | zero => rfl
  | succ f ih => rw [reserve_loop, if_pos h]; exact ih

theorem reserve_loop_none_step (n len : Nat) :
    ∀ c : Nat, (c * 2 ^ n) % 2 ^ 64 = 0 → reserve_loop (n + 1) c len = none →
      ∀ k, reserve_loop (n + 1 + k) c len = none := by
  induction n with
  | zero =>
    intro c hc h k
    have hlt : c < len := by
      rw [reserve_loop] at h
      by_cases hlt : c < len
      · exact hlt
      · rw [if_neg hlt] at h; cases h
    have hz : (c * 2) % 2 ^ 64 = 0 := by
      simp only [Nat.pow_zero, Nat.mul_one] at hc
      omega
    have e : 0 + 1 + k = k + 1 := by omega
    rw [e, reserve_loop, if_pos hlt, hz]
    exact reserve_loop_zero k len (by omega)
  | succ n ih =>
    intro c hc h k
    have hlt : c < len := by
      rw [reserve_loop] at h
      by_cases hlt : c < len
      · exact hlt
      · rw [if_neg hlt] at h; cases h
    rw [reserve_loop, if_pos hlt] at h
    have hc1 : ((c * 2) % 2 ^ 64 * 2 ^ n) % 2 ^ 64 = 0 := by
      rw [Nat.mod_mul_mod, Nat.mul_assoc, ← Nat.pow_succ']
      exact hc
    have e : n + 1 + 1 + k = (n + 1 + k) + 1 := by omega
    rw [e, reserve_loop, if_pos hlt]
    exact ih _ hc1 h k

/-- The fuel of `array_reserve` is enough: when the doubling loop has not
ended after 65 tests, the capacity is 0 and no amount of further steps ends
it. -/
theorem reserve_loop_diverges (c len k : Nat) (h : reserve_loop 65 c len = none) :
    reserve_loop (65 + k) c len = none :=
  reserve_loop_none_step 64 len c (Nat.mul_mod_left _ _) h k

/-! ### Value codec -/

theorem concat_all_length_le (bss : List (List Byte)) (bs : List Byte) (h : bs ∈ bss) :
    bs.length ≤ (concat_all bss).length := by
  induction bss with
  | nil => cases h
  | cons x xs ih =>
    simp only [concat_all, List.length_append]
    rcases List.mem_cons.mp h with h1 | h1
    · subst h1; omega
    · have := ih h1; omega

theorem append_all_spec (bss : List (List Byte)) (a : array_t) (hwf : a.WF)
    (h : a.length + (concat_all bss).length ≤ 2 ^ 63) :
    ∃ a1, append_all a bss = some a1 ∧ a1.WF
      ∧ a1.length = a.length + (concat_all bss).length
      ∧ a1.contents = a.contents ++ concat_all bss := by
  induction bss generalizing a with
  | nil => exact ⟨a, rfl, hwf, by simp [concat_all], by simp [concat_all]⟩
  | cons bs rest ih =>
    simp only [concat_all, List.length_append] at h
    obtain ⟨a1, h1, hwf1, hl1, hc1, _⟩ := array_append_spec a bs hwf (by omega)
    obtain ⟨a2, h2, hwf2, hl2, hc2⟩ := ih a1 hwf1 (by omega)
    refine ⟨a2, ?_, hwf2, ?_, ?_⟩
    · simp only [append_all, h1, h2]
    · simp only [concat_all, List.length_append]; omega
    · rw [hc2, hc1]; simp [concat_all]

theorem push_lua_loop_spec (vs : List Value) (a : array_t) (hwf : a.WF)
    (h : a.length + (concat_all (vs.map Value.bytes)).length ≤ 2 ^ 63) :
    ∃ a1, push_lua_loop a vs = some a1 ∧ a1.WF
      ∧ a1.length = a.length + (concat_all (vs.map Value.bytes)).length
      ∧ a1.contents = a.contents ++ concat_all (vs.map Value.bytes) := by
  induction vs generalizing a with
  | nil => exact ⟨a, rfl, hwf, by simp [concat_all], by simp [concat_all]⟩
  | cons v rest ih =>
    simp only [List.map_cons, concat_all, List.length_append] at h
    obtain ⟨a1, h1, hwf1, hl1, hc1⟩ :=
      append_all_spec (le 4 (toU32 v.tag) :: v.payload) a hwf (by
        have : (concat_all (le 4 (toU32 v.tag) :: v.payload)).length = v.bytes.length := rfl
        omega)
    have hb : concat_all (le 4 (toU32 v.tag) :: v.payload) = v.bytes := rfl
    rw [hb] at hl1 hc1
    obtain ⟨a2, h2, hwf2, hl2, hc2⟩ := ih a1 hwf1 (by omega)
    refine ⟨a2, ?_, hwf2, ?_, ?_⟩
    · simp only [push_lua_loop, push_lua_value, h1, h2]
    · simp only [List.map_cons, concat_all, List.length_append]; omega
    · rw [hc2, hc1]; simp [concat_all]

theorem push_lua_spec (vs : List Value) (a : array_t) (hwf : a.WF)
    (h : a.length + (encode_tuple vs).length ≤ 2 ^ 63) :
    ∃ a1, push_lua vs a = some a1 ∧ a1.WF
      ∧ a1.length = a.length + (encode_tuple vs).length
      ∧ a1.contents = a.contents ++ encode_tuple vs := by
  simp only [encode_tuple, List.length_append, le_length] at h
  obtain ⟨a1, h1, hwf1, hl1, hc1, _⟩ := array_append_spec a (le 4 vs.length) hwf (by
    rw [le_length]; omega)
  rw [le_length] at hl1
  obtain ⟨a2, h2, hwf2, hl2, hc2⟩ := push_lua_loop_spec vs a1 hwf1 (by omega)
  refine ⟨a2, ?_, hwf2, ?_, ?_⟩
  · simp only [push_lua, h1, h2]
  · simp only [encode_tuple, List.length_append, le_length]; omega
  · rw [hc2, hc1]; simp [encode_tuple]

theorem pull_lua_loop_succ (n : Nat) (t : Int) (p : List Byte) (h1 : -2 ^ 31 ≤ t)
    (h2 : t < 2 ^ 31) :
    pull_lua_loop (n + 1) (le 4 (toU32 t) ++ p) =
      if t = LUA_TNIL then (pull_lua_loop n p).map (Value.nil :: ·)
      else if t = LUA_TINTEGER then
        match takeLE 4 p with
        | none => none
        | some (i, p1) => (pull_lua_loop n p1).map (Value.integer (toInt32 i) :: ·)
      else if t = LUA_TBOOLEAN then
        match takeLE 1 p with
        | none => none
        | some (c, p1) => (pull_lua_loop n p1).map (Value.boolean (c != 0) :: ·)
      else if t = LUA_TSTRING then
        match takeLE 8 p with
        | none => none
        | some (length, p1) =>
          match takeBytes length p1 with
          | none => none
          | some (s, p2) => (pull_lua_loop n p2).map (Value.string s :: ·)
      else if t = LUA_TNUMBER then
        match takeLE 8 p with
        | none => none
        | some (bits, p1) => (pull_lua_loop n p1).map (Value.number bits :: ·)
      else pull_lua_loop n p := by
  have hu : toU32 t % 256 ^ 4 = toU32 t :=
    Nat.mod_eq_of_lt (by have := toU32_lt t; omega)
  rw [pull_lua_loop, takeLE_le, hu]
  simp only [toInt32_toU32 t h1 h2]

theorem pull_lua_loop_records (rs : List Record) (rest : List Byte)
    (h : ∀ r ∈ rs, r.fits) :
    pull_lua_loop rs.length (Record.all_bytes rs ++ rest) = some (Record.values rs) := by
  induction rs with
  | nil => rfl
  | cons r rs ih =>
    have ih1 := ih (fun r hr => h r (List.mem_cons_of_mem _ hr))
    have hr := h r (List.mem_cons_self _ _)
    have hcons : Record.all_bytes (r :: rs) ++ rest
        = r.bytes ++ (Record.all_bytes rs ++ rest) := by
      simp [Record.all_bytes, concat_all]
    rw [hcons, List.length_cons]
    cases r with
    | other t =>
      obtain ⟨h1, h2, n1, n2, n3, n4, n5⟩ := hr
      rw [Record.bytes, pull_lua_loop_succ _ _ _ h1 h2, if_neg n1, if_neg n2, if_neg n3,
        if_neg n4, if_neg n5, ih1]
      rfl
    | value v =>
      cases v with
      | nil =>
        have hb : (Record.value Value.nil).bytes = le 4 (toU32 LUA_TNIL) ++ [] := rfl
        rw [hb, List.append_assoc, pull_lua_loop_succ _ _ _ (by decide) (by decide),
          if_pos rfl, List.nil_append, ih1]
        rfl
      | boolean b =>
        have hb : (Record.value (Value.boolean b)).bytes
            = le 4 (toU32 LUA_TBOOLEAN) ++ [if b then 1 else 0] := by
          simp [Record.bytes, Value.bytes, concat_all, Value.tag, Value.payload]
        rw [hb, List.append_assoc, pull_lua_loop_succ _ _ _ (by decide) (by decide),
          if_neg (by decide), if_neg (by decide), if_pos rfl]
        have ht : takeLE 1 ([if b then (1 : Byte) else 0] ++ (Record.all_bytes rs ++ rest))
            = some (if b then 1 else 0, Record.all_bytes rs ++ rest) := by
          cases b <;> simp [takeLE, takeBytes, unle]
        rw [ht]
        simp only [ih1]
        cases b <;> rfl
      | integer i =>
        obtain ⟨h1, h2⟩ := hr
        have hb : (Record.value (Value.integer i)).bytes
            = le 4 (toU32 LUA_TINTEGER) ++ le 4 (toU32 i) := by
          simp [Record.bytes, Value.bytes, concat_all, Value.tag, Value.payload]
        have hu : toU32 i % 256 ^ 4 = toU32 i :=
          Nat.mod_eq_of_lt (by have := toU32_lt i; omega)
        rw [hb, List.append_assoc, pull_lua_loop_succ _ _ _ (by decide) (by decide),
          if_neg (by decide), if_pos rfl, takeLE_le, hu]
        simp only [ih1, toInt32_toU32 i h1 h2]
        rfl
      | number bits =>
        have hbits : bits < 2 ^ 64 := hr
        have hb : (Record.value (Value.number bits)).bytes
            = le 4 (toU32 LUA_TNUMBER) ++ le 8 bits := by
          simp [Record.bytes, Value.bytes, concat_all, Value.tag, Value.payload]
        have hu : bits % 256 ^ 8 = bits := Nat.mod_eq_of_lt (by omega)
        rw [hb, List.append_assoc, pull_lua_loop_succ _ _ _ (by decide) (by decide),
          if_neg (by decide), if_neg (by decide), if_neg (by decide), if_neg (by decide),
          if_pos rfl, takeLE_le, hu]
        simp only [ih1]
        rfl
      | string s =>
        have hs : s.length < 2 ^ 64 := hr
        have hb : (Record.value (Value.string s)).bytes
            = le 4 (toU32 LUA_TSTRING) ++ (le 8 s.length ++ s) := by
          simp [Record.bytes, Value.bytes, concat_all, Value.tag, Value.payload]
        have hu : s.length % 256 ^ 8 = s.length := Nat.mod_eq_of_lt (by omega)
        rw [hb, List.append_assoc, pull_lua_loop_succ _ _ _ (by decide) (by decide),
          if_neg (by decide), if_neg (by decide), if_neg (by decide), if_pos rfl,
          List.append_assoc, takeLE_le, hu]
        simp only [takeBytes_append, ih1]
        rfl

theorem pull_lua_of_records (rs : List Record) (buffer : array_t)
    (hfit : ∀ r ∈ rs, r.fits) (hcount : rs.length < 2 ^ 31)
    (hlen : buffer.length ≤ buffer.data.length)
    (hdata : buffer.contents = le 4 rs.length ++ Record.all_bytes rs) :
    pull_lua buffer = some ((rs.length : Int), Record.values rs) := by
  have hsplit : buffer.data
      = le 4 rs.length ++ (Record.all_bytes rs ++ buffer.data.drop buffer.length) := by
    rw [← List.append_assoc, ← hdata, array_t.contents, List.take_append_drop]
  have hpos : 0 < buffer.length := by
    have h1 : buffer.contents.length = buffer.length := by
      rw [array_t.contents, List.length_take]; omega
    rw [hdata, List.length_append, le_length] at h1
    omega
  have hmod : rs.length % 256 ^ 4 = rs.length := Nat.mod_eq_of_lt (by omega)
  have hint : toInt32 rs.length = (rs.length : Int) := by
    unfold toInt32; omega
  rw [pull_lua, if_pos hpos, hsplit, takeLE_le, hmod]
  simp only [hint, Int.toNat_ofNat, pull_lua_loop_records rs _ hfit]

theorem all_bytes_values (v : List Value) :
    Record.all_bytes (v.map Record.value) = concat_all (v.map Value.bytes) := by
  induction v with
  | nil => rfl
  | cons x xs ih =>
    simp only [Record.all_bytes, List.map_cons, concat_all, Record.bytes] at ih ⊢
    rw [ih]

theorem values_map_value (v : List Value) : Record.values (v.map Record.value) = v := by
  induction v with
  | nil => rfl
  | cons x xs ih => simp only [List.map_cons, Record.values, ih]

/-- C1 (as stated, refuted): the 64-bit integer `2^31` is written as an `int`
and comes back as `-2^31`. -/
theorem roundtrip_fails_beyond_int :
    (push_lua [Value.integer (2 ^ 31)] array_t.zero).bind pull_lua
        = some (1, [Value.integer (-2 ^ 31)])
      ∧ (push_lua [Value.integer (2 ^ 31)] array_t.zero).bind pull_lua
        ≠ some (1, [Value.integer (2 ^ 31)]) := by
  decide

/-- C1 (amended): for every tuple `v` of nil, boolean, integer, float and
string values whose integers lie in the range of a 32-bit `int`, `push_lua`
into an empty buffer succeeds and `pull_lua` on the result returns the count
of `v` and pushes exactly `v`: same order, same tags, same payloads. (The
count must fit the `int` parameter `n` and the bytes must fit the buffer.) -/
theorem push_pull_roundtrip (v : List Value) (buffer : array_t)
    (hwf : buffer.WF) (hempty : buffer.length = 0)
    (hfit : ∀ x ∈ v, x.fits) (hcount : v.length < 2 ^ 31)
    (hsize : (encode_tuple v).length ≤ 2 ^ 63) :
    ∃ b, push_lua v buffer = some b ∧ pull_lua b = some ((v.length : Int), v) := by
  obtain ⟨b, h1, hwfb, _, hc⟩ := push_lua_spec v buffer hwf (by omega)
  refine ⟨b, h1, ?_⟩
  have hc0 : buffer.contents = [] := by simp [array_t.contents, hempty]
  rw [hc0, List.nil_append] at hc
  have h := pull_lua_of_records (v.map Record.value) b
    (by
      intro r hr
      obtain ⟨x, hx, rfl⟩ := List.mem_map.mp hr
      exact hfit x hx)
    (by simpa using hcount) (by rw [hwfb.1]; exact hwfb.2.1)
    (by rw [hc, encode_tuple, all_bytes_values, List.length_map])
  rw [h, List.length_map, values_map_value]

theorem push_pull_roundtrip_witness :
    ∃ b, push_lua [Value.nil, Value.boolean true, Value.integer (-5), Value.number 4614253070214989087,
          Value.string [104, 0, 105], Value.string []] array_t.zero = some b
      ∧ pull_lua b = some (((6 : Nat) : Int), [Value.nil, Value.boolean true, Value.integer (-5),
          Value.number 4614253070214989087, Value.string [104, 0, 105], Value.string []]) :=
  push_pull_roundtrip _ array_t.zero (by decide) (by decide) (by decide) (by decide) (by decide)

/-- C2 (as stated, refuted): a buffer announcing one record whose tag is 7
(none of the known tags) is decoded without any failure: `pull_lua` returns
the count 1 and pushes nothing. -/
theorem unknown_tag_not_rejected :
    pull_lua { size := 1, capacity := 8, length := 8, data := [1, 0, 0, 0, 7, 0, 0, 0] }
      = some (1, []) := by
  decide

/-- C2 (amended): for every encoded tuple buffer whose records are values of
the five kinds or bare tags outside the known set, `pull_lua` does not fail:
it returns the count of the header and pushes the values of the known
records, in order; a record with an unknown tag pushes nothing and only its
four tag bytes are passed over. -/
theorem pull_lua_skips_unknown_tags (rs : List Record) (buffer : array_t)
    (hfit : ∀ r ∈ rs, r.fits) (hcount : rs.length < 2 ^ 31)
    (hlen : buffer.length ≤ buffer.data.length)
    (hdata : buffer.contents = le 4 rs.length ++ Record.all_bytes rs) :
    pull_lua buffer = some ((rs.length : Int), Record.values rs) :=
  pull_lua_of_records rs buffer hfit hcount hlen hdata

theorem pull_lua_skips_unknown_tags_witness :
    pull_lua { size := 1, capacity := 32, length := 20,
               data := [3, 0, 0, 0, 200, 0, 0, 0, 5, 0, 0, 0, 7, 0, 0, 0, 0, 0, 0, 0,
                        9, 9, 9, 9, 9, 9, 9, 9, 9, 9, 9, 9] }
      = some ((([Record.value (Value.integer 5), Record.other 7, Record.value Value.nil].length
          : Nat) : Int), Record.values [Record.value (Value.integer 5), Record.other 7,
            Record.value Value.nil]) :=
  pull_lua_skips_unknown_tags _ _ (by decide) (by decide) (by decide) (by decide)

/-! ### Receive path -/

theorem writeAt_zero (mem bs : List Byte) : writeAt mem 0 bs = bs ++ mem.drop bs.length := by
  simp [writeAt]

theorem writeAt_nil (mem : List Byte) (off : Nat) : writeAt mem off [] = mem := by
  simp [writeAt]

theorem writeAt_writeAt (mem p q : List Byte) :
    writeAt (writeAt mem 0 p) p.length q = writeAt mem 0 (p ++ q) := by
  simp only [writeAt_zero]
  simp only [writeAt, List.take_left, List.append_assoc, List.length_append]
  congr 2
  rw [List.drop_append_eq_append_drop]
  have : p.length + q.length - p.length = q.length := by omega
  simp [List.drop_drop, this]

theorem takeLE_eq (k : Nat) (mem : List Byte) (h : k ≤ mem.length) :
    takeLE k mem = some (unle (mem.take k), mem.drop k) := by
  simp [takeLE, takeBytes, h]

theorem pending_nil (d : SDuplex) (h : d.incoming_compressed_buffer.length = 0) :
    d.pending [] = d := by
  cases d with
  | mk fd ty icb ib ocb ob =>
    cases icb with
    | mk s c l dt =>
      simp only at h
      subst h
      simp [SDuplex.pending, writeAt_nil]

theorem toSizeT_ofNat (n : Nat) (h : n < 2 ^ 64) : toSizeT (n : Int) = n := by
  unfold toSizeT; omega

theorem toInt32_small (n : Nat) (h : n < 2 ^ 31) : toInt32 n = (n : Int) := by
  unfold toInt32; omega

/-- While fewer bytes are buffered than the frame announced by the header
needs, the decoding step changes nothing and reports 1. -/
theorem recv_decode_partial (c : Codec) (x : SDuplex) (L : Nat)
    (hcap : 5 + L ≤ x.incoming_compressed_buffer.capacity)
    (hdat : 5 ≤ x.incoming_compressed_buffer.data.length)
    (hint : 5 + L < 2 ^ 31) (hlt : x.incoming_compressed_buffer.length < 5 + L)
    (hhdr : 5 ≤ x.incoming_compressed_buffer.length →
      (x.incoming_compressed_buffer.data.drop 1).take 4 = le 4 L) :
    recv_decode c x = some (1, x) := by
  unfold recv_decode
  by_cases h5 : x.incoming_compressed_buffer.length < 1 + 4
  · simp only [if_pos h5]
  · have h5b : 5 ≤ x.incoming_compressed_buffer.length := by omega
    have hL : L % 256 ^ 4 = L := Nat.mod_eq_of_lt (by omega)
    have hread : takeLE 4 (x.incoming_compressed_buffer.data.drop 1)
        = some (L, (x.incoming_compressed_buffer.data.drop 1).drop 4) := by
      rw [takeLE_eq _ _ (by rw [List.length_drop]; omega), hhdr h5b, unle_le, hL]
    have harg : toSizeT (toInt32 L + 1 + 4) = 5 + L := by
      rw [toInt32_small L (by omega)]
      have : ((L : Int) + 1 + 4) = ((5 + L : Nat) : Int) := by push_cast; ring
      rw [this, toSizeT_ofNat _ (by omega)]
    have hres : array_reserve x.incoming_compressed_buffer (5 + L)
        = some (5 + L, x.incoming_compressed_buffer) := by
      simp only [array_reserve, if_neg (by omega : ¬ x.incoming_compressed_buffer.capacity < 5 + L)]
    have htot : toSizeT (toInt32 (5 + L)) = 5 + L := by
      rw [toInt32_small _ hint, toSizeT_ofNat _ (by omega)]
    simp only [if_neg h5, hread, harg, hres, htot, if_pos hlt]

/-- Once a whole frame is buffered, the decoding step sets the packet type,
decompresses the payload into the incoming buffer and shifts the frame out
of the compressed buffer; a failing decompression closes the channel. -/
theorem recv_decode_frame (c : Codec) (x : SDuplex) (t : Byte) (payload rest : List Byte)
    (hdata : x.incoming_compressed_buffer.data = frame_bytes t payload ++ rest)
    (hcap : 5 + payload.length ≤ x.incoming_compressed_buffer.capacity)
    (hint : 5 + payload.length < 2 ^ 31)
    (hlen : 5 + payload.length ≤ x.incoming_compressed_buffer.length)
    (hld : x.incoming_compressed_buffer.length ≤ x.incoming_compressed_buffer.data.length) :
    recv_decode c x =
      match array_reserve x.incoming_buffer (c.getFrameContentSize payload) with
      | none => none
      | some (_, ib) =>
        match c.decompress ib.capacity payload with
        | .error _ =>
          some (0, { x with incoming_packet_type := charToEnum t, incoming_buffer := ib,
                            fd := 0 })
        | .ok out =>
          match store ib.data 0 out with
          | none => none
          | some data1 =>
            some (1, { x with
              incoming_packet_type := charToEnum t,
              incoming_buffer := { ib with data := data1, length := out.length },
              incoming_compressed_buffer :=
                { x.incoming_compressed_buffer with
                  data := writeAt x.incoming_compressed_buffer.data 0
                    ((x.incoming_compressed_buffer.data.drop (5 + payload.length)).take
                      (x.incoming_compressed_buffer.length - (5 + payload.length))),
                  length := x.incoming_compressed_buffer.length - (5 + payload.length) } }) := by
  have h5 : ¬ x.incoming_compressed_buffer.length < 1 + 4 := by omega
  have hL : payload.length % 256 ^ 4 = payload.length := Nat.mod_eq_of_lt (by omega)
  have hread : takeLE 4 (x.incoming_compressed_buffer.data.drop 1)
      = some (payload.length, payload ++ rest) := by
    rw [hdata]
    simp only [frame_bytes, List.cons_append, List.drop_succ_cons, List.drop_zero,
      List.append_assoc, takeLE_le, hL]
  have harg : toSizeT (toInt32 payload.length + 1 + 4) = 5 + payload.length := by
    rw [toInt32_small _ (by omega)]
    have : ((payload.length : Int) + 1 + 4) = ((5 + payload.length : Nat) : Int) := by
      push_cast; ring
    rw [this, toSizeT_ofNat _ (by omega)]
  have hres : array_reserve x.incoming_compressed_buffer (5 + payload.length)
      = some (5 + payload.length, x.incoming_compressed_buffer) := by
    simp only [array_reserve,
      if_neg (by omega : ¬ x.incoming_compressed_buffer.capacity < 5 + payload.length)]
  have htot : toSizeT (toInt32 (5 + payload.length)) = 5 + payload.length := by
    rw [toInt32_small _ hint, toSizeT_ofNat _ (by omega)]
  have hsrc : toSizeT (toInt32 (5 + payload.length) - 1 - 4) = payload.length := by
    rw [toInt32_small _ hint]
    have : (((5 + payload.length : Nat) : Int) - 1 - 4) = ((payload.length : Nat) : Int) := by
      push_cast; ring
    rw [this, toSizeT_ofNat _ (by omega)]
  have hge : ¬ x.incoming_compressed_buffer.length < 5 + payload.length := by omega
  have hdrop : x.incoming_compressed_buffer.data.drop 5 = payload ++ rest := by
    rw [hdata]
    have : (frame_bytes t payload).length = 5 + payload.length := by
      simp [frame_bytes, le_length]; omega
    simp only [frame_bytes, List.cons_append, List.drop_succ_cons]
    rw [List.append_assoc, List.drop_left' (le_length 4 _)]
  have hshift : array_shift x.incoming_compressed_buffer (5 + payload.length)
      = some { x.incoming_compressed_buffer with
          data := writeAt x.incoming_compressed_buffer.data 0
            ((x.incoming_compressed_buffer.data.drop (5 + payload.length)).take
              (x.incoming_compressed_buffer.length - (5 + payload.length))),
          length := x.incoming_compressed_buffer.length - (5 + payload.length) } := by
    simp only [array_shift, if_neg (by omega : ¬ 5 + payload.length = 0)]
    rw [if_pos ⟨hlen, hld⟩]
  unfold recv_decode
  simp only [if_neg h5, hread, harg, hres, htot, if_neg hge, hsrc, hdrop, takeBytes_append,
    hshift]
  rw [hdata]
  simp only [frame_bytes, List.cons_append]

theorem pending_fd (d : SDuplex) (p : List Byte) : (d.pending p).fd = d.fd := rfl

theorem recv_data_pending (c : Codec) (d : SDuplex) (p ch : List Byte) (hfd : d.fd ≠ 0)
    (hwf : d.incoming_compressed_buffer.WF)
    (hfit : p.length + ch.length ≤ d.incoming_compressed_buffer.capacity)
    (hint : ch.length < 2 ^ 31) :
    recv_compressed_buffer c (.data ch) (d.pending p) = recv_decode c (d.pending (p ++ ch)) := by
  obtain ⟨hd, _, _⟩ := hwf
  have hlen : (writeAt d.incoming_compressed_buffer.data 0 p).length
      = d.incoming_compressed_buffer.data.length :=
    writeAt_length _ _ _ (by omega)
  unfold recv_compressed_buffer
  rw [if_neg (by rw [pending_fd]; exact hfd)]
  simp only [SDuplex.pending]
  rw [if_pos ⟨hfit, by rw [hlen, hd], hint⟩, writeAt_writeAt, List.length_append]

theorem recv_chunks_closed (c : Codec) (d : SDuplex) (chunks : List (List Byte))
    (hfd : d.fd = 0) : recv_chunks c d chunks = some d := by
  induction chunks with
  | nil => rfl
  | cons ch rest ih => simp only [recv_chunks, recv_compressed_buffer, if_pos hfd, ih]

theorem recv_empty_read (c : Codec) (s : SDuplex)
    (hq : s.fd = 0 ∨ (s.incoming_compressed_buffer.length = 0
      ∧ s.incoming_compressed_buffer.capacity ≤ s.incoming_compressed_buffer.data.length)) :
    final_state (recv_compressed_buffer c (.data []) s) = some s := by
  by_cases hfd : s.fd = 0
  · simp only [recv_compressed_buffer, if_pos hfd, final_state, Option.map_some']
  · rcases hq with h | ⟨h0, hcap⟩
    · exact absurd h hfd
    · have hs : { s with incoming_compressed_buffer :=
          { s.incoming_compressed_buffer with
            data := writeAt s.incoming_compressed_buffer.data
              s.incoming_compressed_buffer.length [],
            length := s.incoming_compressed_buffer.length + ([] : List Byte).length } } = s := by
        simp [writeAt_nil]
      simp only [recv_compressed_buffer, if_neg hfd]
      rw [if_pos ⟨by simp [h0], hcap, by simp⟩, hs]
      simp only [recv_decode, if_pos (by omega : s.incoming_compressed_buffer.length < 1 + 4),
        final_state, Option.map_some']

theorem recv_chunks_empty (c : Codec) (s : SDuplex) (chunks : List (List Byte))
    (hall : ∀ ch ∈ chunks, ch = [])
    (hq : s.fd = 0 ∨ (s.incoming_compressed_buffer.length = 0
      ∧ s.incoming_compressed_buffer.capacity ≤ s.incoming_compressed_buffer.data.length)) :
    recv_chunks c s chunks = some s := by
  induction chunks with
  | nil => rfl
  | cons ch rest ih =>
    have hch : ch = [] := hall ch (List.mem_cons_self _ _)
    subst hch
    have h1 := recv_empty_read c s hq
    simp only [final_state] at h1
    cases h2 : recv_compressed_buffer c (.data []) s with
    | none => rw [h2] at h1; cases h1
    | some r =>
      rw [h2] at h1
      simp only [Option.map_some', Option.some.injEq] at h1
      simp only [recv_chunks, h2, h1]
      exact ih (fun ch hc => hall ch (List.mem_cons_of_mem _ hc))

theorem concat_all_eq_nil (chunks : List (List Byte)) (h : concat_all chunks = []) :
    ∀ ch ∈ chunks, ch = [] := by
  induction chunks with
  | nil => intro ch hc; cases hc
  | cons x xs ih =>
    simp only [concat_all, List.append_eq_nil] at h
    intro ch hc
    rcases List.mem_cons.mp hc with h1 | h1
    · rw [h1]; exact h.1
    · exact ih h.2 ch h1

theorem frame_bytes_length (t : Byte) (payload : List Byte) :
    (frame_bytes t payload).length = 5 + payload.length := by
  simp [frame_bytes, le_length]; omega

/-- After a whole frame has been decoded from a buffer holding exactly that
frame, the channel is closed or the compressed buffer is empty again. -/
theorem recv_decode_whole_quiet (c : Codec) (d : SDuplex) (t : Byte) (payload : List Byte)
    (hwf : d.incoming_compressed_buffer.WF)
    (hcap : 5 + payload.length ≤ d.incoming_compressed_buffer.capacity)
    (hint : 5 + payload.length < 2 ^ 31) (r : Int) (s : SDuplex)
    (h : recv_decode c (d.pending (frame_bytes t payload)) = some (r, s)) :
    s.fd = 0 ∨ (s.incoming_compressed_buffer.length = 0
      ∧ s.incoming_compressed_buffer.capacity ≤ s.incoming_compressed_buffer.data.length) := by
  obtain ⟨hd, _, _⟩ := hwf
  have hfl := frame_bytes_length t payload
  have hw : (writeAt d.incoming_compressed_buffer.data 0 (frame_bytes t payload)).length
      = d.incoming_compressed_buffer.data.length := writeAt_length _ _ _ (by omega)
  rw [recv_decode_frame c (d.pending (frame_bytes t payload)) t payload
    (d.incoming_compressed_buffer.data.drop (frame_bytes t payload).length)
    (by simp only [SDuplex.pending, writeAt_zero])
    (by simpa [SDuplex.pending] using hcap) hint
    (by simp only [SDuplex.pending]; omega)
    (by simp only [SDuplex.pending]; omega)] at h
  split at h
  · cases h
  · split at h
    · simp only [Option.some.injEq, Prod.mk.injEq] at h
      left; rw [← h.2]
    · split at h
      · cases h
      · simp only [Option.some.injEq, Prod.mk.injEq] at h
        right
        rw [← h.2]
        simp only [SDuplex.pending]
        refine ⟨by omega, ?_⟩
        rw [writeAt_length _ _ _ (by
          simp only [List.length_take, List.length_drop]; omega), hw, hd]

theorem header_of_pending (mem p q : List Byte) (t : Byte) (payload : List Byte)
    (hpq : p ++ q = frame_bytes t payload) (h5 : 5 ≤ p.length) :
    ((writeAt mem 0 p).drop 1).take 4 = le 4 payload.length := by
  have h1 : ((p ++ q).drop 1).take 4 = le 4 payload.length := by
    rw [hpq]
    simp only [frame_bytes, List.drop_succ_cons, List.drop_zero]
    rw [List.take_left' (le_length 4 _)]
  rw [writeAt_zero, List.drop_append_of_le_length (by omega),
    List.take_append_of_le_length (by rw [List.length_drop]; omega)]
  rw [List.drop_append_of_le_length (by omega),
    List.take_append_of_le_length (by rw [List.length_drop]; omega)] at h1
  exact h1

theorem recv_chunks_pending (c : Codec) (d : SDuplex) (t : Byte) (payload : List Byte)
    (hfd : d.fd ≠ 0) (hwf : d.incoming_compressed_buffer.WF)
    (hcap : 5 + payload.length ≤ d.incoming_compressed_buffer.capacity)
    (hint : 5 + payload.length < 2 ^ 31) (chunks : List (List Byte)) :
    ∀ p : List Byte, p ++ concat_all chunks = frame_bytes t payload →
      p.length < 5 + payload.length →
      recv_chunks c (d.pending p) chunks
        = final_state (recv_decode c (d.pending (frame_bytes t payload))) := by
  have hfl := frame_bytes_length t payload
  induction chunks with
  | nil =>
    intro p hp hlt
    simp only [concat_all, List.append_nil] at hp
    rw [hp, hfl] at hlt
    omega
  | cons ch rest ih =>
    intro p hp hlt
    simp only [concat_all] at hp
    have hlen : p.length + ch.length + (concat_all rest).length = 5 + payload.length := by
      rw [← hfl, ← hp]; simp only [List.length_append]; omega
    rw [recv_chunks, recv_data_pending c d p ch hfd hwf (by omega) (by omega)]
    by_cases hpart : (p ++ ch).length < 5 + payload.length
    · have hstep : recv_decode c (d.pending (p ++ ch)) = some (1, d.pending (p ++ ch)) := by
        apply recv_decode_partial c _ payload.length
        · simpa [SDuplex.pending] using hcap
        · simp only [SDuplex.pending]
          rw [writeAt_length _ _ _ (by rw [hwf.1]; omega), hwf.1]; omega
        · exact hint
        · simpa [SDuplex.pending] using hpart
        · intro h5
          exact header_of_pending _ (p ++ ch) (concat_all rest) t payload
            (by rw [List.append_assoc]; exact hp) (by simpa [SDuplex.pending] using h5)
      rw [hstep]
      exact ih (p ++ ch) (by rw [List.append_assoc]; exact hp) hpart
    · have hrest : concat_all rest = [] := by
        apply List.eq_nil_of_length_eq_zero
        rw [List.length_append] at hpart
        omega
      have hfull : p ++ ch = frame_bytes t payload := by
        rw [← hp, hrest, List.append_nil]
      rw [hfull]
      cases hx : recv_decode c (d.pending (frame_bytes t payload)) with
      | none => rfl
      | some r =>
        obtain ⟨ret, s⟩ := r
        simp only [final_state, Option.map_some']
        exact recv_chunks_empty c s rest (concat_all_eq_nil rest hrest)
          (recv_decode_whole_quiet c d t payload hwf hcap hint ret s hx)

theorem recv_chunks_whole (c : Codec) (d : SDuplex) (t : Byte) (payload : List Byte)
    (hfd : d.fd ≠ 0) (hwf : d.incoming_compressed_buffer.WF)
    (hempty : d.incoming_compressed_buffer.length = 0)
    (hcap : 5 + payload.length ≤ d.incoming_compressed_buffer.capacity)
    (hint : 5 + payload.length < 2 ^ 31) (chunks : List (List Byte))
    (hsplit : concat_all chunks = frame_bytes t payload) :
    recv_chunks c d chunks = final_state (recv_decode c (d.pending (frame_bytes t payload))) := by
  have h := recv_chunks_pending c d t payload hfd hwf hcap hint chunks []
    (by simpa using hsplit) (by simp)
  rw [pending_nil d hempty] at h
  exact h

/-- C3: for every frame (type byte, 32-bit compressed length, compressed
payload) that one `read` can deliver into an empty receiver, and every way
of splitting its bytes into consecutive chunks delivered by successive
reads, calling `recv_compressed_buffer` once per chunk ends in the same
state as delivering the whole frame in a single read: the same
`incoming_packet_type` and the same incoming buffer. When the codec
decompresses the payload to `out`, that state holds the frame's type and
exactly `out`. -/
theorem frame_reassembly (c : Codec) (d : SDuplex) (t : Byte) (payload : List Byte)
    (chunks : List (List Byte))
    (hwf : d.incoming_compressed_buffer.WF)
    (hempty : d.incoming_compressed_buffer.length = 0)
    (hcap : 5 + payload.length ≤ d.incoming_compressed_buffer.capacity)
    (hint : 5 + payload.length < 2 ^ 31)
    (hsplit : concat_all chunks = frame_bytes t payload) :
    recv_chunks c d chunks = recv_chunks c d [frame_bytes t payload]
      ∧ (recv_chunks c d chunks).map (·.incoming_packet_type)
          = (recv_chunks c d [frame_bytes t payload]).map (·.incoming_packet_type)
      ∧ (recv_chunks c d chunks).map (·.incoming_buffer.contents)
          = (recv_chunks c d [frame_bytes t payload]).map (·.incoming_buffer.contents)
      ∧ ∀ ib out, d.fd ≠ 0 →
          array_reserve d.incoming_buffer (c.getFrameContentSize payload)
            = some (c.getFrameContentSize payload, ib) →
          c.decompress ib.capacity payload = .ok out → out.length ≤ ib.data.length →
          ∃ s, recv_chunks c d chunks = some s
            ∧ s.incoming_packet_type = charToEnum t
            ∧ s.incoming_buffer.contents = out := by
  have heq : recv_chunks c d chunks = recv_chunks c d [frame_bytes t payload] := by
    by_cases hfd : d.fd = 0
    · rw [recv_chunks_closed c d chunks hfd, recv_chunks_closed c d _ hfd]
    · rw [recv_chunks_whole c d t payload hfd hwf hempty hcap hint chunks hsplit,
        recv_chunks_whole c d t payload hfd hwf hempty hcap hint [frame_bytes t payload]
          (by simp [concat_all])]
  refine ⟨heq, by rw [heq], by rw [heq], ?_⟩
  intro ib out hfd hres hdec hout
  have hfl := frame_bytes_length t payload
  rw [recv_chunks_whole c d t payload hfd hwf hempty hcap hint chunks hsplit,
    recv_decode_frame c (d.pending (frame_bytes t payload)) t payload
      (d.incoming_compressed_buffer.data.drop (frame_bytes t payload).length)
      (by simp only [SDuplex.pending, writeAt_zero])
      (by simpa [SDuplex.pending] using hcap) hint
      (by simp only [SDuplex.pending]; omega)
      (by
        simp only [SDuplex.pending]
        rw [writeAt_length _ _ _ (by rw [hwf.1]; omega), hwf.1]; omega)]
  have hres1 : array_reserve (d.pending (frame_bytes t payload)).incoming_buffer
      (c.getFrameContentSize payload) = some (c.getFrameContentSize payload, ib) := hres
  have hstore : store ib.data 0 out = some (writeAt ib.data 0 out) := by
    simp only [store, Nat.zero_add, if_pos hout]
  simp only [hres1, hdec, hstore, final_state, Option.map_some']
  refine ⟨_, rfl, rfl, ?_⟩
  simp only [array_t.contents, writeAt_zero, List.take_left]

theorem frame_reassembly_witness :
    recv_chunks stored_codec small_duplex [[3, 3, 0], [0, 0, 83, 104], [], [105]]
        = recv_chunks stored_codec small_duplex [frame_bytes 3 [83, 104, 105]]
      ∧ (recv_chunks stored_codec small_duplex [[3, 3, 0], [0, 0, 83, 104], [], [105]]).map
          (fun s => (s.incoming_packet_type, s.incoming_buffer.contents))
        = some (PACKET_EVENT, [104, 105]) :=
  ⟨(frame_reassembly stored_codec small_duplex 3 [83, 104, 105]
      [[3, 3, 0], [0, 0, 83, 104], [], [105]]
      (by decide) (by decide) (by decide) (by decide) (by decide)).1, by decide⟩

/-! ### Repeated frames -/

/-- C4 (the code at the failing input): on a server that drew `abcdefgH`
before, the frame "text `x`, text `abcdefgh`" is sent, and the same frame
drawn again is sent again with other bytes: the second `end_frame` reports
true. The record of `x` is 57 bytes long; its last byte is byte 56 of the
scratch buffer, which the call does not write: it is the `H` of the earlier
text in the first frame and the `h` of `abcdefgh` in the second. -/
theorem same_commands_sent_twice :
    (used_server.bind two_text_frame).map (·.1) = some true
      ∧ ((used_server.bind two_text_frame).bind (fun r => two_text_frame r.2.2)).map (·.1)
          = some true
      ∧ ((used_server.bind two_text_frame).bind (fun r => two_text_frame r.2.2)).map (·.2.1)
          ≠ (used_server.bind two_text_frame).map (·.2.1) := by
  decide!

/-! ### Checksum -/

theorem mul_prime_inj (u v : Nat) (h : u * 16777619 % 2 ^ 32 = v * 16777619 % 2 ^ 32) :
    u % 2 ^ 32 = v % 2 ^ 32 := by
  have key : ∀ w : Nat, (w * 16777619 % 2 ^ 32) * 899433627 % 2 ^ 32 = w % 2 ^ 32 := by
    intro w
    rw [Nat.mod_mul_mod]
    have : w * 16777619 * 899433627 = w + 2 ^ 32 * (w * 3513497) := by ring
    rw [this, Nat.add_mul_mod_self_left]
  rw [← key u, ← key v, h]

theorem hash_step_lt (acc p : Nat) : ((acc ^^^ p) * 16777619) % 2 ^ 32 < 2 ^ 32 :=
  Nat.mod_lt _ (by decide)

theorem hash_append (h : Nat) (a b : List Byte) : hash h (a ++ b) = hash (hash h a) b := by
  simp [hash, List.foldl_append]

theorem hash_cons (h : Nat) (x : Byte) (b : List Byte) :
    hash h (x :: b) = hash (((h ^^^ x.val) * 16777619) % 2 ^ 32) b := rfl

theorem hash_lt (h : Nat) (hh : h < 2 ^ 32) (data : List Byte) : hash h data < 2 ^ 32 := by
  induction data generalizing h with
  | nil => exact hh
  | cons x xs ih => rw [hash_cons]; exact ih _ (hash_step_lt h x.val)

/-- From two different 32-bit states, the same bytes lead to different states. -/
theorem hash_inj_state (h1 h2 : Nat) (hh1 : h1 < 2 ^ 32) (hh2 : h2 < 2 ^ 32) (hne : h1 ≠ h2)
    (data : List Byte) : hash h1 data ≠ hash h2 data := by
  induction data generalizing h1 h2 with
  | nil => exact hne
  | cons x xs ih =>
    rw [hash_cons, hash_cons]
    apply ih _ _ (hash_step_lt h1 x.val) (hash_step_lt h2 x.val)
    intro heq
    have h3 := mul_prime_inj _ _ heq
    have b1 : h1 ^^^ x.val < 2 ^ 32 :=
      Nat.xor_lt_two_pow hh1 (by have := x.isLt; omega)
    have b2 : h2 ^^^ x.val < 2 ^ 32 :=
      Nat.xor_lt_two_pow hh2 (by have := x.isLt; omega)
    rw [Nat.mod_eq_of_lt b1, Nat.mod_eq_of_lt b2] at h3
    exact hne (Nat.xor_left_injective h3)

/-- Two byte strings that differ in exactly one position have different
checksums, from any 32-bit seed. -/
theorem hash_one_byte (h : Nat) (hh : h < 2 ^ 32) (a b : List Byte) (x y : Byte)
    (hxy : x ≠ y) : hash h (a ++ x :: b) ≠ hash h (a ++ y :: b) := by
  rw [hash_append, hash_append, hash_cons, hash_cons]
  have hs := hash_lt h hh a
  apply hash_inj_state _ _ (hash_step_lt _ _) (hash_step_lt _ _)
  intro heq
  have h3 := mul_prime_inj _ _ heq
  have b1 : hash h a ^^^ x.val < 2 ^ 32 :=
    Nat.xor_lt_two_pow hs (by have := x.isLt; omega)
  have b2 : hash h a ^^^ y.val < 2 ^ 32 :=
    Nat.xor_lt_two_pow hs (by have := y.isLt; omega)
  rw [Nat.mod_eq_of_lt b1, Nat.mod_eq_of_lt b2] at h3
  exact hxy (Fin.ext (Nat.xor_right_injective h3))

/-! ### Send path -/

theorem writeAt_mid (a b c bs : List Byte) (h : bs.length = b.length) :
    writeAt (a ++ b ++ c) a.length bs = a ++ bs ++ c := by
  unfold writeAt
  rw [List.append_assoc a b c, List.take_left, ← List.append_assoc a b c, h,
    ← List.length_append, List.drop_left]

theorem stage_frame_parts (m1 m4 mo tail out : List Byte) (t : Byte) (h1 : m1.length = 1)
    (h4 : m4.length = 4) (ho : mo.length = out.length) :
    ∃ data0 data1, store (m1 ++ m4 ++ mo ++ tail) 0 [t] = some data0
      ∧ store data0 5 out = some data1
      ∧ store data1 1 (le 4 out.length) = some (frame_bytes t out ++ tail) := by
  have e0 : writeAt (m1 ++ m4 ++ mo ++ tail) 0 [t] = [t] ++ m4 ++ mo ++ tail := by
    have := writeAt_mid [] m1 (m4 ++ mo ++ tail) [t] (by simp [h1])
    simpa [List.append_assoc] using this
  have e1 : writeAt ([t] ++ m4 ++ mo ++ tail) 5 out = [t] ++ m4 ++ out ++ tail := by
    have := writeAt_mid ([t] ++ m4) mo tail out ho.symm
    have hl : ([t] ++ m4).length = 5 := by simp [h4]
    rw [hl] at this
    exact this
  have e2 : writeAt ([t] ++ m4 ++ out ++ tail) 1 (le 4 out.length)
      = frame_bytes t out ++ tail := by
    have := writeAt_mid [t] m4 (out ++ tail) (le 4 out.length) (by rw [le_length, h4])
    simp only [List.length_singleton] at this
    rw [List.append_assoc ([t] ++ m4) out tail, this]
    simp [frame_bytes]
  refine ⟨[t] ++ m4 ++ mo ++ tail, [t] ++ m4 ++ out ++ tail, ?_, ?_, ?_⟩
  · rw [store, if_pos (by simp [h1]), e0]
  · rw [store, if_pos (by simp [h4, ho]; omega), e1]
  · rw [store, if_pos (by simp [h4, le_length]), e2]

theorem stage_frame (mem out : List Byte) (t : Byte) (h : 5 + out.length ≤ mem.length) :
    ∃ data0 data1, store mem 0 [t] = some data0
      ∧ store data0 5 out = some data1
      ∧ store data1 1 (le 4 out.length) = some (writeAt mem 0 (frame_bytes t out)) := by
  have hsplit : mem = mem.take 1 ++ (mem.drop 1).take 4 ++ ((mem.drop 1).drop 4).take out.length
      ++ ((mem.drop 1).drop 4).drop out.length := by
    simp only [List.append_assoc, List.take_append_drop]
  have htail : ((mem.drop 1).drop 4).drop out.length = mem.drop (frame_bytes t out).length := by
    rw [List.drop_drop, List.drop_drop, frame_bytes_length]
    congr 1; omega
  have := stage_frame_parts (mem.take 1) ((mem.drop 1).take 4)
    (((mem.drop 1).drop 4).take out.length) (((mem.drop 1).drop 4).drop out.length) out t
    (by rw [List.length_take]; omega)
    (by rw [List.length_take, List.length_drop]; omega)
    (by rw [List.length_take, List.length_drop, List.length_drop]; omega)
  rw [← hsplit, htail, ← writeAt_zero] at this
  exact this

theorem array_shift_all (b : array_t) (h : b.length ≤ b.data.length) :
    array_shift b b.length = some (array_clear b) := by
  unfold array_shift array_clear
  by_cases h0 : b.length = 0
  · rw [if_pos h0]
    cases b
    simp only at h0
    subst h0
    rfl
  · rw [if_neg h0, if_pos ⟨le_refl _, h⟩]
    simp [writeAt_nil]

/-- The result of `send_compressed_buffer` built from what the write loop
returns, on the channel `d1` holding the staged frame. -/
theorem send_open (c : Codec) (ws : List WriteOutcome) (d : SDuplex) (type : Nat)
    (buffer : BufferArg) (out : List Byte)
    (hfd : d.fd ≠ 0) (hwf : d.outgoing_compressed_buffer.WF)
    (hb : (buffer.get d).length ≤ (buffer.get d).data.length)
    (hbound : c.compressBound (buffer.get d).length + 5 ≤ 2 ^ 63)
    (hcomp : c.compress (c.compressBound (buffer.get d).length) (buffer.get d).contents
      = .ok out)
    (hout : out.length ≤ c.compressBound (buffer.get d).length) :
    ∃ ocb, array_reserve d.outgoing_compressed_buffer (c.compressBound (buffer.get d).length + 5)
        = some (c.compressBound (buffer.get d).length + 5, ocb)
      ∧ 5 + out.length ≤ ocb.data.length
      ∧ send_compressed_buffer c ws d type buffer =
        (write_loop (writeAt ocb.data 0 (frame_bytes (byteOf type) out))
            (toInt32 (out.length + 1 + 4)) ws 0 []).map (fun r =>
          { ret := r.1,
            duplex :=
              if r.2.1 then
                { buffer.set { d with outgoing_compressed_buffer :=
                    { ocb with data := writeAt ocb.data 0 (frame_bytes (byteOf type) out) } }
                    (array_clear (buffer.get d)) with fd := 0 }
              else
                buffer.set { d with outgoing_compressed_buffer :=
                  { ocb with data := writeAt ocb.data 0 (frame_bytes (byteOf type) out) } }
                  (array_clear (buffer.get d)),
            buffer := array_clear (buffer.get d),
            wire := r.2.2.1, rest := r.2.2.2 }) := by
  obtain ⟨ocb, hres, hwf1, _, _, hn, _, _⟩ :=
    array_reserve_spec d.outgoing_compressed_buffer
      (c.compressBound (buffer.get d).length + 5) hwf hbound
  have hlen : 5 + out.length ≤ ocb.data.length := by rw [hwf1.1]; omega
  obtain ⟨data0, data1, hs0, hs1, hs2⟩ := stage_frame ocb.data out (byteOf type) hlen
  refine ⟨ocb, hres, hlen, ?_⟩
  have hmod : (c.compressBound (buffer.get d).length + 4 + 1) % 2 ^ 64
      = c.compressBound (buffer.get d).length + 5 := Nat.mod_eq_of_lt (by omega)
  have hcap : toSizeT (((c.compressBound (buffer.get d).length + 5 : Nat) : Int) - 1 - 4)
      = c.compressBound (buffer.get d).length := by
    have : (((c.compressBound (buffer.get d).length + 5 : Nat) : Int) - 1 - 4)
        = ((c.compressBound (buffer.get d).length : Nat) : Int) := by push_cast; ring
    rw [this, toSizeT_ofNat _ (by omega)]
  simp only [send_compressed_buffer, if_neg hfd, hmod, hres, hs0, if_pos hb, hcap, hcomp,
    if_pos hout, hs1, array_shift_all _ hb, hs2]
  cases write_loop (writeAt ocb.data 0 (frame_bytes (byteOf type) out))
      (toInt32 (out.length + 1 + 4)) ws 0 [] with
  | none => rfl
  | some r => rfl

theorem write_loop_all (data : List Byte) (T n : Nat) (rest : List WriteOutcome)
    (hT : T < 2 ^ 31) (hn : T ≤ n) (hd : T ≤ data.length) :
    write_loop data (T : Int) (.wrote n :: rest) 0 [] = some ((T : Int), false, data.take T, rest) := by
  have hs : toSizeT ((T : Int) - 0) = T := by
    rw [Int.sub_zero, toSizeT_ofNat _ (by omega)]
  have hmin : min n T = T := Nat.min_eq_right hn
  simp only [write_loop, hs, hmin, Int.toNat_zero, Nat.zero_add, List.drop_zero,
    List.nil_append, Int.zero_add, lt_self_iff_false, if_false]
  rw [if_pos ⟨hT, hd⟩]

theorem take_staged (mem : List Byte) (t : Byte) (out : List Byte) :
    (writeAt mem 0 (frame_bytes t out)).take (out.length + 5) = frame_bytes t out := by
  rw [writeAt_zero]
  have : out.length + 5 = (frame_bytes t out).length := by rw [frame_bytes_length]; omega
  rw [this, List.take_left]

/-- What `send_compressed_buffer` does on an open channel when the first
`write` takes the whole frame. -/
theorem send_open_all (c : Codec) (d : SDuplex) (type : Nat) (buffer : BufferArg)
    (out : List Byte) (n : Nat) (rest : List WriteOutcome)
    (hfd : d.fd ≠ 0) (hwf : d.outgoing_compressed_buffer.WF)
    (hb : (buffer.get d).length ≤ (buffer.get d).data.length)
    (hbound : c.compressBound (buffer.get d).length + 5 ≤ 2 ^ 63)
    (hcomp : c.compress (c.compressBound (buffer.get d).length) (buffer.get d).contents
      = .ok out)
    (hout : out.length ≤ c.compressBound (buffer.get d).length)
    (hint : out.length + 5 < 2 ^ 31) (hn : out.length + 5 ≤ n) :
    ∃ ocb, send_compressed_buffer c (.wrote n :: rest) d type buffer =
      some { ret := ((out.length + 5 : Nat) : Int),
             duplex := buffer.set { d with outgoing_compressed_buffer := ocb }
               (array_clear (buffer.get d)),
             buffer := array_clear (buffer.get d),
             wire := frame_bytes (byteOf type) out, rest := rest } := by
  obtain ⟨ocb, _, hlen, hsend⟩ :=
    send_open c (.wrote n :: rest) d type buffer out hfd hwf hb hbound hcomp hout
  have hT : toInt32 (out.length + 1 + 4) = ((out.length + 5 : Nat) : Int) := by
    rw [show out.length + 1 + 4 = out.length + 5 from rfl, toInt32_small _ hint]
  have hw := write_loop_all (writeAt ocb.data 0 (frame_bytes (byteOf type) out))
    (out.length + 5) n rest hint hn
    (by rw [writeAt_length _ _ _ (by rw [frame_bytes_length]; omega)]; omega)
  rw [take_staged] at hw
  refine ⟨{ ocb with data := writeAt ocb.data 0 (frame_bytes (byteOf type) out) }, ?_⟩
  rw [hsend, hT, hw]
  rfl

/-- What `send_compressed_buffer` does on an open channel when the first
`write` fails with a fatal error. -/
theorem send_open_error (c : Codec) (d : SDuplex) (type : Nat) (buffer : BufferArg)
    (out : List Byte) (rest : List WriteOutcome)
    (hfd : d.fd ≠ 0) (hwf : d.outgoing_compressed_buffer.WF)
    (hb : (buffer.get d).length ≤ (buffer.get d).data.length)
    (hbound : c.compressBound (buffer.get d).length + 5 ≤ 2 ^ 63)
    (hcomp : c.compress (c.compressBound (buffer.get d).length) (buffer.get d).contents
      = .ok out)
    (hout : out.length ≤ c.compressBound (buffer.get d).length) :
    ∃ ocb, send_compressed_buffer c (.error :: rest) d type buffer =
      some { ret := 0,
             duplex := { buffer.set { d with outgoing_compressed_buffer := ocb }
               (array_clear (buffer.get d)) with fd := 0 },
             buffer := array_clear (buffer.get d),
             wire := [], rest := rest } := by
  obtain ⟨ocb, _, hlen, hsend⟩ :=
    send_open c (.error :: rest) d type buffer out hfd hwf hb hbound hcomp hout
  refine ⟨{ ocb with data := writeAt ocb.data 0 (frame_bytes (byteOf type) out) }, ?_⟩
  rw [hsend]
  rfl

/-! ### `end_frame` -/

/-- C7 (as stated, refuted): with a changed checksum and an open channel
whose first `write` fails fatally, `end_frame` reports true although no
byte of a frame is sent, and the channel is closed. -/
theorem end_frame_true_without_frame :
    (rect_server.bind (f_server_end_frame stored_codec [WriteOutcome.error])).map
        (fun r => (r.1, r.2.2.1, r.2.1.duplex.fd)) = some (true, [], 0) := by
  decide!

/-- C7 (amended): `end_frame` reports true exactly when the checksum differs
from the previous one and the channel is open. When it reports false nothing
is sent and the server is unchanged. When it reports true one send of a
`CommandBuffer` frame has been attempted, the previous checksum becomes the
current checksum and the command buffer is emptied: if the socket takes all
bytes, exactly one frame `[1][length][compress(command buffer)]` is sent and
the channel stays open; if the first `write` fails fatally, nothing is sent
and the channel is closed. -/
theorem end_frame_gating (c : Codec) (ws : List WriteOutcome) (server : SServer) :
    (¬ (server.rencache.checksum ≠ server.previous_rencache_checksum
          ∧ server.duplex.fd ≠ 0) →
        f_server_end_frame c ws server = some (false, server, [], ws))
    ∧ (∀ r, f_server_end_frame c ws server = some r →
        (r.1 = true ↔ (server.rencache.checksum ≠ server.previous_rencache_checksum
          ∧ server.duplex.fd ≠ 0)))
    ∧ (server.rencache.checksum ≠ server.previous_rencache_checksum →
        server.duplex.fd ≠ 0 →
        server.duplex.outgoing_compressed_buffer.WF →
        server.rencache.buffer.length ≤ server.rencache.buffer.data.length →
        ∀ out, c.compressBound server.rencache.buffer.length + 5 ≤ 2 ^ 63 →
          c.compress (c.compressBound server.rencache.buffer.length)
            server.rencache.buffer.contents = .ok out →
          out.length ≤ c.compressBound server.rencache.buffer.length →
          out.length + 5 < 2 ^ 31 →
          (∀ n rest, out.length + 5 ≤ n →
            ∃ s, f_server_end_frame c (.wrote n :: rest) server
                = some (true, s, frame_bytes (byteOf PACKET_COMMAND_BUFFER) out, rest)
              ∧ s.previous_rencache_checksum = server.rencache.checksum
              ∧ s.rencache.checksum = server.rencache.checksum
              ∧ s.rencache.buffer = array_clear server.rencache.buffer
              ∧ s.duplex.fd = server.duplex.fd)
          ∧ (∀ rest,
            ∃ s, f_server_end_frame c (.error :: rest) server = some (true, s, [], rest)
              ∧ s.previous_rencache_checksum = server.rencache.checksum
              ∧ s.rencache.checksum = server.rencache.checksum
              ∧ s.rencache.buffer = array_clear server.rencache.buffer
              ∧ s.duplex.fd = 0)) := by
  refine ⟨?_, ?_, ?_⟩
  · intro h
    simp only [f_server_end_frame, if_neg h]
  · intro r hr
    by_cases h : server.rencache.checksum ≠ server.previous_rencache_checksum
        ∧ server.duplex.fd ≠ 0
    · simp only [f_server_end_frame, if_pos h] at hr
      cases hs : send_compressed_buffer c ws server.duplex PACKET_COMMAND_BUFFER
          (.other server.rencache.buffer) with
      | none => rw [hs] at hr; cases hr
      | some x =>
        rw [hs] at hr
        simp only [Option.some.injEq] at hr
        rw [← hr]
        exact ⟨fun _ => h, fun _ => rfl⟩
    · simp only [f_server_end_frame, if_neg h, Option.some.injEq] at hr
      rw [← hr]
      exact ⟨fun hf => (by cases hf), fun hc => absurd hc h⟩
  · intro hne hfd hwf hb out hbound hcomp hout hint
    refine ⟨?_, ?_⟩
    · intro n rest hn
      obtain ⟨ocb, hsend⟩ := send_open_all c server.duplex PACKET_COMMAND_BUFFER
        (.other server.rencache.buffer) out n rest hfd hwf hb hbound hcomp hout hint hn
      simp only [f_server_end_frame, if_pos (And.intro hne hfd), hsend]
      exact ⟨_, rfl, rfl, rfl, rfl, rfl⟩
    · intro rest
      obtain ⟨ocb, hsend⟩ := send_open_error c server.duplex PACKET_COMMAND_BUFFER
        (.other server.rencache.buffer) out rest hfd hwf hb hbound hcomp hout
      simp only [f_server_end_frame, if_pos (And.intro hne hfd), hsend]
      exact ⟨_, rfl, rfl, rfl, rfl, rfl⟩

theorem end_frame_gating_witness :
    ∃ s, f_server_end_frame stored_codec [.wrote 64] small_server
        = some (true, s, frame_bytes (byteOf PACKET_COMMAND_BUFFER)
            (83 :: small_server.rencache.buffer.contents), [])
      ∧ s.previous_rencache_checksum = small_server.rencache.checksum
      ∧ s.rencache.checksum = small_server.rencache.checksum
      ∧ s.rencache.buffer = array_clear small_server.rencache.buffer
      ∧ s.duplex.fd = small_server.duplex.fd :=
  ((end_frame_gating stored_codec [] small_server).2.2 (by decide) (by decide) (by decide)
    (by decide) (83 :: small_server.rencache.buffer.contents) (by decide) (by decide)
    (by decide) (by decide)).1 64 [] (by decide)

/-! ### Closed channel -/

/-- C8 (as stated, refuted): on a closed channel whose own outgoing buffer is
the plaintext buffer (as in `send_event`), the send changes a field of the
channel: the outgoing buffer loses its contents. -/
theorem send_closed_changes_outgoing :
    (send_compressed_buffer stored_codec [] closed_duplex PACKET_EVENT .outgoing).map
        (·.duplex) ≠ some closed_duplex
      ∧ (send_compressed_buffer stored_codec [] closed_duplex PACKET_EVENT .outgoing).map
        (·.duplex.outgoing_buffer.length) = some 0 := by
  decide

/-- C8 (amended): on a closed channel `send_compressed_buffer` writes
nothing to the socket, returns -1 and leaves the plaintext buffer with length
0, its capacity and memory unchanged; every field of the channel is unchanged
except that, when the plaintext buffer is the channel's own outgoing buffer,
that buffer is the cleared one. -/
theorem send_closed (c : Codec) (ws : List WriteOutcome) (d : SDuplex) (type : Nat)
    (buffer : BufferArg) (hfd : d.fd = 0) :
    ∃ r, send_compressed_buffer c ws d type buffer = some r
      ∧ r.ret = -1 ∧ r.wire = [] ∧ r.rest = ws
      ∧ r.buffer.length = 0
      ∧ r.buffer.capacity = (buffer.get d).capacity
      ∧ r.buffer.data = (buffer.get d).data
      ∧ r.buffer.size = (buffer.get d).size
      ∧ r.duplex.fd = d.fd
      ∧ r.duplex.incoming_packet_type = d.incoming_packet_type
      ∧ r.duplex.incoming_compressed_buffer = d.incoming_compressed_buffer
      ∧ r.duplex.incoming_buffer = d.incoming_buffer
      ∧ r.duplex.outgoing_compressed_buffer = d.outgoing_compressed_buffer
      ∧ (∀ b, buffer = .other b → r.duplex = d)
      ∧ (buffer = .outgoing → r.duplex.outgoing_buffer = array_clear d.outgoing_buffer) := by
  refine ⟨{ ret := -1, duplex := buffer.set d (array_clear (buffer.get d)),
            buffer := array_clear (buffer.get d), wire := [], rest := ws },
    by simp only [send_compressed_buffer, if_pos hfd], rfl, rfl, rfl, rfl, rfl, rfl,
    rfl, ?_, ?_, ?_, ?_, ?_, ?_, ?_⟩
  all_goals cases buffer <;> simp [BufferArg.set, BufferArg.get, array_clear]

theorem send_closed_witness :
    ∃ r, send_compressed_buffer stored_codec [] closed_duplex PACKET_EVENT .outgoing = some r
      ∧ r.ret = -1 ∧ r.wire = [] ∧ r.buffer.length = 0
      ∧ r.duplex.outgoing_buffer = array_clear closed_duplex.outgoing_buffer := by
  obtain ⟨r, h1, h2, h3, _, h5, _, _, _, _, _, _, _, _, _, h15⟩ :=
    send_closed stored_codec [] closed_duplex PACKET_EVENT .outgoing (by decide)
  exact ⟨r, h1, h2, h3, h5, h15 rfl⟩

/-- C9 (as stated, refuted): a client receives a complete event frame, then
a send fails fatally and closes the channel; `has_event` on the closed
channel still reports true. -/
theorem has_event_true_when_closed :
    ((f_client_has_event stored_codec (.data [3, 3, 0, 0, 0, 83, 104, 105])
        small_client).bind (fun r =>
      (f_client_send_event stored_codec [.error] r.2 []).bind (fun s =>
        (f_client_has_event stored_codec .would_block s.1).map (fun h =>
          (s.1.duplex.fd, h.1))))) = some (0, true) := by
  decide

/-- C9 (amended): when the channel is closed, the server's `wait_event` and
`poll_event` return nothing (no boolean, no decoded values), read nothing and
leave the server unchanged; the client's `has_event` reads nothing, leaves
the client unchanged and reports whether a frame is still marked pending
(`incoming_packet_type` is not `PACKET_NONE`), hence no event when none is
pending. None of them raises an error. -/
theorem closed_channel_polling (c : Codec) (r : ReadOutcome) (server : SServer)
    (client : SClient) (hs : server.duplex.fd = 0) (hc : client.duplex.fd = 0) :
    f_server_wait_event c r server = some ([], server)
      ∧ f_server_poll_event c r server = some (0, [], server)
      ∧ f_client_has_event c r client
          = some (client.duplex.incoming_packet_type != PACKET_NONE, client)
      ∧ (client.duplex.incoming_packet_type = PACKET_NONE →
          f_client_has_event c r client = some (false, client)) := by
  have h1 : f_client_has_event c r client
      = some (client.duplex.incoming_packet_type != PACKET_NONE, client) := by
    simp only [f_client_has_event, hc, ne_eq, not_true_eq_false, and_false, if_false]
  refine ⟨?_, ?_, h1, ?_⟩
  · simp only [f_server_wait_event, hs, ne_eq, not_true_eq_false, if_false]
  · simp only [f_server_poll_event, hs, ne_eq, not_true_eq_false, if_false]
  · intro h0
    rw [h1, h0]
    rfl

theorem closed_channel_polling_witness :
    f_server_wait_event stored_codec .would_block
        { small_server with duplex := closed_duplex }
        = some ([], { small_server with duplex := closed_duplex })
      ∧ f_client_has_event stored_codec .would_block
        { small_client with duplex := closed_duplex }
        = some (false, { small_client with duplex := closed_duplex }) :=
  have h := closed_channel_polling stored_codec .would_block
    { small_server with duplex := closed_duplex }
    { small_client with duplex := closed_duplex } (by decide) (by decide)
  ⟨h.1, h.2.2.2 (by decide)⟩

/-! ### Font registration -/

/-- C10 (the code at the failing input): on a freshly constructed and
connected server, the first registration (handle 1000) gets index 1 and the
second (handle 2000) gets index 17, the byte length of the registry plus
one; 17 is also the index carried in the second `FontRegister` packet. -/
theorem second_font_index_is_17 :
    (connected_server.bind (fun s =>
        f_server_register_font stored_codec [.wrote 4096] s [103] [121] 2000 .nil .nil)).map
      (fun r => (get_font_index r.1 1000, get_font_index r.1 2000, r.2.1))
      = some (some 1, some 17, frame_bytes (byteOf PACKET_FONT_REGISTER)
          (83 :: encode_tuple [.string [103], .string [121], .integer 17, .nil, .nil])) := by
  decide!

/-! ### Checksum and change detection -/

theorem field_head (k n : Nat) (b : List Byte) : field (le k n ++ b) 0 k = some (n % 256 ^ k) := by
  simp [field, takeLE_le]

theorem field_skip (a m : List Byte) (off k : Nat) (h : a.length ≤ off) :
    field (a ++ m) off k = field m (off - a.length) k := by
  unfold field
  rw [List.drop_append_eq_append_drop, List.drop_eq_nil_of_le h, List.nil_append]

theorem field_color_head (c : RenColor) (b : List Byte) :
    field_color (c.bytes ++ b) 0 = some c := by
  cases c
  rfl

theorem field_color_skip (a m : List Byte) (off : Nat) (h : a.length ≤ off) :
    field_color (a ++ m) off = field_color m (off - a.length) := by
  unfold field_color
  rw [List.drop_append_eq_append_drop, List.drop_eq_nil_of_le h, List.nil_append]

theorem field_rect_skip (a m : List Byte) (off : Nat) (h : a.length ≤ off) :
    field_rect (a ++ m) off = field_rect m (off - a.length) := by
  unfold field_rect
  rw [field_skip a m off 4 h, field_skip a m (off + 4) 4 (by omega),
    field_skip a m (off + 8) 4 (by omega), field_skip a m (off + 12) 4 (by omega)]
  have e1 : off + 4 - a.length = off - a.length + 4 := by omega
  have e2 : off + 8 - a.length = off - a.length + 8 := by omega
  have e3 : off + 12 - a.length = off - a.length + 12 := by omega
  rw [e1, e2, e3]

theorem toU32_mod (i : Int) : toU32 i % 256 ^ 4 = toU32 i :=
  Nat.mod_eq_of_lt (by have := toU32_lt i; omega)

theorem field_rect_head (r : RenRect) (b : List Byte) (hx : fits_int r.x) (hy : fits_int r.y)
    (hw : fits_int r.width) (hh : fits_int r.height) :
    field_rect (r.bytes ++ b) 0 = some r := by
  unfold field_rect RenRect.bytes
  simp only [List.append_assoc, Nat.zero_add]
  rw [field_head, field_skip _ _ 4 4 (by simp [le_length]), le_length, Nat.sub_self, field_head,
    field_skip _ _ 8 4 (by simp [le_length]), le_length,
    field_skip _ _ (8 - 4) 4 (by simp [le_length]), le_length, field_head,
    field_skip _ _ 12 4 (by simp [le_length]), le_length,
    field_skip _ _ (12 - 4) 4 (by simp [le_length]), le_length,
    field_skip _ _ (12 - 4 - 4) 4 (by simp [le_length]), le_length, field_head]
  simp only [toU32_mod, toInt32_toU32 _ hx.1 hx.2, toInt32_toU32 _ hy.1 hy.2,
    toInt32_toU32 _ hw.1 hw.2, toInt32_toU32 _ hh.1 hh.2]

theorem rect_bytes_length (r : RenRect) : r.bytes.length = 16 := by
  simp [RenRect.bytes, le_length]

theorem color_bytes_length (c : RenColor) : c.bytes.length = 4 := rfl

theorem head_length (len : Nat) (color : RenColor) (font0 : Int) (x : Nat) (y : Int) :
    (DrawTextCommand_head len color font0 x y).length = 49 := by
  simp [DrawTextCommand_head, le_length, color_bytes_length]

theorem toInt32_fits (n : Nat) : fits_int (toInt32 n) := by
  unfold fits_int toInt32
  split <;> omega

theorem get_font_index_loop_fits (font : Nat) (k : Nat) (entries : List Byte) (i : Int)
    (h : get_font_index_loop font k entries = some i) : fits_int i := by
  induction k generalizing entries with
  | zero =>
    simp only [get_font_index_loop, Option.some.injEq] at h
    rw [← h]; decide
  | succ k ih =>
    simp only [get_font_index_loop] at h
    split at h
    · cases h
    · split at h
      · split at h
        · cases h
        · simp only [Option.some.injEq] at h
          rw [← h]; exact toInt32_fits _
      · exact ih _ h

theorem get_font_index_fits (server : SServer) (font : Nat) (i : Int)
    (h : get_font_index server font = some i) : fits_int i := by
  unfold get_font_index at h
  split at h
  · cases h
  · exact get_font_index_loop_fits _ _ _ _ h

theorem expected_calls_cons (server : SServer) (fonts : List (Int × Nat)) (cmd : Cmd)
    (rest : List Cmd) :
    expected_calls server fonts (cmd :: rest)
      = expected_calls server fonts [cmd] ++ expected_calls server fonts rest := by
  cases cmd with
  | set_clip rect => simp [expected_calls]
  | draw_rect rect color => simp [expected_calls]
  | draw_text font text x y color =>
    simp only [expected_calls]
    split <;> simp

theorem record_length (server : SServer) (junk : List Byte) (cmd : Cmd)
    (hjunk : junk.length = 7) : (cmd.record server junk).length = cmd.size := by
  cases cmd with
  | set_clip rect =>
    simp [Cmd.record, Cmd.size, le_length, rect_bytes_length, sizeof_SetClipCommand]
  | draw_rect rect color =>
    simp [Cmd.record, Cmd.size, le_length, rect_bytes_length, color_bytes_length,
      sizeof_DrawRectCommand]
  | draw_text font text x y color =>
    simp only [Cmd.record, Cmd.size, List.length_append, head_length, hjunk,
      sizeof_DrawTextCommand]
    omega

theorem size_pos (cmd : Cmd) : 24 ≤ cmd.size := by
  cases cmd <;> simp only [Cmd.size, sizeof_SetClipCommand, sizeof_DrawRectCommand,
    sizeof_DrawTextCommand] <;> omega

/-- The replay of one record: its `type` and `size` fields are read back and
the callback of the drawing call is invoked with the arguments of the call. -/
theorem replay_record (server : SServer) (fonts : List (Int × Nat)) (cmd : Cmd)
    (junk rest : List Byte) (hfit : cmd.fits)
    (hreg : ∀ font text x y color, cmd = .draw_text font text x y color →
      ∃ i, get_font_index server font = some i) :
    ∃ type, field (cmd.record server junk ++ rest) 0 4 = some type
      ∧ field (cmd.record server junk ++ rest) 4 4 = some cmd.size
      ∧ replay_command fonts (cmd.record server junk ++ rest) type
          = some (expected_calls server fonts [cmd]) := by
  cases cmd with
  | set_clip rect =>
    obtain ⟨hx, hy, hw, hh⟩ := hfit
    refine ⟨SET_CLIP, ?_, ?_, ?_⟩
    · simp only [Cmd.record, List.append_assoc, field_head]; rfl
    · simp only [Cmd.record, List.append_assoc]
      rw [field_skip _ _ 4 4 (by simp [le_length]), le_length, Nat.sub_self, field_head]
      rfl
    · simp only [Cmd.record, List.append_assoc, replay_command, if_true]
      rw [field_rect_skip _ _ 8 (by simp [le_length]), le_length,
        field_rect_skip _ _ (8 - 4) (by simp [le_length]), le_length,
        field_rect_head rect rest hx hy hw hh]
      rfl
  | draw_rect rect color =>
    obtain ⟨hx, hy, hw, hh⟩ := hfit
    refine ⟨DRAW_RECT, ?_, ?_, ?_⟩
    · simp only [Cmd.record, List.append_assoc, field_head]; rfl
    · simp only [Cmd.record, List.append_assoc]
      rw [field_skip _ _ 4 4 (by simp [le_length]), le_length, Nat.sub_self, field_head]
      rfl
    · simp only [Cmd.record, List.append_assoc, replay_command, if_true]
      rw [field_rect_skip _ _ 8 (by simp [le_length]), le_length,
        field_rect_skip _ _ (8 - 4) (by simp [le_length]), le_length,
        field_rect_head rect _ hx hy hw hh,
        field_color_skip _ _ 24 (by simp [le_length]), le_length,
        field_color_skip _ _ (24 - 4) (by simp [le_length]), le_length,
        field_color_skip _ _ (24 - 4 - 4) (by simp [rect_bytes_length]), rect_bytes_length,
        field_color_head]
      rfl
  | draw_text font text x y color =>
    obtain ⟨hsz, hx, hy⟩ := hfit
    obtain ⟨i, hi⟩ := hreg font text x y color rfl
    have hfi := get_font_index_fits server font i hi
    have hdrop : (Cmd.record server junk (.draw_text font text x y color) ++ rest).drop 49
        = text ++ (junk ++ rest) := by
      simp only [Cmd.record, List.append_assoc]
      rw [List.drop_left' (head_length _ _ _ _ _)]
    have hflat : Cmd.record server junk (.draw_text font text x y color) ++ rest
        = le 4 DRAW_TEXT ++ (le 4 (sizeof_DrawTextCommand + text.length) ++ (color.bytes
          ++ (le 4 (toU32 i) ++ (le 16 0 ++ (le 4 x ++ (le 4 (toU32 y)
          ++ (le 8 text.length ++ ([2] ++ (text ++ (junk ++ rest)))))))))) := by
      simp only [Cmd.record, DrawTextCommand_head, hi, Option.getD_some, List.append_assoc]
    have hsize : (sizeof_DrawTextCommand + text.length) % 256 ^ 4
        = sizeof_DrawTextCommand + text.length := Nat.mod_eq_of_lt (by omega)
    have hlen8 : text.length % 256 ^ 8 = text.length :=
      Nat.mod_eq_of_lt (by simp only [sizeof_DrawTextCommand] at hsz; omega)
    have hx4 : x % 256 ^ 4 = x := Nat.mod_eq_of_lt (by omega)
    have f0 : field (Cmd.record server junk (.draw_text font text x y color) ++ rest) 0 4
        = some DRAW_TEXT := by
      rw [hflat, field_head]; rfl
    have f4 : field (Cmd.record server junk (.draw_text font text x y color) ++ rest) 4 4
        = some (sizeof_DrawTextCommand + text.length) := by
      rw [hflat, field_skip _ _ 4 4 (by simp [le_length]), le_length, Nat.sub_self, field_head,
        hsize]
    have f8 : field_color (Cmd.record server junk (.draw_text font text x y color) ++ rest) 8
        = some color := by
      rw [hflat, field_color_skip _ _ 8 (by simp [le_length]), le_length,
        field_color_skip _ _ (8 - 4) (by simp [le_length]), le_length, field_color_head]
    have f12 : field (Cmd.record server junk (.draw_text font text x y color) ++ rest) 12 4
        = some (toU32 i) := by
      rw [hflat, field_skip _ _ 12 4 (by simp [le_length]), le_length,
        field_skip _ _ (12 - 4) 4 (by simp [le_length]), le_length,
        field_skip _ _ (12 - 4 - 4) 4 (by simp [color_bytes_length]), color_bytes_length,
        field_head, toU32_mod]
    have f32 : field (Cmd.record server junk (.draw_text font text x y color) ++ rest) 32 4
        = some x := by
      rw [hflat, field_skip _ _ 32 4 (by simp [le_length]), le_length,
        field_skip _ _ (32 - 4) 4 (by simp [le_length]), le_length,
        field_skip _ _ (32 - 4 - 4) 4 (by simp [color_bytes_length]), color_bytes_length,
        field_skip _ _ (32 - 4 - 4 - 4) 4 (by simp [le_length]), le_length,
        field_skip _ _ (32 - 4 - 4 - 4 - 4) 4 (by simp [le_length]), le_length,
        field_head, hx4]
    have f36 : field (Cmd.record server junk (.draw_text font text x y color) ++ rest) 36 4
        = some (toU32 y) := by
      rw [hflat, field_skip _ _ 36 4 (by simp [le_length]), le_length,
        field_skip _ _ (36 - 4) 4 (by simp [le_length]), le_length,
        field_skip _ _ (36 - 4 - 4) 4 (by simp [color_bytes_length]), color_bytes_length,
        field_skip _ _ (36 - 4 - 4 - 4) 4 (by simp [le_length]), le_length,
        field_skip _ _ (36 - 4 - 4 - 4 - 4) 4 (by simp [le_length]), le_length,
        field_skip _ _ (36 - 4 - 4 - 4 - 4 - 16) 4 (by simp [le_length]), le_length,
        field_head, toU32_mod]
    have f40 : field (Cmd.record server junk (.draw_text font text x y color) ++ rest) 40 8
        = some text.length := by
      rw [hflat, field_skip _ _ 40 8 (by simp [le_length]), le_length,
        field_skip _ _ (40 - 4) 8 (by simp [le_length]), le_length,
        field_skip _ _ (40 - 4 - 4) 8 (by simp [color_bytes_length]), color_bytes_length,
        field_skip _ _ (40 - 4 - 4 - 4) 8 (by simp [le_length]), le_length,
        field_skip _ _ (40 - 4 - 4 - 4 - 4) 8 (by simp [le_length]), le_length,
        field_skip _ _ (40 - 4 - 4 - 4 - 4 - 16) 8 (by simp [le_length]), le_length,
        field_skip _ _ (40 - 4 - 4 - 4 - 4 - 16 - 4) 8 (by simp [le_length]), le_length,
        field_head, hlen8]
    refine ⟨DRAW_TEXT, f0, f4, ?_⟩
    simp only [replay_command, if_true]
    rw [f12]
    simp only [toInt32_toU32 i hfi.1 hfi.2, f40, f32, f36, f8, offsetof_text, hdrop,
      takeBytes_append, toInt32_toU32 y hy.1 hy.2, expected_calls, hi, Option.some_bind]
    cases fonts.lookup i <;> rfl

/-- The replay loop over the records of a sequence of drawing calls invokes
the expected callbacks, whatever follows the records in memory. -/
theorem replay_records (server : SServer) (fonts : List (Int × Nat)) (cmds : List Cmd) :
    ∀ (junks : List (List Byte)) (rest : List Byte) (fuel : Nat),
      (∀ cmd ∈ cmds, cmd.fits) →
      (∀ cmd ∈ cmds, ∀ font text x y color, cmd = .draw_text font text x y color →
        ∃ i, get_font_index server font = some i) →
      junks.length = cmds.length → (∀ j ∈ junks, j.length = 7) → cmds.length < fuel →
      replay_loop fonts fuel (records server cmds junks ++ rest)
          (records server cmds junks).length
        = some (expected_calls server fonts cmds) := by
  induction cmds with
  | nil =>
    intro junks rest fuel _ _ _ _ hfuel
    cases fuel with
    | zero => omega
    | succ f => cases junks <;> simp [records, replay_loop, expected_calls]
  | cons cmd cmds ih =>
    intro junks rest fuel hfit hreg hlen hjunk hfuel
    cases junks with
    | nil => simp at hlen
    | cons j js =>
      cases fuel with
      | zero => omega
      | succ f =>
        have hj : j.length = 7 := hjunk j (List.mem_cons_self _ _)
        have hrl := record_length server j cmd hj
        have hsz := size_pos cmd
        obtain ⟨type, h0, h4, hcall⟩ := replay_record server fonts cmd j
          (records server cmds js ++ rest) (hfit cmd (List.mem_cons_self _ _))
          (hreg cmd (List.mem_cons_self _ _))
        have hmem : records server (cmd :: cmds) (j :: js) ++ rest
            = cmd.record server j ++ (records server cmds js ++ rest) := by
          simp only [records, List.append_assoc]
        have hpos : 0 < (records server (cmd :: cmds) (j :: js)).length := by
          simp only [records, List.length_append]; omega
        have hrem : (records server (cmd :: cmds) (j :: js)).length - cmd.size
            = (records server cmds js).length := by
          simp only [records, List.length_append]; omega
        have hih := ih js rest f (fun c hc => hfit c (List.mem_cons_of_mem _ hc))
          (fun c hc => hreg c (List.mem_cons_of_mem _ hc))
          (by simpa using hlen) (fun x hx => hjunk x (List.mem_cons_of_mem _ hx))
          (by simp only [List.length_cons] at hfuel; omega)
        rw [replay_loop, if_pos hpos, hmem, h0, h4]
        simp only [hcall]
        rw [List.drop_left' hrl, hrem, hih, expected_calls_cons server fonts cmd cmds]
        rfl

theorem records_length_ge (server : SServer) (cmds : List Cmd) :
    ∀ junks : List (List Byte), junks.length = cmds.length → (∀ j ∈ junks, j.length = 7) →
      cmds.length ≤ (records server cmds junks).length := by
  induction cmds with
  | nil => intro junks _ _; simp
  | cons cmd cmds ih =>
    intro junks hlen hjunk
    cases junks with
    | nil => simp at hlen
    | cons j js =>
      have hrl := record_length server j cmd (hjunk j (List.mem_cons_self _ _))
      have hsz := size_pos cmd
      have := ih js (by simpa using hlen) (fun x hx => hjunk x (List.mem_cons_of_mem _ hx))
      simp only [records, List.length_append, List.length_cons]
      omega

/-! ### Appending commands -/

theorem push_command_spec (r : SRencache) (mem : List Byte) (size : Nat)
    (hwf : r.buffer.WF) (hhdr : (mem.drop 4).take 4 = le 4 size) (h8 : 8 ≤ mem.length)
    (hsz : size < 2 ^ 31) (hmem : size ≤ mem.length)
    (hroom : r.buffer.length + size ≤ 2 ^ 63) :
    ∃ b, push_command r mem
        = some ((size : Int), { buffer := b, checksum := hash r.checksum (mem.take size) })
      ∧ b.WF ∧ b.length = r.buffer.length + size
      ∧ b.contents = r.buffer.contents ++ mem.take size := by
  have hmod : size % 256 ^ 4 = size := Nat.mod_eq_of_lt (by omega)
  have hread : takeLE 4 (mem.drop 4) = some (size, (mem.drop 4).drop 4) := by
    rw [takeLE_eq _ _ (by rw [List.length_drop]; omega), hhdr, unle_le, hmod]
  have htake : (mem.take size).length = size := by
    rw [List.length_take]; omega
  obtain ⟨b, hb, hwfb, hlb, hcb, _⟩ := array_append_spec r.buffer (mem.take size) hwf
    (by rw [htake]; exact hroom)
  rw [htake] at hb hlb
  refine ⟨b, ?_, hwfb, hlb, hcb⟩
  simp only [push_command, hread, takeBytes, if_pos hmem, hb, if_pos hsz]

theorem get_font_index_congr (s1 s : SServer) (h : s1.registered_fonts = s.registered_fonts)
    (font : Nat) : get_font_index s1 font = get_font_index s font := by
  simp only [get_font_index, h]

theorem record_congr (s1 s : SServer) (h : s1.registered_fonts = s.registered_fonts)
    (junk : List Byte) (cmd : Cmd) : cmd.record s1 junk = cmd.record s junk := by
  cases cmd with
  | set_clip rect => rfl
  | draw_rect rect color => rfl
  | draw_text font text x y color =>
    simp only [Cmd.record, get_font_index_congr s1 s h]

theorem writeAt_append_left (a m bs : List Byte) :
    writeAt (a ++ m) a.length bs = a ++ (bs ++ m.drop bs.length) := by
  simp only [writeAt, List.take_left, List.drop_append, List.append_assoc]

theorem take_all (l : List Byte) (n : Nat) (h : l.length = n) : l.take n = l := by
  rw [← h, List.take_length]

/-- One drawing call on an open channel appends its record to the command
buffer and folds it into the checksum; nothing else of the server changes
but the scratch buffer. -/
theorem draw_one_spec (s : SServer) (cmd : Cmd) (hfd : s.duplex.fd ≠ 0)
    (hbuf : s.rencache.buffer.WF) (hca : s.cmd_array.WF) (hfit : cmd.fits)
    (hreg : cmd.registered s) (hroom : s.rencache.buffer.length + cmd.size ≤ 2 ^ 63) :
    ∃ s1 junk, draw_one s cmd = some (.ok s1) ∧ junk.length = 7
      ∧ s1.duplex = s.duplex ∧ s1.registered_fonts = s.registered_fonts
      ∧ s1.previous_rencache_checksum = s.previous_rencache_checksum
      ∧ s1.rencache.buffer.WF ∧ s1.cmd_array.WF
      ∧ s1.rencache.buffer.length = s.rencache.buffer.length + cmd.size
      ∧ s1.rencache.buffer.contents = s.rencache.buffer.contents ++ cmd.record s junk
      ∧ s1.rencache.checksum = hash s.rencache.checksum (cmd.record s junk) := by
  cases cmd with
  | set_clip rect =>
    have hl : (le 4 SET_CLIP ++ (le 4 sizeof_SetClipCommand ++ rect.bytes)).length = 24 := by
      simp [le_length, rect_bytes_length]
    obtain ⟨b, hp, hwfb, hlb, hcb⟩ := push_command_spec s.rencache
      (le 4 SET_CLIP ++ (le 4 sizeof_SetClipCommand ++ rect.bytes)) 24 hbuf
      (by rw [List.drop_left' (le_length 4 _), List.take_left' (le_length 4 _)]; rfl)
      (by rw [hl]; omega) (by omega) (by rw [hl]) hroom
    rw [take_all _ 24 hl] at hp hcb
    refine ⟨{ s with rencache := { buffer := b, checksum := (hash s.rencache.checksum
        (le 4 SET_CLIP ++ (le 4 sizeof_SetClipCommand ++ rect.bytes))) } }, List.replicate 7 0,
      ?_, by simp, rfl, rfl, rfl, hwfb, hca, hlb, hcb, rfl⟩
    simp only [draw_one, f_server_set_clip_rect, hp, Option.map_some']
  | draw_rect rect color =>
    have hl : (le 4 DRAW_RECT ++ (le 4 sizeof_DrawRectCommand
        ++ (rect.bytes ++ color.bytes))).length = 28 := by
      simp [le_length, rect_bytes_length, color_bytes_length]
    obtain ⟨b, hp, hwfb, hlb, hcb⟩ := push_command_spec s.rencache
      (le 4 DRAW_RECT ++ (le 4 sizeof_DrawRectCommand ++ (rect.bytes ++ color.bytes))) 28 hbuf
      (by rw [List.drop_left' (le_length 4 _), List.take_left' (le_length 4 _)]; rfl)
      (by rw [hl]; omega) (by omega) (by rw [hl]) hroom
    rw [take_all _ 28 hl] at hp hcb
    refine ⟨{ s with rencache := { buffer := b, checksum := (hash s.rencache.checksum
        (le 4 DRAW_RECT ++ (le 4 sizeof_DrawRectCommand ++ (rect.bytes ++ color.bytes)))) } },
      List.replicate 7 0, ?_, by simp, rfl, rfl, rfl, hwfb, hca, hlb, hcb, rfl⟩
    simp only [draw_one, f_server_draw_rect, hp, Option.map_some']
  | draw_text font text x y color =>
    obtain ⟨hsz, hx, hy⟩ := hfit
    simp only [sizeof_DrawTextCommand] at hsz
    simp only [Cmd.size, sizeof_DrawTextCommand] at hroom
    have hreg1 : ∃ i, get_font_index s font = some i ∧ i ≠ -1 := by
      obtain ⟨h1, h2⟩ := hreg
      cases hg : get_font_index s font with
      | none => exact absurd hg h1
      | some i => exact ⟨i, rfl, fun hi => h2 (by rw [hg, hi])⟩
    obtain ⟨i, hi, hi1⟩ := hreg1
    obtain ⟨ca, hres, hwfca, _, _, hcap, _, _⟩ :=
      array_reserve_spec s.cmd_array (56 + text.length) hca (by omega)
    have hmod : (sizeof_DrawTextCommand + text.length) % 2 ^ 64 = 56 + text.length :=
      Nat.mod_eq_of_lt (by simp only [sizeof_DrawTextCommand]; omega)
    have hhl := head_length text.length color i x y
    have hbl : (DrawTextCommand_bytes text.length color i x y).length = 56 := by
      simp [DrawTextCommand_bytes, hhl]
    have hcal : 56 + text.length ≤ ca.data.length := by rw [hwfca.1]; exact hcap
    have hs0 : store ca.data 0 (DrawTextCommand_bytes text.length color i x y)
        = some (DrawTextCommand_bytes text.length color i x y ++ ca.data.drop 56) := by
      rw [store, if_pos (by rw [hbl]; omega), writeAt_zero, hbl]
    have hM : DrawTextCommand_bytes text.length color i x y ++ ca.data.drop 56
        = DrawTextCommand_head text.length color i x y
          ++ (List.replicate 7 0 ++ ca.data.drop 56) := by
      simp only [DrawTextCommand_bytes, List.append_assoc]
    have hMl : (List.replicate 7 (0 : Byte) ++ ca.data.drop 56).length
        = ca.data.length - 49 := by
      simp only [List.length_append, List.length_replicate, List.length_drop]; omega
    have hs1 : store (DrawTextCommand_bytes text.length color i x y ++ ca.data.drop 56)
        offsetof_text text
        = some (DrawTextCommand_head text.length color i x y
          ++ (text ++ (List.replicate 7 0 ++ ca.data.drop 56).drop text.length)) := by
      have hw := writeAt_append_left (DrawTextCommand_head text.length color i x y)
        (List.replicate 7 0 ++ ca.data.drop 56) text
      rw [hhl] at hw
      rw [store, if_pos (by
        simp only [List.length_append, hbl, List.length_drop, offsetof_text]; omega),
        hM, offsetof_text, hw]
    have htl : ((List.replicate 7 (0 : Byte) ++ ca.data.drop 56).drop text.length).length
        = ca.data.length - 49 - text.length := by
      rw [List.length_drop, hMl]
    have hrec : (DrawTextCommand_head text.length color i x y
          ++ (text ++ (List.replicate 7 0 ++ ca.data.drop 56).drop text.length)).take
            (56 + text.length)
        = DrawTextCommand_head text.length color i x y ++ (text
          ++ ((List.replicate 7 0 ++ ca.data.drop 56).drop text.length).take 7) := by
      rw [List.take_append_eq_append_take, hhl, List.take_of_length_le (by rw [hhl]; omega),
        List.take_append_eq_append_take, List.take_of_length_le (by omega)]
      congr 3
      omega
    obtain ⟨b, hp, hwfb, hlb, hcb⟩ := push_command_spec s.rencache
      (DrawTextCommand_head text.length color i x y
        ++ (text ++ (List.replicate 7 0 ++ ca.data.drop 56).drop text.length))
      (56 + text.length) hbuf
      (by
        simp only [DrawTextCommand_head, List.append_assoc]
        rw [List.drop_left' (le_length 4 _), List.take_left' (le_length 4 _)]
        rfl)
      (by simp only [List.length_append, hhl]; omega) (by omega)
      (by simp only [List.length_append, hhl, htl]; omega) hroom
    rw [hrec] at hp hcb
    refine ⟨{ s with
        cmd_array := { ca with data := (DrawTextCommand_head text.length color i x y
          ++ (text ++ (List.replicate 7 0 ++ ca.data.drop 56).drop text.length)) },
        rencache := { buffer := b, checksum := (hash s.rencache.checksum
          (DrawTextCommand_head text.length color i x y ++ (text
            ++ ((List.replicate 7 0 ++ ca.data.drop 56).drop text.length).take 7))) } },
      ((List.replicate 7 0 ++ ca.data.drop 56).drop text.length).take 7,
      ?_, ?_, rfl, rfl, rfl, hwfb, ?_, hlb, ?_, ?_⟩
    · simp only [draw_one, f_server_draw_text, ne_eq, hfd, not_false_eq_true, if_true, hi,
        if_neg hi1, hmod, hres, hs0, hs1, hp]
    · rw [List.length_take, htl]; omega
    · refine ⟨?_, hwfca.2.1, hwfca.2.2⟩
      simp only [List.length_append, hhl, htl]
      rw [← hwfca.1]; omega
    · simp only [Cmd.record, hi, Option.getD_some]
      exact hcb
    · simp only [Cmd.record, hi, Option.getD_some]

theorem registered_congr (s1 s : SServer) (h : s1.registered_fonts = s.registered_fonts)
    (cmd : Cmd) (hr : cmd.registered s) : cmd.registered s1 := by
  cases cmd with
  | set_clip rect => trivial
  | draw_rect rect color => trivial
  | draw_text font text x y color =>
    simp only [Cmd.registered, get_font_index_congr s1 s h]
    exact hr

/-- A sequence of drawing calls on an open channel appends the records of
the calls, in order, and folds them into the checksum. -/
theorem draw_all_spec (s0 : SServer) (cmds : List Cmd) :
    ∀ s : SServer, s.registered_fonts = s0.registered_fonts → s.duplex.fd ≠ 0 →
      s.rencache.buffer.WF → s.cmd_array.WF → (∀ cmd ∈ cmds, cmd.fits) →
      (∀ cmd ∈ cmds, cmd.registered s0) →
      s.rencache.buffer.length + (cmds.map Cmd.size).sum ≤ 2 ^ 63 →
      ∃ s1 junks, draw_all s cmds = some (.ok s1)
        ∧ junks.length = cmds.length ∧ (∀ j ∈ junks, j.length = 7)
        ∧ s1.duplex = s.duplex ∧ s1.registered_fonts = s.registered_fonts
        ∧ s1.previous_rencache_checksum = s.previous_rencache_checksum
        ∧ s1.rencache.buffer.WF ∧ s1.cmd_array.WF
        ∧ s1.rencache.buffer.length = s.rencache.buffer.length + (cmds.map Cmd.size).sum
        ∧ s1.rencache.buffer.contents = s.rencache.buffer.contents ++ records s0 cmds junks
        ∧ s1.rencache.checksum = hash s.rencache.checksum (records s0 cmds junks) := by
  induction cmds with
  | nil =>
    intro s _ _ hbuf hca _ _ _
    exact ⟨s, [], rfl, rfl, by simp, rfl, rfl, rfl, hbuf, hca, by simp, by simp [records],
      by simp [records, hash]⟩
  | cons cmd cmds ih =>
    intro s hrf hfd hbuf hca hfit hreg hroom
    simp only [List.map_cons, List.sum_cons] at hroom
    obtain ⟨s1, junk, h1, hj, hd1, hr1, hp1, hb1, hc1, hl1, hcont1, hsum1⟩ :=
      draw_one_spec s cmd hfd hbuf hca (hfit cmd (List.mem_cons_self _ _))
        (registered_congr s s0 hrf cmd (hreg cmd (List.mem_cons_self _ _))) (by omega)
    obtain ⟨s2, junks, h2, hjl, hjs, hd2, hr2, hp2, hb2, hc2, hl2, hcont2, hsum2⟩ :=
      ih s1 (by rw [hr1, hrf]) (by rw [hd1]; exact hfd) hb1 hc1
        (fun c hc => hfit c (List.mem_cons_of_mem _ hc))
        (fun c hc => hreg c (List.mem_cons_of_mem _ hc)) (by rw [hl1]; omega)
    have hrec : cmd.record s junk = cmd.record s0 junk := record_congr s s0 hrf junk cmd
    refine ⟨s2, junk :: junks, ?_, by simp [hjl], ?_, by rw [hd2, hd1], by rw [hr2, hr1],
      by rw [hp2, hp1], hb2, hc2, ?_, ?_, ?_⟩
    · simp only [draw_all, h1, h2]
    · intro j hjm
      rcases List.mem_cons.mp hjm with h | h
      · rw [h]; exact hj
      · exact hjs j h
    · rw [hl2, hl1]; simp only [List.map_cons, List.sum_cons]; omega
    · rw [hcont2, hcont1, hrec]; simp only [records, List.append_assoc]
    · rw [hsum2, hsum1, hrec]; simp only [records, hash_append]

/-- C6: for every sequence of `SetClip`/`DrawRect`/`DrawText` calls appended
to the command buffer after `begin_frame` (on an open channel, with
registered fonts and arguments that fit the record fields), the calls
succeed, and the client's scan of a buffer holding the same bytes invokes
exactly one callback per record, in the original order, with the record's
field values; a `DrawText` record whose font index has no entry in the
client's font table invokes no callback and raises no error, and the scan
goes on with the next record. -/
theorem replay_equals_appended (server : SServer) (cmds : List Cmd) (client : SClient)
    (font_load : List Value → Option Nat)
    (hopen : server.duplex.fd ≠ 0) (hbuf : server.rencache.buffer.WF)
    (hscratch : server.cmd_array.WF) (hfit : ∀ cmd ∈ cmds, cmd.fits)
    (hreg : ∀ cmd ∈ cmds, cmd.registered server)
    (hsize : (cmds.map Cmd.size).sum ≤ 2 ^ 63)
    (hclient : client.duplex.fd ≠ 0)
    (htype : client.duplex.incoming_packet_type = PACKET_COMMAND_BUFFER)
    (hlen : client.duplex.incoming_buffer.length ≤ client.duplex.incoming_buffer.data.length) :
    ∃ s, draw_all (f_server_begin_frame server) cmds = some (.ok s)
      ∧ (client.duplex.incoming_buffer.contents = s.rencache.buffer.contents →
          f_client_process_event font_load client
            = some { returned := [],
                     calls := expected_calls server client.fonts cmds,
                     client := { client with duplex :=
                       { client.duplex with incoming_packet_type := PACKET_NONE } } }) := by
  obtain ⟨s, junks, hrun, hjl, hjs, _, _, _, _, _, _, hcont, _⟩ :=
    draw_all_spec server cmds (f_server_begin_frame server) rfl hopen
      ⟨hbuf.1, Nat.zero_le _, hbuf.2.2⟩ hscratch hfit hreg
      (by simp only [f_server_begin_frame, array_clear]; omega)
  refine ⟨s, hrun, ?_⟩
  intro hsame
  have hc0 : (f_server_begin_frame server).rencache.buffer.contents = [] := by
    simp [f_server_begin_frame, array_clear, array_t.contents]
  rw [hc0, List.nil_append] at hcont
  have hdata : client.duplex.incoming_buffer.data
      = records server cmds junks
        ++ client.duplex.incoming_buffer.data.drop client.duplex.incoming_buffer.length := by
    rw [← hcont, ← hsame, array_t.contents, List.take_append_drop]
  have hl : client.duplex.incoming_buffer.length = (records server cmds junks).length := by
    rw [← hcont, ← hsame, array_t.contents, List.length_take]; omega
  have hreg1 : ∀ cmd ∈ cmds, ∀ font text x y color, cmd = Cmd.draw_text font text x y color →
      ∃ i, get_font_index server font = some i := by
    intro cmd hc font text x y color he
    have h := hreg cmd hc
    rw [he] at h
    cases hg : get_font_index server font with
    | none => exact absurd hg h.1
    | some i => exact ⟨i, rfl⟩
  have hreplay := replay_records server client.fonts cmds junks
    (client.duplex.incoming_buffer.data.drop client.duplex.incoming_buffer.length)
    (client.duplex.incoming_buffer.length + 1) hfit hreg1 hjl hjs
    (by have := records_length_ge server cmds junks hjl hjs; omega)
  rw [← hdata, ← hl] at hreplay
  simp only [f_client_process_event, if_neg hclient, htype, hreplay]
  rfl

theorem replay_equals_appended_witness :
    f_client_process_event (fun _ => none) font_client
      = some { returned := [],
               calls := [Call.set_clip { x := 0, y := 0, width := 100, height := 100 },
                         Call.draw_text 77 [104, 105] 1092616192 20 white,
                         Call.draw_rect { x := 10, y := 10, width := 5, height := 5 } white],
               client := { font_client with duplex :=
                 { font_client.duplex with incoming_packet_type := PACKET_NONE } } } := by
  obtain ⟨s, hrun, h⟩ := replay_equals_appended font_server four_calls font_client
    (fun _ => none) (by decide) (by decide) (by decide) (by decide) (by decide) (by decide)
    (by decide) (by decide) (by decide!)
  have key : ∀ r, draw_all (f_server_begin_frame font_server) four_calls = r →
      four_calls_buffer = (match r with
        | some (.ok s) => s.rencache.buffer
        | _ => array_t.zero) := by
    intro r hr
    subst hr
    unfold four_calls_buffer
    exact Eq.refl _
  have hb0 : font_client.duplex.incoming_buffer = four_calls_buffer := by
    simp only [font_client]
  have hb : font_client.duplex.incoming_buffer = s.rencache.buffer := by
    rw [hb0, key _ hrun]
  rw [h (by rw [hb])]
  have he : expected_calls font_server font_client.fonts four_calls
      = [Call.set_clip { x := 0, y := 0, width := 100, height := 100 },
         Call.draw_text 77 [104, 105] 1092616192 20 white,
         Call.draw_rect { x := 10, y := 10, width := 5, height := 5 } white] := by decide
  rw [he]

/-! ### Growable buffer: the four operations -/

theorem reserve_loop_some (fuel c n c1 : Nat) (hc : c < 2 ^ 64)
    (h : reserve_loop fuel c n = some c1) : n ≤ c1 ∧ c1 < 2 ^ 64 := by
  induction fuel generalizing c with
  | zero => cases h
  | succ f ih =>
    rw [reserve_loop] at h
    by_cases hlt : c < n
    · rw [if_pos hlt] at h
      exact ih _ (Nat.mod_lt _ (by decide)) h
    · rw [if_neg hlt] at h
      simp only [Option.some.injEq] at h
      subst h
      exact ⟨by omega, hc⟩

theorem realloc_length (data : List Byte) (n : Nat) : (realloc data n).length = n := by
  simp only [realloc, List.length_append, List.length_take, List.length_replicate]
  omega

/-- Whenever `array_reserve` returns, it returns the requested length and a
buffer that satisfies the representation invariant, with the length and the
contents it had. -/
theorem array_reserve_some (a : array_t) (n : Nat) (r : Nat × array_t) (hwf : a.WF)
    (h : array_reserve a n = some r) :
    r.1 = n ∧ r.2.WF ∧ n ≤ r.2.capacity ∧ a.capacity ≤ r.2.capacity
      ∧ r.2.length = a.length ∧ r.2.contents = a.contents := by
  obtain ⟨hd, hl, hc⟩ := hwf
  unfold array_reserve at h
  by_cases hlt : a.capacity < n
  · rw [if_pos hlt] at h
    cases hr : reserve_loop 65 (if a.capacity = 0 then 1 else a.capacity) n with
    | none => rw [hr] at h; cases h
    | some c1 =>
      rw [hr] at h
      simp only [Option.some.injEq] at h
      subst h
      have hc0 : (if a.capacity = 0 then 1 else a.capacity) < 2 ^ 64 := by split <;> omega
      obtain ⟨h1, h2⟩ := reserve_loop_some _ _ _ _ hc0 hr
      refine ⟨rfl, ⟨realloc_length _ _, by simp only; omega, h2⟩, h1, by simp only; omega, rfl, ?_⟩
      simp only [array_t.contents, realloc]
      rw [List.take_of_length_le (by omega : a.data.length ≤ c1),
        List.take_append_of_le_length (by omega)]
  · rw [if_neg hlt] at h
    simp only [Option.some.injEq] at h
    subst h
    exact ⟨rfl, ⟨hd, hl, hc⟩, Nat.le_of_not_lt hlt, le_refl _, rfl, rfl⟩

theorem array_shift_spec (a : array_t) (n : Nat) (hn : n ≤ a.length)
    (hl : a.length ≤ a.data.length) :
    ∃ b, array_shift a n = some b ∧ b.length = a.length - n ∧ b.capacity = a.capacity
      ∧ b.size = a.size ∧ b.data.length = a.data.length
      ∧ b.contents = a.contents.drop n ∧ (n = 0 → b = a) := by
  by_cases h0 : n = 0
  · subst h0
    exact ⟨a, by simp [array_shift], by simp, rfl, rfl, rfl, by simp, fun _ => rfl⟩
  · have hlen : ((a.data.drop n).take (a.length - n)).length = a.length - n := by
      rw [List.length_take, List.length_drop]; omega
    refine ⟨{ a with data := writeAt a.data 0 ((a.data.drop n).take (a.length - n)),
                     length := a.length - n }, ?_, rfl, rfl, rfl, ?_, ?_, fun h => absurd h h0⟩
    · simp only [array_shift, if_neg h0]
      rw [if_pos ⟨hn, hl⟩]
    · simp only
      rw [writeAt_length _ _ _ (by rw [hlen]; omega)]
    · simp only [array_t.contents, writeAt_zero]
      rw [List.take_append_of_le_length (by rw [hlen]), List.take_take, Nat.min_self,
        List.drop_take]
theorem reserve_loop_least (k : Nat) : ∀ (fuel c n : Nat), 1 ≤ c → (∀ i, i < k → c * 2 ^ i < n) →
    n ≤ c * 2 ^ k → c * 2 ^ k < 2 ^ 64 → k < fuel → reserve_loop fuel c n = some (c * 2 ^ k) := by
  induction k with
  | zero =>
    intro fuel c n _ _ hn _ hf
    obtain ⟨f, rfl⟩ : ∃ f, fuel = f + 1 := ⟨fuel - 1, by omega⟩
    rw [reserve_loop, if_neg (by simpa using hn)]
    simp
  | succ k ih =>
    intro fuel c n hc hlt hn hb hf
    obtain ⟨f, rfl⟩ : ∃ f, fuel = f + 1 := ⟨fuel - 1, by omega⟩
    have h0 : c < n := by simpa using hlt 0 (by omega)
    have hpow : c * 2 ^ (k + 1) = c * 2 * 2 ^ k := by rw [pow_succ]; ring
    have hk1 : 1 ≤ 2 ^ k := Nat.one_le_two_pow
    have hc2 : c * 2 < 2 ^ 64 := by
      have : c * 2 * 1 ≤ c * 2 * 2 ^ k := Nat.mul_le_mul_left _ hk1
      omega
    rw [reserve_loop, if_pos h0, Nat.mod_eq_of_lt hc2, hpow]
    refine ih f (c * 2) n (by omega) ?_ (by omega) (by omega) (by omega)
    intro i hi
    have := hlt (i + 1) (by omega)
    have hp : c * 2 ^ (i + 1) = c * 2 * 2 ^ i := by rw [pow_succ]; ring
    omega

/-- Doubling `max capacity 1` until it covers `n`, when some such double fits
a `size_t`: the loop of `array_reserve` stops at the least one. -/
theorem array_reserve_least (a : array_t) (n k : Nat) (hwf : a.WF)
    (hk : n ≤ max a.capacity 1 * 2 ^ k) (hlt : max a.capacity 1 * 2 ^ k < 2 ^ 64) :
    ∃ b, array_reserve a n = some (n, b)
      ∧ (n ≤ a.capacity → b = a)
      ∧ (a.capacity < n → ∃ j, b.capacity = max a.capacity 1 * 2 ^ j ∧ n ≤ b.capacity
            ∧ ∀ i, i < j → max a.capacity 1 * 2 ^ i < n)
      ∧ a.capacity ≤ b.capacity ∧ b.length = a.length ∧ b.size = a.size
      ∧ b.contents = a.contents := by
  by_cases hcap : a.capacity < n
  · have hex : ∃ j, n ≤ max a.capacity 1 * 2 ^ j := ⟨k, hk⟩
    have hj := Nat.find_spec hex
    have hmin : ∀ i, i < Nat.find hex → max a.capacity 1 * 2 ^ i < n := fun i hi =>
      Nat.lt_of_not_le (Nat.find_min hex hi)
    have hjk : Nat.find hex ≤ k := Nat.find_min' hex hk
    have hb : max a.capacity 1 * 2 ^ Nat.find hex < 2 ^ 64 :=
      lt_of_le_of_lt (Nat.mul_le_mul_left _ (Nat.pow_le_pow_right (by decide) hjk)) hlt
    have h1 : 1 ≤ max a.capacity 1 := le_max_right _ _
    have hj64 : Nat.find hex < 65 := by
      by_contra hge
      have : 2 ^ 64 ≤ 2 ^ Nat.find hex := Nat.pow_le_pow_right (by decide) (by omega)
      have : 1 * 2 ^ Nat.find hex ≤ max a.capacity 1 * 2 ^ Nat.find hex :=
        Nat.mul_le_mul_right _ h1
      omega
    have hc0 : (if a.capacity = 0 then 1 else a.capacity) = max a.capacity 1 := by
      split <;> omega
    have hloop := reserve_loop_least (Nat.find hex) 65 (max a.capacity 1) n h1 hmin hj hb hj64
    have hres : array_reserve a n = some (n, { a with
        capacity := max a.capacity 1 * 2 ^ Nat.find hex,
        data := realloc a.data (max a.capacity 1 * 2 ^ Nat.find hex) }) := by
      unfold array_reserve
      rw [if_pos hcap, hc0, hloop]
    obtain ⟨_, _, h3, h4, h5, h6⟩ := array_reserve_some a n _ hwf hres
    exact ⟨_, hres, fun h => absurd hcap (by omega), fun _ => ⟨Nat.find hex, rfl, hj, hmin⟩,
      h4, h5, rfl, h6⟩
  · refine ⟨a, ?_, fun _ => rfl, fun h => absurd h hcap, le_refl _, rfl, rfl, rfl⟩
    unfold array_reserve
    rw [if_neg hcap]

theorem array_append_some (a : array_t) (bs : List Byte) (r : Nat × array_t) (hwf : a.WF)
    (h : array_append a bs = some r) : r.2.WF := by
  have hwf1 : (if a.size = 0 then { a with size := bs.length } else a).WF := by
    split <;> exact hwf
  unfold array_append at h
  simp only at h
  cases hr : array_reserve (if a.size = 0 then { a with size := bs.length } else a)
      ((bs.length + (if a.size = 0 then { a with size := bs.length } else a).length) % 2 ^ 64) with
  | none => rw [hr] at h; cases h
  | some r2 =>
    obtain ⟨_, ⟨hd, hl, hc⟩, _⟩ := array_reserve_some _ _ _ hwf1 hr
    rw [hr] at h
    simp only at h
    by_cases hfit : r2.2.length + bs.length ≤ r2.2.data.length
    · rw [if_pos hfit] at h
      simp only [Option.some.injEq] at h
      subst h
      have hn : (r2.2.length + bs.length) % 2 ^ 64 = r2.2.length + bs.length :=
        Nat.mod_eq_of_lt (by omega)
      refine ⟨?_, ?_, hc⟩
      · simp only
        rw [writeAt_length _ _ _ hfit, hd]
      · simp only
        rw [hn]; omega
    · rw [if_neg hfit] at h
      cases h

/-! ### C17 – C20: the growable buffer -/

/-- C17 does not hold for every argument: `array_shift` with a size above the
length (here 5 on the three bytes of `three_bytes`, which satisfies
capacity ≥ length) subtracts the size from the length modulo 2^64 and leaves
a buffer of length 2^64 - 2 with the capacity 4. -/
theorem shift_beyond_length_breaks_invariant :
    three_bytes.WF ∧ three_bytes.length ≤ three_bytes.capacity
      ∧ (array_shift three_bytes 5).map (fun b => (b.length, b.capacity))
          = some (2 ^ 64 - 2, 4)
      ∧ ¬ ∃ b, array_shift three_bytes 5 = some b ∧ b.length ≤ b.capacity := by
  refine ⟨by decide, by decide, by decide, ?_⟩
  rintro ⟨b, hb, hle⟩
  have h : (array_shift three_bytes 5).map (fun b => (b.length, b.capacity))
      = some (2 ^ 64 - 2, 4) := by decide
  rw [hb] at h
  simp only [Option.map_some', Option.some.injEq, Prod.mk.injEq] at h
  omega

/-- C17 (amended): on a buffer that satisfies the representation invariant
(capacity ≥ length, with a data block of capacity bytes), `reserve(n)` with
n ≤ 2^63, `append` with length + len ≤ 2^63, `clear` and `shift(n)` with
n ≤ length each yield a buffer that satisfies the invariant again; and
whenever `array_reserve` or `array_append` yields a buffer at all, it
satisfies the invariant. -/
theorem buffer_invariant (a : array_t) (hwf : a.WF) :
    (∀ n r, array_reserve a n = some r → r.2.WF ∧ r.2.length ≤ r.2.capacity)
      ∧ (∀ n, n ≤ 2 ^ 63 → ∃ r, array_reserve a n = some r)
      ∧ (∀ bs r, array_append a bs = some r → r.2.WF ∧ r.2.length ≤ r.2.capacity)
      ∧ (∀ bs, a.length + bs.length ≤ 2 ^ 63 → ∃ r, array_append a bs = some r)
      ∧ ((array_clear a).WF ∧ (array_clear a).length ≤ (array_clear a).capacity)
      ∧ (∀ n, n ≤ a.length →
          ∃ b, array_shift a n = some b ∧ b.WF ∧ b.length ≤ b.capacity) := by
  obtain ⟨hd, hl, hc⟩ := hwf
  refine ⟨?_, ?_, ?_, ?_, ?_, ?_⟩
  · intro n r h
    have h2 := (array_reserve_some a n r ⟨hd, hl, hc⟩ h).2.1
    exact ⟨h2, h2.2.1⟩
  · intro n hn
    obtain ⟨a1, h, _⟩ := array_reserve_spec a n ⟨hd, hl, hc⟩ hn
    exact ⟨_, h⟩
  · intro bs r h
    have h2 := array_append_some a bs r ⟨hd, hl, hc⟩ h
    exact ⟨h2, h2.2.1⟩
  · intro bs hn
    obtain ⟨a1, h, _⟩ := array_append_spec a bs ⟨hd, hl, hc⟩ hn
    exact ⟨_, h⟩
  · exact ⟨⟨hd, Nat.zero_le _, hc⟩, Nat.zero_le _⟩
  · intro n hn
    obtain ⟨b, h, hbl, hbc, _, hbd, _, _⟩ := array_shift_spec a n hn (by omega)
    exact ⟨b, h, ⟨by rw [hbd, hd, hbc], by rw [hbl, hbc]; omega, by rw [hbc]; exact hc⟩,
      by rw [hbl, hbc]; omega⟩

/-- C17 at the buffer `three_bytes`. -/
theorem buffer_invariant_witness :
    three_bytes.WF ∧ (array_clear three_bytes).WF
      ∧ ∃ b, array_shift three_bytes 2 = some b ∧ b.WF ∧ b.length ≤ b.capacity :=
  ⟨by decide, (buffer_invariant three_bytes (by decide)).2.2.2.2.1.1,
    (buffer_invariant three_bytes (by decide)).2.2.2.2.2 2 (by decide)⟩

/-- C18 does not hold for every requested size: on the zeroed buffer,
`reserve(2^63 + 1)` doubles the capacity 1 up to 2^63, then to 0 modulo 2^64,
and 0 stays below the request for ever, so the call never returns. -/
theorem reserve_beyond_half_never_returns :
    array_reserve array_t.zero (2 ^ 63 + 1) = none
      ∧ ∀ k, reserve_loop (65 + k) 1 (2 ^ 63 + 1) = none :=
  ⟨by decide, fun k => reserve_loop_diverges 1 (2 ^ 63 + 1) k (by decide)⟩

/-- C18 (amended): for a buffer that satisfies the representation invariant
and a request n that some double `max capacity 1 * 2^k` below 2^64 covers,
`array_reserve` returns n; with capacity ≥ n the buffer is unchanged,
otherwise the new capacity is `max capacity 1 * 2^j` for the least j that
makes it ≥ n; the capacity never shrinks, and the length, the element size
and the first length bytes are unchanged. -/
theorem reserve_postcondition (a : array_t) (n k : Nat) (hwf : a.WF)
    (hk : n ≤ max a.capacity 1 * 2 ^ k) (hlt : max a.capacity 1 * 2 ^ k < 2 ^ 64) :
    ∃ b, array_reserve a n = some (n, b)
      ∧ (n ≤ a.capacity → b = a)
      ∧ (a.capacity < n → ∃ j, b.capacity = max a.capacity 1 * 2 ^ j ∧ n ≤ b.capacity
            ∧ ∀ i, i < j → max a.capacity 1 * 2 ^ i < n)
      ∧ a.capacity ≤ b.capacity ∧ b.length = a.length ∧ b.size = a.size
      ∧ b.contents = a.contents :=
  array_reserve_least a n k hwf hk hlt

/-- C18 at the buffer `three_bytes` (capacity 4) and the request 13, which
the third double, 32, covers. -/
theorem reserve_postcondition_witness :
    three_bytes.WF ∧ ∃ b, array_reserve three_bytes 13 = some (13, b)
      ∧ (13 ≤ three_bytes.capacity → b = three_bytes)
      ∧ (three_bytes.capacity < 13 → ∃ j, b.capacity = max three_bytes.capacity 1 * 2 ^ j
            ∧ 13 ≤ b.capacity ∧ ∀ i, i < j → max three_bytes.capacity 1 * 2 ^ i < 13)
      ∧ three_bytes.capacity ≤ b.capacity ∧ b.length = three_bytes.length
      ∧ b.size = three_bytes.size ∧ b.contents = three_bytes.contents :=
  ⟨by decide, reserve_postcondition three_bytes 13 3 (by decide) (by decide) (by decide)⟩

/-- C19: for a buffer that satisfies the representation invariant, with
contents c, and a byte string d with length + len ≤ 2^63, `array_append`
returns the new length, length + len, and yields a buffer of that length whose
contents are c followed by d. -/
theorem append_postcondition (a : array_t) (d : List Byte) (hwf : a.WF)
    (h : a.length + d.length ≤ 2 ^ 63) :
    ∃ b, array_append a d = some (a.length + d.length, b)
      ∧ b.length = a.length + d.length ∧ b.contents = a.contents ++ d := by
  obtain ⟨b, h1, _, h3, h4, _⟩ := array_append_spec a d hwf h
  exact ⟨b, h1, h3, h4⟩

/-- C19 at the buffer `three_bytes` and the two bytes 8, 9, which need a
larger block. -/
theorem append_postcondition_witness :
    three_bytes.WF ∧ ∃ b, array_append three_bytes [8, 9] = some (5, b)
      ∧ b.length = 5 ∧ b.contents = [1, 2, 3, 8, 9] :=
  ⟨by decide, append_postcondition three_bytes [8, 9] (by decide) (by decide)⟩

/-- C20: for a buffer whose length bytes lie in its data block, with contents
c, and every n ≤ length, `array_shift` yields a buffer whose contents are c
without its first n bytes, whose length is length - n and whose capacity is
unchanged; `array_shift` by 0 yields the buffer itself. -/
theorem shift_postcondition (a : array_t) (n : Nat) (hl : a.length ≤ a.data.length)
    (hn : n ≤ a.length) :
    ∃ b, array_shift a n = some b ∧ b.contents = a.contents.drop n
      ∧ b.length = a.length - n ∧ b.capacity = a.capacity ∧ (n = 0 → b = a) := by
  obtain ⟨b, h1, h2, h3, _, _, h6, h7⟩ := array_shift_spec a n hn hl
  exact ⟨b, h1, h6, h2, h3, h7⟩

/-- C20 at the buffer `three_bytes`, shifted by 2. -/
theorem shift_postcondition_witness :
    three_bytes.length ≤ three_bytes.data.length ∧ 2 ≤ three_bytes.length
      ∧ ∃ b, array_shift three_bytes 2 = some b ∧ b.contents = [3]
        ∧ b.length = 1 ∧ b.capacity = 4 ∧ ((2 : Nat) = 0 → b = three_bytes) :=
  ⟨by decide, by decide, shift_postcondition three_bytes 2 (by decide) (by decide)⟩

/-! ### Sending: what reaches the socket -/

/-- When the write loop ends without a fatal error, all `T` bytes of the
staged frame were put on the socket and `T` is the count it ends with,
however the socket split the writes. -/
theorem write_loop_open (data : List Byte) (T : Nat) (hT : T < 2 ^ 31) :
    ∀ (ws : List WriteOutcome) (w : Nat), w < T →
      ∀ (ret : Int) (wire : List Byte) (rest : List WriteOutcome),
        write_loop data (T : Int) ws (w : Int) (data.take w) = some (ret, false, wire, rest) →
        ret = (T : Int) ∧ wire = data.take T := by
  intro ws
  induction ws with
  | nil => intro w _ ret wire rest h; cases h
  | cons o ws ih =>
    intro w hw ret wire rest h
    cases o with
    | error =>
      simp only [write_loop, Option.some.injEq, Prod.mk.injEq] at h
      exact absurd h.2.1 (by decide)
    | again =>
      rw [write_loop, if_pos (by exact_mod_cast hw)] at h
      exact ih w hw ret wire rest h
    | wrote n =>
      have hs : toSizeT ((T : Int) - (w : Int)) = T - w := by
        have : ((T : Int) - (w : Int)) = ((T - w : Nat) : Int) := by omega
        rw [this, toSizeT_ofNat _ (by omega)]
      have hwire : data.take w ++ (data.drop w).take (min n (T - w))
          = data.take (w + min n (T - w)) := by
        rw [List.take_add]
      simp only [write_loop, hs, Int.toNat_ofNat, hwire] at h
      by_cases hc : min n (T - w) < 2 ^ 31 ∧ w + min n (T - w) ≤ data.length
      · rw [if_pos hc] at h
        by_cases hlt : w + min n (T - w) < T
        · rw [if_pos (by exact_mod_cast hlt)] at h
          have h2 : ((w : Int) + ((min n (T - w) : Nat) : Int)) = ((w + min n (T - w) : Nat) : Int) := by
            push_cast; rfl
          rw [h2] at h
          exact ih _ hlt ret wire rest h
        · rw [if_neg (by exact_mod_cast hlt)] at h
          simp only [Option.some.injEq, Prod.mk.injEq, true_and] at h
          have he : w + min n (T - w) = T := by omega
          rw [he] at h
          refine ⟨?_, h.2.1.symm⟩
          rw [← h.1]
          exact_mod_cast he
      · rw [if_neg hc] at h
        cases h

/-- Whenever `send_compressed_buffer` returns on an open channel and leaves it
open, the bytes put on the socket are the whole frame, the returned count is
its length, and the caller's buffer is cleared. -/
theorem send_open_wire (c : Codec) (ws : List WriteOutcome) (d : SDuplex) (type : Nat)
    (buffer : BufferArg) (out : List Byte) (r : SendResult)
    (hfd : d.fd ≠ 0) (hwf : d.outgoing_compressed_buffer.WF)
    (hb : (buffer.get d).length ≤ (buffer.get d).data.length)
    (hbound : c.compressBound (buffer.get d).length + 5 ≤ 2 ^ 63)
    (hcomp : c.compress (c.compressBound (buffer.get d).length) (buffer.get d).contents
      = .ok out)
    (hout : out.length ≤ c.compressBound (buffer.get d).length)
    (hint : out.length + 5 < 2 ^ 31)
    (hr : send_compressed_buffer c ws d type buffer = some r) (hopen : r.duplex.fd ≠ 0) :
    r.wire = frame_bytes (byteOf type) out ∧ r.ret = ((out.length + 5 : Nat) : Int)
      ∧ r.buffer = array_clear (buffer.get d) := by
  obtain ⟨ocb, _, hlen, hsend⟩ := send_open c ws d type buffer out hfd hwf hb hbound hcomp hout
  have hT : toInt32 (out.length + 1 + 4) = ((out.length + 5 : Nat) : Int) := by
    rw [show out.length + 1 + 4 = out.length + 5 from rfl, toInt32_small _ hint]
  rw [hsend, hT] at hr
  cases hw : write_loop (writeAt ocb.data 0 (frame_bytes (byteOf type) out))
      ((out.length + 5 : Nat) : Int) ws 0 [] with
  | none => rw [hw] at hr; cases hr
  | some x =>
    obtain ⟨ret, closed, wire, rest⟩ := x
    rw [hw] at hr
    simp only [Option.map_some', Option.some.injEq] at hr
    subst hr
    cases closed with
    | true =>
      exfalso
      apply hopen
      cases buffer <;> rfl
    | false =>
      have h0 := write_loop_open (writeAt ocb.data 0 (frame_bytes (byteOf type) out))
        (out.length + 5) hint ws 0 (by omega) ret wire rest (by simpa using hw)
      rw [take_staged] at h0
      exact ⟨h0.2, h0.1, rfl⟩

/-! ### C15: the wire format -/

/-- C15: on an open channel whose compressed buffer satisfies the
representation invariant, for every packet type and every plaintext buffer
whose compressed form `out` (of length L, within `compressBound` and with
5 + L below 2^31) the codec produces: when the socket takes all bytes at the
first `write`, `send_compressed_buffer` returns 5 + L, puts on the socket
exactly the 5 + L bytes type, L in four little-endian bytes, `out`, leaves the
channel open and the caller's buffer with length 0; and however the socket
splits the writes, a call that returns with the channel still open has put
exactly those bytes on the socket and returned 5 + L. -/
theorem wire_format (c : Codec) (d : SDuplex) (type : Nat) (buffer : BufferArg)
    (out : List Byte) (n : Nat) (rest : List WriteOutcome)
    (hfd : d.fd ≠ 0) (hwf : d.outgoing_compressed_buffer.WF)
    (hb : (buffer.get d).length ≤ (buffer.get d).data.length)
    (hbound : c.compressBound (buffer.get d).length + 5 ≤ 2 ^ 63)
    (hcomp : c.compress (c.compressBound (buffer.get d).length) (buffer.get d).contents
      = .ok out)
    (hout : out.length ≤ c.compressBound (buffer.get d).length)
    (hint : out.length + 5 < 2 ^ 31) (hn : out.length + 5 ≤ n) :
    (∃ r, send_compressed_buffer c (.wrote n :: rest) d type buffer = some r
      ∧ r.wire = byteOf type :: (le 4 out.length ++ out)
      ∧ r.wire.length = 5 + out.length
      ∧ r.ret = ((5 + out.length : Nat) : Int)
      ∧ r.buffer.length = 0 ∧ r.duplex.fd = d.fd ∧ r.rest = rest)
    ∧ ∀ ws r, send_compressed_buffer c ws d type buffer = some r → r.duplex.fd ≠ 0 →
        r.wire = byteOf type :: (le 4 out.length ++ out)
        ∧ r.ret = ((5 + out.length : Nat) : Int) ∧ r.buffer.length = 0 := by
  constructor
  · obtain ⟨ocb, h⟩ := send_open_all c d type buffer out n rest hfd hwf hb hbound hcomp hout
      hint hn
    refine ⟨_, h, rfl, ?_, ?_, rfl, ?_, rfl⟩
    · simp only [frame_bytes, List.length_cons, List.length_append, le_length]
      omega
    · simp only
      rw [Nat.add_comm]
    · cases buffer <;> rfl
  · intro ws r hr hopen
    obtain ⟨h1, h2, h3⟩ := send_open_wire c ws d type buffer out r hfd hwf hb hbound hcomp hout
      hint hr hopen
    refine ⟨h1, ?_, ?_⟩
    · rw [h2, Nat.add_comm]
    · rw [h3]; rfl

/-- C15 for the three bytes of `three_bytes` sent as an event over the small
channel with the storing codec, whose output is the four bytes 83, 1, 2, 3. -/
theorem wire_format_witness :
    (∃ r, send_compressed_buffer stored_codec [.wrote 9] small_duplex PACKET_EVENT
        (.other three_bytes) = some r
      ∧ r.wire = byteOf PACKET_EVENT :: (le 4 4 ++ [83, 1, 2, 3])
      ∧ r.wire.length = 5 + 4
      ∧ r.ret = ((5 + 4 : Nat) : Int)
      ∧ r.buffer.length = 0 ∧ r.duplex.fd = small_duplex.fd ∧ r.rest = [])
    ∧ ∀ ws r, send_compressed_buffer stored_codec ws small_duplex PACKET_EVENT
          (.other three_bytes) = some r → r.duplex.fd ≠ 0 →
        r.wire = byteOf PACKET_EVENT :: (le 4 4 ++ [83, 1, 2, 3])
        ∧ r.ret = ((5 + 4 : Nat) : Int) ∧ r.buffer.length = 0 :=
  wire_format stored_codec small_duplex PACKET_EVENT (.other three_bytes) [83, 1, 2, 3] 9 []
    (by decide) (by decide) (by decide) (by decide) (by decide) (by decide) (by decide)
    (by decide)

/-! ### C16: the checksum of the command buffer -/

theorem push_all_spec (recs : List (List Byte)) :
    ∀ r : SRencache, r.buffer.WF → (∀ cmd ∈ recs, is_record cmd) →
      r.buffer.length + recs.flatten.length ≤ 2 ^ 63 →
      ∃ r1, push_all r recs = some r1 ∧ r1.buffer.WF
        ∧ r1.buffer.length = r.buffer.length + recs.flatten.length
        ∧ r1.buffer.contents = r.buffer.contents ++ recs.flatten
        ∧ r1.checksum = hash r.checksum recs.flatten := by
  induction recs with
  | nil =>
    intro r hwf _ _
    exact ⟨r, rfl, hwf, by simp, by simp, by simp [hash]⟩
  | cons cmd recs ih =>
    intro r hwf hrec hroom
    have hlen : (cmd :: recs).flatten.length = cmd.length + recs.flatten.length := by
      rw [List.flatten_cons, List.length_append]
    rw [hlen] at hroom
    obtain ⟨h8, h31, hhdr⟩ := hrec cmd (List.mem_cons_self _ _)
    obtain ⟨b, hp, hwfb, hlb, hcb⟩ := push_command_spec r cmd cmd.length hwf hhdr h8 h31
      (le_refl _) (by omega)
    rw [List.take_length] at hp hcb
    obtain ⟨r1, h1, hwf1, hl1, hc1, hs1⟩ := ih { buffer := b, checksum := hash r.checksum cmd }
      hwfb (fun c hc => hrec c (List.mem_cons_of_mem _ hc))
      (by show b.length + recs.flatten.length ≤ 2 ^ 63; omega)
    refine ⟨r1, ?_, hwf1, ?_, ?_, ?_⟩
    · simp only [push_all, hp, h1]
    · rw [hl1, hlen]
      show b.length + recs.flatten.length = r.buffer.length + (cmd.length + recs.flatten.length)
      omega
    · rw [hc1]; simp only [List.flatten_cons, hcb, List.append_assoc]
    · rw [hs1]; simp only [List.flatten_cons, hash_append]

/-- C16: after `f_server_begin_frame`, for every sequence of command records
pushed by `push_command` (each a record whose `size` member is its length,
all within 2^63 bytes), the command buffer holds the concatenation of the
records in order and the checksum is the fold
h := (h xor byte) * 16777619 mod 2^32 over exactly those bytes from the seed
2166136261; and for every sequence of `set_clip_rect`, `draw_rect` and
`draw_text` calls on an open channel (arguments that fit the record fields,
registered fonts), the calls return and the buffer holds the records of the
calls in order, with the checksum being that fold over them. -/
theorem checksum_invariant (s : SServer) (hwf : s.rencache.buffer.WF) :
    (∀ recs : List (List Byte), (∀ cmd ∈ recs, is_record cmd) → recs.flatten.length ≤ 2 ^ 63 →
      ∃ r, push_all (f_server_begin_frame s).rencache recs = some r
        ∧ r.buffer.contents = recs.flatten
        ∧ r.checksum = recs.flatten.foldl
            (fun h (b : Byte) => ((h ^^^ b.val) * 16777619) % 2 ^ 32) 2166136261)
    ∧ (∀ cmds : List Cmd, s.duplex.fd ≠ 0 → s.cmd_array.WF → (∀ cmd ∈ cmds, cmd.fits) →
      (∀ cmd ∈ cmds, cmd.registered s) → (cmds.map Cmd.size).sum ≤ 2 ^ 63 →
      ∃ s1 junks, draw_all (f_server_begin_frame s) cmds = some (.ok s1)
        ∧ junks.length = cmds.length
        ∧ s1.rencache.buffer.contents = records s cmds junks
        ∧ s1.rencache.checksum = (records s cmds junks).foldl
            (fun h (b : Byte) => ((h ^^^ b.val) * 16777619) % 2 ^ 32) 2166136261) := by
  have hwf0 : (f_server_begin_frame s).rencache.buffer.WF := ⟨hwf.1, Nat.zero_le _, hwf.2.2⟩
  constructor
  · intro recs hrec hroom
    obtain ⟨r, h1, _, _, h4, h5⟩ := push_all_spec recs (f_server_begin_frame s).rencache hwf0
      hrec (by simpa [f_server_begin_frame, array_clear] using hroom)
    refine ⟨r, h1, ?_, ?_⟩
    · rw [h4]; simp [f_server_begin_frame, array_clear, array_t.contents]
    · rw [h5]; rfl
  · intro cmds hfd hca hfit hreg hroom
    obtain ⟨s1, junks, h1, h2, _, _, _, _, _, _, _, h10, h11⟩ :=
      draw_all_spec s cmds (f_server_begin_frame s) rfl hfd hwf0 hca hfit hreg
        (by simpa [f_server_begin_frame, array_clear] using hroom)
    refine ⟨s1, junks, h1, h2, ?_, ?_⟩
    · rw [h10]; simp [f_server_begin_frame, array_clear, array_t.contents]
    · rw [h11]; rfl

/-- C16 at the small server: one `SetClip` record pushed after `begin_frame`,
and a frame of a clip rectangle and a filled rectangle. -/
theorem checksum_invariant_witness :
    small_server.rencache.buffer.WF
    ∧ (∃ r, push_all (f_server_begin_frame small_server).rencache
          [le 4 SET_CLIP ++ (le 4 24 ++ le 16 7)] = some r
        ∧ r.buffer.contents = [le 4 SET_CLIP ++ (le 4 24 ++ le 16 7)].flatten
        ∧ r.checksum = [le 4 SET_CLIP ++ (le 4 24 ++ le 16 7)].flatten.foldl
            (fun h (b : Byte) => ((h ^^^ b.val) * 16777619) % 2 ^ 32) 2166136261)
    ∧ ∃ s1 junks, draw_all (f_server_begin_frame small_server)
          [.set_clip { x := 0, y := 0, width := 100, height := 100 },
           .draw_rect { x := 10, y := 10, width := 5, height := 5 } white] = some (.ok s1)
        ∧ junks.length = 2
        ∧ s1.rencache.buffer.contents = records small_server
            [.set_clip { x := 0, y := 0, width := 100, height := 100 },
             .draw_rect { x := 10, y := 10, width := 5, height := 5 } white] junks
        ∧ s1.rencache.checksum = (records small_server
            [.set_clip { x := 0, y := 0, width := 100, height := 100 },
             .draw_rect { x := 10, y := 10, width := 5, height := 5 } white] junks).foldl
            (fun h (b : Byte) => ((h ^^^ b.val) * 16777619) % 2 ^ 32) 2166136261 :=
  ⟨by decide,
    (checksum_invariant small_server (by decide)).1 [le 4 SET_CLIP ++ (le 4 24 ++ le 16 7)]
      (by decide) (by decide),
    (checksum_invariant small_server (by decide)).2
      [.set_clip { x := 0, y := 0, width := 100, height := 100 },
       .draw_rect { x := 10, y := 10, width := 5, height := 5 } white]
      (by decide) (by decide) (by decide) (by decide) (by decide)⟩

/-! ### C12: what `wait_event` reports -/

/-- C12 (the code at the failing input): on the small server, whose channel
is open with no frame pending and no byte buffered, `f_server_wait_event`
pushes true when the `read` delivers nothing, and also when it delivers only
the first two bytes of a frame; after both calls `incoming_packet_type` is
still `PACKET_NONE`. `f_server_poll_event`, which tests `incoming_packet_type`
after the same `recv_compressed_buffer`, finds no event in both cases. -/
theorem wait_event_true_without_frame :
    small_server.duplex.fd ≠ 0
    ∧ small_server.duplex.incoming_packet_type = PACKET_NONE
    ∧ small_server.duplex.incoming_compressed_buffer.length = 0
    ∧ f_server_wait_event stored_codec .would_block small_server
        = some ([.boolean true], small_server)
    ∧ (f_server_wait_event stored_codec (.data [3, 4]) small_server).map
        (fun r => (r.1, r.2.duplex.incoming_packet_type,
          r.2.duplex.incoming_compressed_buffer.length))
        = some ([.boolean true], PACKET_NONE, 2)
    ∧ f_server_poll_event stored_codec .would_block small_server = some (0, [], small_server)
    ∧ (f_server_poll_event stored_codec (.data [3, 4]) small_server).map
        (fun r => (r.1, r.2.1, r.2.2.duplex.incoming_packet_type))
        = some (0, [], PACKET_NONE) := by
  decide
/-! ### C13: a frame that does not decompress -/

/-- C13 (the code at the failing input): the small channel receives the six
bytes of a complete frame of type 3 whose one-byte payload, 0, is not valid
for the storing codec, which reports the content size 2^64 - 2 for it. The
call `array_reserve(&incoming_buffer, 2^64 - 2)` that precedes the
decompression doubles the capacity 1 to 2^63 and then to 0, and never
returns, so `recv_compressed_buffer` has no result: the channel is not marked
closed and 0 is not returned. With a codec that reports the size 7 for the
same payload, the call returns 0 and the channel is closed. -/
theorem invalid_frame_never_returns :
    small_duplex.fd ≠ 0
    ∧ stored_codec.getFrameContentSize [0] = 2 ^ 64 - 2
    ∧ (∀ capacity, stored_codec.decompress capacity [0] = .error (2 ^ 64 - 10))
    ∧ recv_compressed_buffer stored_codec (.data [3, 1, 0, 0, 0, 0]) small_duplex = none
    ∧ array_reserve small_duplex.incoming_buffer (2 ^ 64 - 2) = none
    ∧ (∀ k, reserve_loop (65 + k) 1 (2 ^ 64 - 2) = none)
    ∧ (recv_compressed_buffer small_hint_codec (.data [3, 1, 0, 0, 0, 0]) small_duplex).map
        (fun r => (r.1, r.2.fd)) = some (0, 0) :=
  ⟨by decide, by decide, fun _ => rfl, by decide, by decide,
    fun k => reserve_loop_diverges 1 (2 ^ 64 - 2) k (by decide), by decide⟩

/-! ### The font registry -/

theorem SFont_bytes_length (index : Int) (font : Nat) : (SFont_bytes index font).length = 16 := by
  simp [SFont_bytes, le_length]

theorem registry_bytes_length (fonts : List Nat) :
    ∀ len, (registry_bytes len fonts).length = 16 * fonts.length := by
  induction fonts with
  | nil => intro len; rfl
  | cons f fs ih =>
    intro len
    simp only [registry_bytes, List.length_append, SFont_bytes_length, ih, List.length_cons]
    omega

theorem registry_bytes_append (fs gs : List Nat) :
    ∀ len, registry_bytes len (fs ++ gs)
      = registry_bytes len fs ++ registry_bytes (len + 16 * fs.length) gs := by
  induction fs with
  | nil => intro len; simp [registry_bytes]
  | cons f fs ih =>
    intro len
    have e : len + sizeof_SFont + 16 * fs.length = len + 16 * (fs.length + 1) := by
      simp only [sizeof_SFont]; omega
    show SFont_bytes (toInt32 (len + 1)) f ++ registry_bytes (len + sizeof_SFont) (fs ++ gs)
      = (SFont_bytes (toInt32 (len + 1)) f ++ registry_bytes (len + sizeof_SFont) fs)
        ++ registry_bytes (len + 16 * (fs.length + 1)) gs
    rw [ih, e, List.append_assoc]

/-- The search of `get_font_index` over entries none of which holds the handle. -/
theorem get_font_index_loop_absent (font : Nat) (fonts : List Nat) :
    ∀ (len : Nat) (tail : List Byte), (∀ f ∈ fonts, f < 2 ^ 64 ∧ f ≠ font) →
      get_font_index_loop font fonts.length (registry_bytes len fonts ++ tail) = some (-1) := by
  induction fonts with
  | nil => intro len tail _; rfl
  | cons f fs ih =>
    intro len tail h
    obtain ⟨hf, hne⟩ := h f (List.mem_cons_self _ _)
    have hd8 : (registry_bytes len (f :: fs) ++ tail).drop 8
        = le 8 f ++ (registry_bytes (len + sizeof_SFont) fs ++ tail) := by
      simp only [registry_bytes, SFont_bytes, List.append_assoc]
      rw [← List.append_assoc, List.drop_left' (by simp [le_length])]
    have hd16 : (registry_bytes len (f :: fs) ++ tail).drop sizeof_SFont
        = registry_bytes (len + sizeof_SFont) fs ++ tail := by
      simp only [registry_bytes]
      rw [List.append_assoc]
      exact List.drop_left' (SFont_bytes_length _ _)
    have hmod : f % 256 ^ 8 = f := Nat.mod_eq_of_lt (by omega)
    simp only [List.length_cons, get_font_index_loop]
    rw [hd8, takeLE_le, hmod]
    simp only [if_neg hne, hd16]
    exact ih _ tail (fun g hg => h g (List.mem_cons_of_mem _ hg))

/-- The search of `get_font_index` returns the index of the first entry that
holds the handle. -/
theorem get_font_index_loop_found (font : Nat) (post : List Nat) (hf : font < 2 ^ 64)
    (pre : List Nat) :
    ∀ (len : Nat) (tail : List Byte), (∀ f ∈ pre, f < 2 ^ 64 ∧ f ≠ font) →
      get_font_index_loop font (pre ++ font :: post).length
          (registry_bytes len (pre ++ font :: post) ++ tail)
        = some (toInt32 (len + 16 * pre.length + 1)) := by
  induction pre with
  | nil =>
    intro len tail _
    have hd8 : (registry_bytes len (font :: post) ++ tail).drop 8
        = le 8 font ++ (registry_bytes (len + sizeof_SFont) post ++ tail) := by
      simp only [registry_bytes, SFont_bytes, List.append_assoc]
      rw [← List.append_assoc, List.drop_left' (by simp [le_length])]
    have hhead : registry_bytes len (font :: post) ++ tail
        = le 4 (toU32 (toInt32 (len + 1)))
          ++ ([0, 0, 0, 0] ++ le 8 font ++ registry_bytes (len + sizeof_SFont) post ++ tail) := by
      simp only [registry_bytes, SFont_bytes, List.append_assoc]
    have hmod : font % 256 ^ 8 = font := Nat.mod_eq_of_lt (by omega)
    have hfit := toInt32_fits (len + 1)
    simp only [List.nil_append, List.length_cons, get_font_index_loop]
    rw [hd8, takeLE_le, hmod]
    simp only [if_true]
    rw [hhead, takeLE_le, toU32_mod]
    simp only [toInt32_toU32 _ hfit.1 hfit.2, List.length_nil, Nat.mul_zero, Nat.add_zero]
  | cons f fs ih =>
    intro len tail h
    obtain ⟨hf1, hne⟩ := h f (List.mem_cons_self _ _)
    have hd8 : (registry_bytes len (f :: (fs ++ font :: post)) ++ tail).drop 8
        = le 8 f ++ (registry_bytes (len + sizeof_SFont) (fs ++ font :: post) ++ tail) := by
      simp only [registry_bytes, SFont_bytes, List.append_assoc]
      rw [← List.append_assoc, List.drop_left' (by simp [le_length])]
    have hd16 : (registry_bytes len (f :: (fs ++ font :: post)) ++ tail).drop sizeof_SFont
        = registry_bytes (len + sizeof_SFont) (fs ++ font :: post) ++ tail := by
      simp only [registry_bytes]
      rw [List.append_assoc]
      exact List.drop_left' (SFont_bytes_length _ _)
    have hmod : f % 256 ^ 8 = f := Nat.mod_eq_of_lt (by omega)
    simp only [List.cons_append, List.length_cons, get_font_index_loop]
    rw [hd8, takeLE_le, hmod]
    simp only [if_neg hne, hd16]
    have := ih (len + sizeof_SFont) tail (fun g hg => h g (List.mem_cons_of_mem _ hg))
    have e : len + sizeof_SFont + 16 * fs.length + 1 = len + 16 * (fs.length + 1) + 1 := by
      simp only [sizeof_SFont]; omega
    rw [e] at this
    exact this

theorem array_reserve_size (a : array_t) (n : Nat) (r : Nat × array_t)
    (h : array_reserve a n = some r) : r.2.size = a.size := by
  unfold array_reserve at h
  split at h
  · split at h
    · cases h
    · simp only [Option.some.injEq] at h
      subst h; rfl
  · simp only [Option.some.injEq] at h
    subst h; rfl

theorem array_append_size (a : array_t) (bs : List Byte) (r : Nat × array_t)
    (h : array_append a bs = some r) :
    r.2.size = if a.size = 0 then bs.length else a.size := by
  unfold array_append at h
  simp only at h
  split at h
  · cases h
  · rename_i x n a2 hr
    have hs := array_reserve_size _ _ _ hr
    split at h
    · simp only [Option.some.injEq] at h
      subst h
      simp only at hs ⊢
      rw [hs]
      split <;> rfl
    · cases h

/-- What one registration does to the registry, whatever the channel does. -/
theorem register_font_registry (c : Codec) (ws : List WriteOutcome) (s : SServer)
    (path contents : List Byte) (font : Nat) (size options : Value)
    (r : SServer × List Byte × List WriteOutcome)
    (h : f_server_register_font c ws s path contents font size options = some r)
    (hwf : s.registered_fonts.WF) (hroom : s.registered_fonts.length + 16 ≤ 2 ^ 63) :
    r.1.registered_fonts.WF
      ∧ r.1.registered_fonts.length = s.registered_fonts.length + 16
      ∧ r.1.registered_fonts.contents = s.registered_fonts.contents
          ++ SFont_bytes (toInt32 (s.registered_fonts.length + 1)) font
      ∧ r.1.registered_fonts.size
          = (if s.registered_fonts.size = 0 then 16 else s.registered_fonts.size)
      ∧ r.1.rencache = s.rencache ∧ r.1.cmd_array = s.cmd_array := by
  have hl := SFont_bytes_length (toInt32 (s.registered_fonts.length + 1)) font
  obtain ⟨a1, ha, hwf1, hl1, hc1, _⟩ := array_append_spec s.registered_fonts
    (SFont_bytes (toInt32 (s.registered_fonts.length + 1)) font) hwf (by rw [hl]; exact hroom)
  have hs1 := array_append_size _ _ _ ha
  rw [hl] at hl1 hs1
  unfold f_server_register_font at h
  simp only at h
  unfold SFont_bytes at ha
  rw [ha] at h
  simp only at h
  split at h
  · cases h
  · split at h
    · cases h
    · simp only [Option.some.injEq] at h
      subst h
      exact ⟨hwf1, hl1, hc1, hs1, rfl, rfl⟩

/-- What a sequence of registrations does to the registry. -/
theorem register_all_registry (c : Codec) (calls : List FontCall) :
    ∀ (s s1 : SServer), register_all c s calls = some s1 → s.registered_fonts.WF →
      s.registered_fonts.length + 16 * calls.length ≤ 2 ^ 63 →
      s1.registered_fonts.WF
        ∧ s1.registered_fonts.length = s.registered_fonts.length + 16 * calls.length
        ∧ s1.registered_fonts.contents = s.registered_fonts.contents
            ++ registry_bytes s.registered_fonts.length (calls.map (fun call => call.font))
        ∧ (calls ≠ [] → s1.registered_fonts.size
            = (if s.registered_fonts.size = 0 then 16 else s.registered_fonts.size))
        ∧ s1.rencache = s.rencache ∧ s1.cmd_array = s.cmd_array := by
  induction calls with
  | nil =>
    intro s s1 h hwf _
    simp only [register_all, Option.some.injEq] at h
    subst h
    exact ⟨hwf, by simp, by simp [registry_bytes], fun h => absurd rfl h, rfl, rfl⟩
  | cons call rest ih =>
    intro s s1 h hwf hroom
    simp only [List.length_cons] at hroom
    simp only [register_all] at h
    split at h
    · cases h
    · rename_i s2 w r hreg
      obtain ⟨hwf2, hl2, hc2, hs2, hr2, hca2⟩ := register_font_registry c call.ws s call.path
        call.contents call.font call.size call.options _ hreg hwf (by omega)
      simp only at hwf2 hl2 hc2 hs2 hr2 hca2
      obtain ⟨hwf3, hl3, hc3, hs3, hr3, hca3⟩ := ih s2 s1 h hwf2 (by rw [hl2]; omega)
      refine ⟨hwf3, ?_, ?_, ?_, by rw [hr3, hr2], by rw [hca3, hca2]⟩
      · rw [hl3, hl2, List.length_cons]; omega
      · rw [hc3, hc2, hl2]
        simp only [List.map_cons, registry_bytes, List.append_assoc, sizeof_SFont]
      · intro _
        by_cases hrest : rest = []
        · subst hrest
          simp only [register_all, Option.some.injEq] at h
          subst h
          exact hs2
        · rw [hs3 hrest, hs2]
          split <;> simp

theorem registry_split (fonts : List Nat) (k : Nat) (hk : k < fonts.length) (tail : List Byte) :
    registry_bytes 0 fonts ++ tail
      = registry_bytes 0 (fonts.take k)
        ++ (le 4 (toU32 (toInt32 (16 * k + 1)))
          ++ ([0, 0, 0, 0] ++ le 8 (fonts.get ⟨k, hk⟩)
            ++ registry_bytes (16 * k + sizeof_SFont) (fonts.drop (k + 1)) ++ tail)) := by
  have hsplit : fonts = fonts.take k ++ fonts.get ⟨k, hk⟩ :: fonts.drop (k + 1) := by
    rw [List.get_eq_getElem, ← List.drop_eq_getElem_cons hk, List.take_append_drop]
  have hlen : (fonts.take k).length = k := by
    rw [List.length_take]; omega
  conv_lhs => rw [hsplit]
  rw [registry_bytes_append, hlen, Nat.zero_add]
  simp only [registry_bytes, SFont_bytes, List.append_assoc]

/-- The `index` member of entry `k` of a registry built from nothing. -/
theorem assigned_index_of_registry (s : SServer) (fonts : List Nat) (k : Nat)
    (hc : s.registered_fonts.contents = registry_bytes 0 fonts)
    (hk : k < fonts.length) (hfit : 16 * k + 1 < 2 ^ 31) :
    assigned_index s k = some (16 * (k : Int) + 1) := by
  have hdata : s.registered_fonts.data
      = registry_bytes 0 fonts ++ s.registered_fonts.data.drop s.registered_fonts.length := by
    rw [← hc]; exact (List.take_append_drop _ _).symm
  have hlen : (registry_bytes 0 (fonts.take k)).length = 16 * k := by
    rw [registry_bytes_length, List.length_take]; omega
  have hidx : toInt32 (16 * k + 1) = ((16 * k + 1 : Nat) : Int) := toInt32_small _ hfit
  unfold assigned_index
  rw [hdata, registry_split fonts k hk, field_skip _ _ _ _ (by rw [hlen]; simp [sizeof_SFont]),
    hlen]
  simp only [sizeof_SFont, Nat.sub_self]
  rw [field_head, toU32_mod, Option.map_some']
  have hf := toInt32_fits (16 * k + 1)
  rw [toInt32_toU32 _ hf.1 hf.2, hidx]
  push_cast
  rfl

/-- The index `get_font_index` finds for the handle whose first entry is
entry `k` of a registry built from nothing. -/
theorem get_font_index_of_registry (s : SServer) (fonts : List Nat) (k : Nat)
    (hc : s.registered_fonts.contents = registry_bytes 0 fonts)
    (hsize : s.registered_fonts.size = 16) (hlength : s.registered_fonts.length = 16 * fonts.length)
    (hk : k < fonts.length) (hfit : 16 * k + 1 < 2 ^ 31)
    (hall : ∀ f ∈ fonts, f < 2 ^ 64)
    (hfirst : ∀ f ∈ fonts.take k, f ≠ fonts.get ⟨k, hk⟩) :
    get_font_index s (fonts.get ⟨k, hk⟩) = some (16 * (k : Int) + 1) := by
  have hdata : s.registered_fonts.data
      = registry_bytes 0 fonts ++ s.registered_fonts.data.drop s.registered_fonts.length := by
    rw [← hc]; exact (List.take_append_drop _ _).symm
  have hsplit : fonts = fonts.take k ++ fonts.get ⟨k, hk⟩ :: fonts.drop (k + 1) := by
    rw [List.get_eq_getElem, ← List.drop_eq_getElem_cons hk, List.take_append_drop]
  have hlen : (fonts.take k).length = k := by
    rw [List.length_take]; omega
  have hidx : toInt32 (16 * k + 1) = ((16 * k + 1 : Nat) : Int) := toInt32_small _ hfit
  have hfound := get_font_index_loop_found (fonts.get ⟨k, hk⟩) (fonts.drop (k + 1))
    (hall _ (List.get_mem _ _ _)) (fonts.take k) 0
    (s.registered_fonts.data.drop s.registered_fonts.length)
    (fun f hf => ⟨hall f (List.mem_of_mem_take hf), hfirst f hf⟩)
  rw [← hsplit, hlen, Nat.zero_add, hidx] at hfound
  unfold get_font_index
  rw [if_neg (by rw [hsize]; decide), hsize, hlength, Nat.mul_div_cancel_left _ (by decide),
    hdata, hfound]
  push_cast
  rfl

/-- The search of `get_font_index` for a handle that no entry holds. -/
theorem get_font_index_absent (s : SServer) (fonts : List Nat) (font : Nat)
    (hc : s.registered_fonts.contents = registry_bytes 0 fonts)
    (hsize : s.registered_fonts.size = 16) (hlength : s.registered_fonts.length = 16 * fonts.length)
    (hall : ∀ f ∈ fonts, f < 2 ^ 64 ∧ f ≠ font) :
    get_font_index s font = some (-1) := by
  have hdata : s.registered_fonts.data
      = registry_bytes 0 fonts ++ s.registered_fonts.data.drop s.registered_fonts.length := by
    rw [← hc]; exact (List.take_append_drop _ _).symm
  unfold get_font_index
  rw [if_neg (by rw [hsize]; decide), hsize, hlength, Nat.mul_div_cancel_left _ (by decide),
    hdata]
  exact get_font_index_loop_absent font fonts 0 _ hall

/-! ### Registrations return -/

theorem send_open_all_wf (c : Codec) (d : SDuplex) (type : Nat) (buffer : BufferArg)
    (out : List Byte) (n : Nat) (rest : List WriteOutcome)
    (hfd : d.fd ≠ 0) (hwf : d.outgoing_compressed_buffer.WF)
    (hb : (buffer.get d).length ≤ (buffer.get d).data.length)
    (hbound : c.compressBound (buffer.get d).length + 5 ≤ 2 ^ 63)
    (hcomp : c.compress (c.compressBound (buffer.get d).length) (buffer.get d).contents
      = .ok out)
    (hout : out.length ≤ c.compressBound (buffer.get d).length)
    (hint : out.length + 5 < 2 ^ 31) (hn : out.length + 5 ≤ n) :
    ∃ ocb, ocb.WF ∧ send_compressed_buffer c (.wrote n :: rest) d type buffer =
      some { ret := ((out.length + 5 : Nat) : Int),
             duplex := buffer.set { d with outgoing_compressed_buffer := ocb }
               (array_clear (buffer.get d)),
             buffer := array_clear (buffer.get d),
             wire := frame_bytes (byteOf type) out, rest := rest } := by
  obtain ⟨ocb, hres, hlen, hsend⟩ :=
    send_open c (.wrote n :: rest) d type buffer out hfd hwf hb hbound hcomp hout
  obtain ⟨_, hwf1, _⟩ := array_reserve_some _ _ _ hwf hres
  have hT : toInt32 (out.length + 1 + 4) = ((out.length + 5 : Nat) : Int) := by
    rw [show out.length + 1 + 4 = out.length + 5 from rfl, toInt32_small _ hint]
  have hfl : 0 + (frame_bytes (byteOf type) out).length ≤ ocb.data.length := by
    rw [frame_bytes_length]; omega
  have hw := write_loop_all (writeAt ocb.data 0 (frame_bytes (byteOf type) out))
    (out.length + 5) n rest hint hn
    (by rw [writeAt_length _ _ _ hfl]; omega)
  rw [take_staged] at hw
  refine ⟨{ ocb with data := writeAt ocb.data 0 (frame_bytes (byteOf type) out) },
    ⟨?_, hwf1.2.1, hwf1.2.2⟩, ?_⟩
  · simp only
    rw [writeAt_length _ _ _ hfl]
    exact hwf1.1
  · rw [hsend, hT, hw]
    rfl

theorem encode_tuple_font_length (path contents : List Byte) (i : Int) (size options : Value) :
    (encode_tuple [.string path, .string contents, .integer i, size, options]).length
      = (encode_tuple [.string path, .string contents, .integer 0, size, options]).length := by
  simp [encode_tuple, concat_all, Value.bytes, Value.payload, le_length]

/-- One registration on a closed channel returns; the channel stays closed and
the outgoing buffer is left empty. -/
theorem register_font_closed (c : Codec) (ws : List WriteOutcome) (s : SServer)
    (path contents : List Byte) (font : Nat) (size options : Value)
    (hfd : s.duplex.fd = 0) (hreg : s.registered_fonts.WF)
    (hroom : s.registered_fonts.length + 16 ≤ 2 ^ 63)
    (hout : s.duplex.outgoing_buffer.WF) (hempty : s.duplex.outgoing_buffer.length = 0)
    (hlen : (encode_tuple [.string path, .string contents, .integer 0, size, options]).length
      ≤ 2 ^ 63) :
    ∃ r, f_server_register_font c ws s path contents font size options = some r
      ∧ r.1.duplex.fd = 0 ∧ r.1.duplex.outgoing_buffer.WF
      ∧ r.1.duplex.outgoing_buffer.length = 0 := by
  have hl := SFont_bytes_length (toInt32 (s.registered_fonts.length + 1)) font
  obtain ⟨a1, ha, _⟩ := array_append_spec s.registered_fonts
    (SFont_bytes (toInt32 (s.registered_fonts.length + 1)) font) hreg (by rw [hl]; exact hroom)
  obtain ⟨b1, hb, hwfb, _⟩ := push_lua_spec
    [.string path, .string contents, .integer (toInt32 (s.registered_fonts.length + 1)),
      size, options] s.duplex.outgoing_buffer hout
    (by rw [hempty, encode_tuple_font_length]; omega)
  unfold SFont_bytes at ha
  refine ⟨({ s with
      duplex := BufferArg.set { s.duplex with outgoing_buffer := b1 } (array_clear b1) .outgoing,
      registered_fonts := a1 }, [], ws), ?_, hfd, ⟨hwfb.1, Nat.zero_le _, hwfb.2.2⟩, rfl⟩
  unfold f_server_register_font
  simp only [ha, hb, send_compressed_buffer]
  rw [if_pos hfd]
  rfl

/-- One registration on an open channel returns when the codec compresses
every tuple of up to `N` bytes within its bound and the first `write` takes
the whole frame; the channel stays open and the outgoing buffer is left
empty. -/
theorem register_font_open (c : Codec) (N n : Nat) (rest : List WriteOutcome) (s : SServer)
    (path contents : List Byte) (font : Nat) (size options : Value)
    (hfd : s.duplex.fd ≠ 0) (hocb : s.duplex.outgoing_compressed_buffer.WF)
    (hreg : s.registered_fonts.WF) (hroom : s.registered_fonts.length + 16 ≤ 2 ^ 63)
    (hout : s.duplex.outgoing_buffer.WF) (hempty : s.duplex.outgoing_buffer.length = 0)
    (hN : N ≤ 2 ^ 63)
    (hcodec : ∀ src : List Byte, src.length ≤ N →
      ∃ out, c.compress (c.compressBound src.length) src = .ok out
        ∧ out.length ≤ c.compressBound src.length ∧ c.compressBound src.length + 5 < 2 ^ 31)
    (hlen : (encode_tuple [.string path, .string contents, .integer 0, size, options]).length
      ≤ N)
    (hn : 2 ^ 31 ≤ n) :
    ∃ r, f_server_register_font c (.wrote n :: rest) s path contents font size options = some r
      ∧ r.1.duplex.fd ≠ 0 ∧ r.1.duplex.outgoing_compressed_buffer.WF
      ∧ r.1.duplex.outgoing_buffer.WF ∧ r.1.duplex.outgoing_buffer.length = 0 := by
  have hl := SFont_bytes_length (toInt32 (s.registered_fonts.length + 1)) font
  obtain ⟨a1, ha, _⟩ := array_append_spec s.registered_fonts
    (SFont_bytes (toInt32 (s.registered_fonts.length + 1)) font) hreg (by rw [hl]; exact hroom)
  obtain ⟨b1, hb, hwfb, hlb, _⟩ := push_lua_spec
    [.string path, .string contents, .integer (toInt32 (s.registered_fonts.length + 1)),
      size, options] s.duplex.outgoing_buffer hout
    (by rw [hempty, encode_tuple_font_length]; omega)
  rw [hempty, encode_tuple_font_length, Nat.zero_add] at hlb
  have hcl : b1.contents.length = b1.length := by
    unfold array_t.contents
    rw [List.length_take, hwfb.1]
    exact Nat.min_eq_left hwfb.2.1
  obtain ⟨out, hcomp, hob, hbd⟩ := hcodec b1.contents (by rw [hcl, hlb]; exact hlen)
  rw [hcl] at hcomp hob hbd
  obtain ⟨ocb, hwfo, hsend⟩ := send_open_all_wf c { s.duplex with outgoing_buffer := b1 }
    PACKET_FONT_REGISTER .outgoing out n rest hfd hocb
    (by show b1.length ≤ b1.data.length; rw [hwfb.1]; exact hwfb.2.1)
    (by show c.compressBound b1.length + 5 ≤ 2 ^ 63; omega) hcomp hob
    (by omega) (by omega)
  unfold SFont_bytes at ha
  refine ⟨({ s with
      duplex := BufferArg.set
        ({ s.duplex with outgoing_buffer := b1, outgoing_compressed_buffer := ocb } : SDuplex)
        (array_clear b1) .outgoing,
      registered_fonts := a1 }, frame_bytes (byteOf PACKET_FONT_REGISTER) out, rest),
    ?_, hfd, hwfo, ⟨hwfb.1, Nat.zero_le _, hwfb.2.2⟩, rfl⟩
  unfold f_server_register_font
  simp only [ha, hb, hsend]
  rfl

/-- A sequence of registrations on a closed channel returns. -/
theorem register_all_closed (c : Codec) (calls : List FontCall) :
    ∀ s : SServer, s.duplex.fd = 0 → s.registered_fonts.WF →
      s.registered_fonts.length + 16 * calls.length ≤ 2 ^ 63 →
      s.duplex.outgoing_buffer.WF → s.duplex.outgoing_buffer.length = 0 →
      (∀ call ∈ calls, (encode_tuple [.string call.path, .string call.contents, .integer 0,
        call.size, call.options]).length ≤ 2 ^ 63) →
      ∃ s1, register_all c s calls = some s1 ∧ s1.duplex.fd = 0 := by
  induction calls with
  | nil => intro s hfd _ _ _ _ _; exact ⟨s, rfl, hfd⟩
  | cons call rest ih =>
    intro s hfd hreg hroom hout hempty hlen
    simp only [List.length_cons] at hroom
    obtain ⟨r, hr, hfd1, hout1, hempty1⟩ := register_font_closed c call.ws s call.path
      call.contents call.font call.size call.options hfd hreg (by omega) hout hempty
      (hlen call (List.mem_cons_self _ _))
    obtain ⟨hreg1, hl1, _⟩ := register_font_registry c call.ws s call.path call.contents
      call.font call.size call.options r hr hreg (by omega)
    obtain ⟨s1, h1, h2⟩ := ih r.1 hfd1 hreg1 (by rw [hl1]; omega) hout1 hempty1
      (fun x hx => hlen x (List.mem_cons_of_mem _ hx))
    refine ⟨s1, ?_, h2⟩
    simp only [register_all, hr, h1]

/-- A sequence of registrations on an open channel returns, with the channel
still open, when the codec compresses every tuple of up to `N` bytes within
its bound and the first `write` of every call takes the whole frame. -/
theorem register_all_open (c : Codec) (N : Nat) (hN : N ≤ 2 ^ 63)
    (hcodec : ∀ src : List Byte, src.length ≤ N →
      ∃ out, c.compress (c.compressBound src.length) src = .ok out
        ∧ out.length ≤ c.compressBound src.length ∧ c.compressBound src.length + 5 < 2 ^ 31)
    (calls : List FontCall) :
    ∀ s : SServer, s.duplex.fd ≠ 0 → s.duplex.outgoing_compressed_buffer.WF →
      s.registered_fonts.WF → s.registered_fonts.length + 16 * calls.length ≤ 2 ^ 63 →
      s.duplex.outgoing_buffer.WF → s.duplex.outgoing_buffer.length = 0 →
      (∀ call ∈ calls, (encode_tuple [.string call.path, .string call.contents, .integer 0,
          call.size, call.options]).length ≤ N
        ∧ ∃ n rest, call.ws = .wrote n :: rest ∧ 2 ^ 31 ≤ n) →
      ∃ s1, register_all c s calls = some s1 ∧ s1.duplex.fd ≠ 0 := by
  induction calls with
  | nil => intro s hfd _ _ _ _ _ _; exact ⟨s, rfl, hfd⟩
  | cons call rest ih =>
    intro s hfd hocb hreg hroom hout hempty hcall
    simp only [List.length_cons] at hroom
    obtain ⟨hlen, n, ws, hws, hn⟩ := hcall call (List.mem_cons_self _ _)
    obtain ⟨r, hr, hfd1, hocb1, hout1, hempty1⟩ := register_font_open c N n ws s call.path
      call.contents call.font call.size call.options hfd hocb hreg (by omega) hout hempty hN
      hcodec hlen hn
    rw [← hws] at hr
    obtain ⟨hreg1, hl1, _⟩ := register_font_registry c call.ws s call.path call.contents
      call.font call.size call.options r hr hreg (by omega)
    obtain ⟨s1, h1, h2⟩ := ih r.1 hfd1 hocb1 hreg1 (by rw [hl1]; omega) hout1 hempty1
      (fun x hx => hcall x (List.mem_cons_of_mem _ hx))
    refine ⟨s1, ?_, h2⟩
    simp only [register_all, hr, h1]

theorem first_entry_of_calls (calls : List FontCall) (k : Nat) (call : FontCall)
    (hcall : calls[k]? = some call)
    (hfirst : ∀ j other, j < k → calls[j]? = some other → other.font ≠ call.font) :
    ∃ hk : k < (calls.map (fun x => x.font)).length,
      (calls.map (fun x => x.font)).get ⟨k, hk⟩ = call.font
      ∧ ∀ f ∈ (calls.map (fun x => x.font)).take k, f ≠ call.font := by
  obtain ⟨hk, hget⟩ := List.getElem?_eq_some_iff.mp hcall
  refine ⟨by rw [List.length_map]; exact hk, ?_, ?_⟩
  · rw [List.get_eq_getElem, List.getElem_map, hget]
  · intro f hf
    obtain ⟨j, hj, hfj⟩ := List.mem_take_iff_getElem.mp hf
    rw [List.length_map] at hj
    have hjk : j < k := by omega
    have hjl : j < calls.length := by omega
    rw [List.getElem_map] at hfj
    rw [← hfj]
    exact hfirst j calls[j] hjk (List.getElem?_eq_getElem hjl)

/-! ### C11: indices of registered fonts -/

/-- C11: on a server whose registry is empty as constructed, for every
sequence of fewer than 2^27 `register_font` calls (so that the indices fit an
`int`) with 64-bit handles: whenever the calls return, entry k of the registry
(the k-th registration, counted from 0) holds the index 16 k + 1, so every
assigned index is positive and the indices are strictly increasing in
registration order, and `get_font_index` of a handle whose first registration
is call k (in particular a handle registered exactly once) returns that
index. The calls do return on a closed channel with an empty outgoing
buffer, and on an open channel when the codec compresses every tuple of up to
N bytes within its bound and the first `write` of every call takes the whole
frame. -/
theorem font_index_unique (c : Codec) (s : SServer) (calls : List FontCall)
    (h0 : s.registered_fonts = array_t.zero)
    (hn : sizeof_SFont * calls.length < 2 ^ 31)
    (hf : ∀ call ∈ calls, call.font < 2 ^ 64) :
    (∀ s1, register_all c s calls = some s1 →
      (∀ k : Nat, k < calls.length → assigned_index s1 k = some (16 * (k : Int) + 1))
      ∧ (∀ (k : Nat) (a : Int), k < calls.length → assigned_index s1 k = some a → 0 < a)
      ∧ (∀ (j k : Nat) (a b : Int), j < k → k < calls.length → assigned_index s1 j = some a →
          assigned_index s1 k = some b → a < b)
      ∧ (∀ (k : Nat) (call : FontCall), calls[k]? = some call →
          (∀ (j : Nat) (other : FontCall), j < k → calls[j]? = some other →
            other.font ≠ call.font) →
          get_font_index s1 call.font = some (16 * (k : Int) + 1)))
    ∧ (s.duplex.fd = 0 → s.duplex.outgoing_buffer.WF → s.duplex.outgoing_buffer.length = 0 →
        (∀ call ∈ calls, (encode_tuple [.string call.path, .string call.contents, .integer 0,
          call.size, call.options]).length ≤ 2 ^ 63) →
        ∃ s1, register_all c s calls = some s1 ∧ s1.duplex.fd = 0)
    ∧ (∀ N, N ≤ 2 ^ 63 →
        (∀ src : List Byte, src.length ≤ N →
          ∃ out, c.compress (c.compressBound src.length) src = .ok out
            ∧ out.length ≤ c.compressBound src.length
            ∧ c.compressBound src.length + 5 < 2 ^ 31) →
        s.duplex.fd ≠ 0 → s.duplex.outgoing_compressed_buffer.WF →
        s.duplex.outgoing_buffer.WF → s.duplex.outgoing_buffer.length = 0 →
        (∀ call ∈ calls, (encode_tuple [.string call.path, .string call.contents, .integer 0,
            call.size, call.options]).length ≤ N
          ∧ ∃ n rest, call.ws = .wrote n :: rest ∧ 2 ^ 31 ≤ n) →
        ∃ s1, register_all c s calls = some s1 ∧ s1.duplex.fd ≠ 0) := by
  have hwf : s.registered_fonts.WF := by rw [h0]; decide
  have hlen0 : s.registered_fonts.length = 0 := by rw [h0]; rfl
  have hsize0 : s.registered_fonts.size = 0 := by rw [h0]; rfl
  have hcont0 : s.registered_fonts.contents = [] := by rw [h0]; rfl
  simp only [sizeof_SFont] at hn
  have hroom : s.registered_fonts.length + 16 * calls.length ≤ 2 ^ 63 := by
    rw [hlen0]; omega
  refine ⟨?_, ?_, ?_⟩
  · intro s1 hrun
    obtain ⟨hwf1, hl1, hc1, hs1, _⟩ := register_all_registry c calls s s1 hrun hwf hroom
    rw [hlen0, Nat.zero_add] at hl1
    rw [hcont0, hlen0, List.nil_append] at hc1
    have hidx : ∀ k, k < calls.length → assigned_index s1 k = some (16 * (k : Int) + 1) := by
      intro k hk
      exact assigned_index_of_registry s1 _ k hc1 (by rw [List.length_map]; exact hk)
        (by omega)
    refine ⟨hidx, ?_, ?_, ?_⟩
    · intro k a hk ha
      rw [hidx k hk, Option.some.injEq] at ha
      omega
    · intro j k a b hjk hk ha hb
      rw [hidx j (by omega), Option.some.injEq] at ha
      rw [hidx k hk, Option.some.injEq] at hb
      omega
    · intro k call hcall hfirst
      obtain ⟨hk, hget, hpre⟩ := first_entry_of_calls calls k call hcall hfirst
      have hne : calls ≠ [] := by
        intro h
        rw [h] at hk
        exact absurd hk (by simp)
      have hsize : s1.registered_fonts.size = 16 := by
        rw [hs1 hne, hsize0]; rfl
      have := get_font_index_of_registry s1 (calls.map (fun x => x.font)) k hc1 hsize
        (by rw [hl1, List.length_map]) hk (by rw [List.length_map] at hk; omega)
        (by
          intro f hfm
          obtain ⟨x, hx, rfl⟩ := List.mem_map.mp hfm
          exact hf x hx)
        (by rw [hget]; exact hpre)
      rw [hget] at this
      exact this
  · intro hfd hout hempty hlen
    exact register_all_closed c calls s hfd hwf hroom hout hempty hlen
  · intro N hN hcodec hfd hocb hout hempty hcall
    exact register_all_open c N hN hcodec calls s hfd hocb hwf hroom hout hempty hcall

/-- C11 for the registrations `two_fonts` on the small server, with the
storing codec: the run returns with the channel open, the entries hold the
indices 1 and 17, and the handle 2000 is found with index 17. -/
theorem font_index_unique_witness :
    ∃ s1, register_all stored_codec small_server two_fonts = some s1 ∧ s1.duplex.fd ≠ 0
      ∧ assigned_index s1 0 = some 1 ∧ assigned_index s1 1 = some 17
      ∧ get_font_index s1 2000 = some 17 := by
  obtain ⟨hrun, _, hopen⟩ := font_index_unique stored_codec small_server two_fonts
    (by decide) (by decide) (by decide)
  obtain ⟨s1, hs1, hfd⟩ := hopen (2 ^ 20) (by decide)
    (fun src hsrc => ⟨83 :: src, by simp [stored_codec], by simp [stored_codec],
      by simp only [stored_codec]; omega⟩)
    (by decide) (by decide) (by decide) (by decide)
    (by
      intro call hcall
      simp only [two_fonts, List.mem_cons, List.mem_singleton, List.not_mem_nil, or_false]
        at hcall
      rcases hcall with rfl | rfl <;> exact ⟨by decide, _, _, rfl, le_refl _⟩)
  obtain ⟨hidx, _, _, hget⟩ := hrun s1 hs1
  exact ⟨s1, hs1, hfd, hidx 0 (by decide), hidx 1 (by decide),
    hget 1 (two_fonts.get ⟨1, by decide⟩) (by decide) (by
      intro j other hj h
      obtain rfl : j = 0 := by omega
      simp only [two_fonts, List.getElem?_cons_zero, Option.some.injEq] at h
      subst h
      decide)⟩

/-! ### C14: drawing with a font that was never registered -/

/-- Before the first registration the element size of the registry is 0 and
the bound `length / size` of the loop of `get_font_index` is a division by
zero: `draw_text` on an open channel has no defined result. -/
theorem draw_text_before_registration :
    small_server.duplex.fd ≠ 0 ∧ small_server.registered_fonts = array_t.zero
      ∧ f_server_draw_text small_server 3000 [104] 0 0 white = none :=
  ⟨by decide, by decide, rfl⟩

/-- C14 does not hold for every server state: on the closed channel of
`closed_font_server`, whose registry holds the handles 1000 and 2000 only,
`draw_text` with the handle 3000 raises no error; it returns normally and
changes nothing. -/
theorem draw_text_closed_raises_nothing :
    closed_font_server.duplex.fd = 0
      ∧ get_font_index closed_font_server 3000 = some (-1)
      ∧ f_server_draw_text closed_font_server 3000 [104] 0 0 white
          = some (.ok closed_font_server) :=
  ⟨by decide, by decide, rfl⟩

/-- C14 (amended): let the registry of a server be the one that at least one
`register_font` call built from the empty registry, and let `font` be a
handle that none of the calls registered. With an open channel `draw_text`
with that handle raises the error "can't find unregistered font"; the error
is raised right after the search, before anything is written. With a closed
channel `draw_text` returns normally and leaves the server as it is. -/
theorem unregistered_font_rejected (c : Codec) (s s1 t : SServer) (calls : List FontCall)
    (font : Nat) (text : List Byte) (x : Nat) (y : Int) (color : RenColor)
    (h0 : s.registered_fonts = array_t.zero) (hne : calls ≠ [])
    (hn : sizeof_SFont * calls.length ≤ 2 ^ 63)
    (hf : ∀ call ∈ calls, call.font < 2 ^ 64 ∧ call.font ≠ font)
    (hrun : register_all c s calls = some s1)
    (ht : t.registered_fonts = s1.registered_fonts) :
    get_font_index t font = some (-1)
    ∧ (t.duplex.fd ≠ 0 →
        f_server_draw_text t font text x y color = some (.error "can't find unregistered font"))
    ∧ (t.duplex.fd = 0 → f_server_draw_text t font text x y color = some (.ok t)) := by
  have hwf : s.registered_fonts.WF := by rw [h0]; decide
  have hlen0 : s.registered_fonts.length = 0 := by rw [h0]; rfl
  have hsize0 : s.registered_fonts.size = 0 := by rw [h0]; rfl
  have hcont0 : s.registered_fonts.contents = [] := by rw [h0]; rfl
  simp only [sizeof_SFont] at hn
  obtain ⟨_, hl1, hc1, hs1, _⟩ := register_all_registry c calls s s1 hrun hwf
    (by rw [hlen0]; omega)
  rw [hlen0, Nat.zero_add] at hl1
  rw [hcont0, hlen0, List.nil_append] at hc1
  have hsize : s1.registered_fonts.size = 16 := by rw [hs1 hne, hsize0]; rfl
  have hidx : get_font_index t font = some (-1) := by
    rw [get_font_index_congr t s1 ht]
    refine get_font_index_absent s1 (calls.map (fun call => call.font)) font hc1 hsize
      (by rw [hl1, List.length_map]) ?_
    intro f hfm
    obtain ⟨call, hcall, rfl⟩ := List.mem_map.mp hfm
    exact hf call hcall
  refine ⟨hidx, ?_, ?_⟩
  · intro hfd
    unfold f_server_draw_text
    rw [if_pos hfd, hidx]
    rfl
  · intro hfd
    unfold f_server_draw_text
    rw [if_neg (by simpa using hfd)]

/-- C14 for the registrations `two_fonts` on the small server and the
handle 3000. -/
theorem unregistered_font_rejected_witness :
    ∃ s1, register_all stored_codec small_server two_fonts = some s1 ∧ s1.duplex.fd ≠ 0
      ∧ f_server_draw_text s1 3000 [104] 0 0 white
          = some (.error "can't find unregistered font") := by
  obtain ⟨s1, hs1, hfd⟩ := register_all_open stored_codec (2 ^ 20) (by decide)
    (fun src hsrc => ⟨83 :: src, by simp [stored_codec], by simp [stored_codec],
      by simp only [stored_codec]; omega⟩)
    two_fonts small_server (by decide) (by decide) (by decide) (by decide) (by decide)
    (by decide)
    (by
      intro call hcall
      simp only [two_fonts, List.mem_cons, List.mem_singleton, List.not_mem_nil, or_false]
        at hcall
      rcases hcall with rfl | rfl <;> exact ⟨by decide, _, _, rfl, le_refl _⟩)
  exact ⟨s1, hs1, hfd,
    (unregistered_font_rejected stored_codec small_server s1 s1 two_fonts 3000 [104] 0 0 white
      (by decide) (by decide) (by decide) (by decide) hs1 rfl).2.1 hfd⟩

/-! ### C23: the hash tells single-byte changes apart -/

theorem split_at_index (a : List Byte) (i : Nat) (hi : i < a.length) :
    a = a.take i ++ a.get ⟨i, hi⟩ :: a.drop (i + 1) := by
  rw [List.get_eq_getElem, ← List.drop_eq_getElem_cons hi, List.take_append_drop]

/-- C23: for every 32-bit seed and every two byte strings of equal length
that differ at position i and agree at every other position, `hash` gives
different values; each step of the fold is injective in the accumulator
(below 2^32) and in the byte. -/
theorem hash_single_byte_sensitive (h : Nat) (hh : h < 2 ^ 32) (a b : List Byte) (i : Nat)
    (hlen : a.length = b.length) (hi : i < a.length)
    (hdiff : a[i]? ≠ b[i]?) (hsame : ∀ j : Nat, j ≠ i → a[j]? = b[j]?) :
    hash h a ≠ hash h b
      ∧ (∀ (u v : Nat) (p : Byte), u < 2 ^ 32 → v < 2 ^ 32 → hash u [p] = hash v [p] → u = v)
      ∧ (∀ (u : Nat) (p q : Byte), u < 2 ^ 32 → hash u [p] = hash u [q] → p = q) := by
  have hib : i < b.length := by omega
  have htake : a.take i = b.take i := by
    apply List.ext_getElem?
    intro n
    rw [List.getElem?_take, List.getElem?_take]
    split
    · exact hsame n (by omega)
    · rfl
  have hdrop : a.drop (i + 1) = b.drop (i + 1) := by
    apply List.ext_getElem?
    intro n
    rw [List.getElem?_drop, List.getElem?_drop]
    exact hsame _ (by omega)
  have hne : a.get ⟨i, hi⟩ ≠ b.get ⟨i, hib⟩ := by
    intro he
    apply hdiff
    rw [List.getElem?_eq_getElem hi, List.getElem?_eq_getElem hib]
    rw [List.get_eq_getElem, List.get_eq_getElem] at he
    rw [he]
  refine ⟨?_, ?_, ?_⟩
  · rw [split_at_index a i hi, split_at_index b i hib, htake, hdrop]
    exact hash_one_byte h hh _ _ _ _ hne
  · intro u v p hu hv he
    by_contra hne1
    exact hash_inj_state u v hu hv hne1 [p] he
  · intro u p q hu he
    by_contra hne1
    exact hash_one_byte u hu [] [] p q hne1 he

/-- C23 for the seed of the render cache and the strings 1, 2, 3 and
1, 9, 3. -/
theorem hash_single_byte_sensitive_witness :
    hash HASH_INITIAL [1, 2, 3] ≠ hash HASH_INITIAL [1, 9, 3] :=
  (hash_single_byte_sensitive HASH_INITIAL (by decide) [1, 2, 3] [1, 9, 3] 1 (by decide)
    (by decide) (by decide) (by
      intro j hj
      match j with
      | 0 => rfl
      | 1 => exact absurd rfl hj
      | 2 => rfl
      | n + 3 => rfl)).1

/-! ### C21: partial frames persist -/

/-- While the buffered bytes are fewer than a header, or fewer than the frame
that a header with a length below 2^31 announces, the decoding step reports 1
and changes nothing but, possibly, the capacity of the compressed buffer. -/
theorem recv_decode_incomplete (c : Codec) (x : SDuplex)
    (hwf : x.incoming_compressed_buffer.WF)
    (hpart : x.incoming_compressed_buffer.length < 5
      ∨ ∃ L, L < 2 ^ 31 ∧ (x.incoming_compressed_buffer.data.drop 1).take 4 = le 4 L
          ∧ x.incoming_compressed_buffer.length < 5 + L) :
    ∃ icb, recv_decode c x = some (1, { x with incoming_compressed_buffer := icb })
      ∧ icb.WF ∧ icb.length = x.incoming_compressed_buffer.length
      ∧ icb.contents = x.incoming_compressed_buffer.contents
      ∧ x.incoming_compressed_buffer.capacity ≤ icb.capacity := by
  by_cases h5 : x.incoming_compressed_buffer.length < 1 + 4
  · refine ⟨x.incoming_compressed_buffer, ?_, hwf, rfl, rfl, le_refl _⟩
    unfold recv_decode
    simp only [if_pos h5]
  · rcases hpart with hlt | ⟨L, hL, hhdr, hlt⟩
    · omega
    · have hmod : L % 256 ^ 4 = L := Nat.mod_eq_of_lt (by omega)
      have hread : takeLE 4 (x.incoming_compressed_buffer.data.drop 1)
          = some (L, (x.incoming_compressed_buffer.data.drop 1).drop 4) := by
        rw [takeLE_eq _ _ (by rw [List.length_drop, hwf.1]; have := hwf.2.1; omega), hhdr,
          unle_le, hmod]
      have harg : toSizeT (toInt32 L + 1 + 4) = 5 + L := by
        rw [toInt32_small L hL]
        have : ((L : Int) + 1 + 4) = ((5 + L : Nat) : Int) := by push_cast; ring
        rw [this, toSizeT_ofNat _ (by omega)]
      obtain ⟨icb, hres, hwf1, hl1, _, _, hcap1, _⟩ :=
        array_reserve_spec x.incoming_compressed_buffer (5 + L) hwf (by omega)
      obtain ⟨_, _, _, _, _, hc1⟩ := array_reserve_some _ _ _ hwf hres
      have htot : icb.length < toSizeT (toInt32 (5 + L)) := by
        rw [hl1]
        unfold toSizeT toInt32
        split <;> omega
      refine ⟨icb, ?_, hwf1, hl1, hc1, hcap1⟩
      unfold recv_decode
      simp only [if_neg h5, hread, harg, hres, if_pos htot]

theorem header_of_contents (l tail : List Byte) (L : Nat)
    (h : (l.drop 1).take 4 = le 4 L) : ((l ++ tail).drop 1).take 4 = le 4 L := by
  have hlen : ((l.drop 1).take 4).length = 4 := by rw [h, le_length]
  rw [List.length_take, List.length_drop] at hlen
  rw [List.drop_append_of_le_length (by omega),
    List.take_append_of_le_length (by rw [List.length_drop]; omega), h]

/-- C21 does not hold for every header: the small channel reads the five
bytes 03 FA FF FF FF, a header whose length field is 2^32 - 6, so far fewer
bytes than 5 + compressed_length are buffered. The code reads the field as
the `int` -6 and calls `array_reserve` with -6 + 5 converted to `size_t`,
2^64 - 1; the doubling of the capacity 16 reaches 2^63, then 0, and the call
never returns. -/
theorem partial_frame_length_beyond_int :
    small_duplex.fd ≠ 0
    ∧ unle [250, 255, 255, 255] = 2 ^ 32 - 6
    ∧ toSizeT (toInt32 (2 ^ 32 - 6) + 1 + 4) = 2 ^ 64 - 1
    ∧ recv_compressed_buffer stored_codec (.data [3, 250, 255, 255, 255]) small_duplex = none
    ∧ array_reserve small_duplex.incoming_compressed_buffer (2 ^ 64 - 1) = none
    ∧ ∀ k, reserve_loop (65 + k) 16 (2 ^ 64 - 1) = none :=
  ⟨by decide, by decide, by decide, by decide, by decide,
    fun k => reserve_loop_diverges 16 (2 ^ 64 - 1) k (by decide)⟩

/-- C21 (amended): on an open channel whose compressed buffer satisfies the
representation invariant, for a `read` that would block or delivers the
bytes `bs` (within the space offered), when afterwards fewer than 5 bytes are
buffered, or the header's length field L is below 2^31 (the range of the
`int` that carries it) and fewer than 5 + L bytes are buffered:
`recv_compressed_buffer` returns 1, leaves `fd`, `incoming_packet_type`, the
incoming buffer and the outgoing buffers unchanged, and the compressed buffer
holds the bytes buffered before followed by `bs` (its capacity may have grown
towards the announced frame). -/
theorem partial_frames_persist (c : Codec) (x : SDuplex) (r : ReadOutcome) (bs : List Byte)
    (hfd : x.fd ≠ 0) (hwf : x.incoming_compressed_buffer.WF)
    (hr : (r = .would_block ∧ bs = [])
      ∨ (r = .data bs
          ∧ x.incoming_compressed_buffer.length + bs.length
              ≤ x.incoming_compressed_buffer.capacity
          ∧ bs.length < 2 ^ 31))
    (hpart : x.incoming_compressed_buffer.length + bs.length < 5
      ∨ ∃ L, L < 2 ^ 31
          ∧ ((x.incoming_compressed_buffer.contents ++ bs).drop 1).take 4 = le 4 L
          ∧ x.incoming_compressed_buffer.length + bs.length < 5 + L) :
    ∃ y, recv_compressed_buffer c r x = some (1, y)
      ∧ y.fd = x.fd ∧ y.incoming_packet_type = x.incoming_packet_type
      ∧ y.incoming_buffer = x.incoming_buffer
      ∧ y.incoming_compressed_buffer.contents = x.incoming_compressed_buffer.contents ++ bs
      ∧ y.incoming_compressed_buffer.length = x.incoming_compressed_buffer.length + bs.length
      ∧ y.incoming_compressed_buffer.WF
      ∧ y.outgoing_buffer = x.outgoing_buffer
      ∧ y.outgoing_compressed_buffer = x.outgoing_compressed_buffer := by
  obtain ⟨hd, hl, hc⟩ := hwf
  have hdata : x.incoming_compressed_buffer.data = x.incoming_compressed_buffer.contents
      ++ x.incoming_compressed_buffer.data.drop x.incoming_compressed_buffer.length :=
    (List.take_append_drop _ _).symm
  rcases hr with ⟨rfl, rfl⟩ | ⟨rfl, hroom, hint⟩
  · simp only [List.length_nil, Nat.add_zero, List.append_nil] at hpart ⊢
    obtain ⟨icb, hres, hwf1, hl1, hc1, _⟩ := recv_decode_incomplete c x ⟨hd, hl, hc⟩ (by
      rcases hpart with h | ⟨L, hL, hh, hlt⟩
      · exact Or.inl h
      · refine Or.inr ⟨L, hL, ?_, hlt⟩
        rw [hdata]
        exact header_of_contents _ _ L hh)
    refine ⟨{ x with incoming_compressed_buffer := icb }, ?_, rfl, rfl, rfl, hc1, hl1, hwf1,
      rfl, rfl⟩
    simp only [recv_compressed_buffer, if_neg hfd, hres]
  · have hwl : (writeAt x.incoming_compressed_buffer.data x.incoming_compressed_buffer.length
        bs).length = x.incoming_compressed_buffer.data.length :=
      writeAt_length _ _ _ (by omega)
    have hcont : (writeAt x.incoming_compressed_buffer.data x.incoming_compressed_buffer.length
        bs).take (x.incoming_compressed_buffer.length + bs.length)
        = x.incoming_compressed_buffer.contents ++ bs :=
      writeAt_take _ _ _ (by omega)
    have hwf2 : ({ x.incoming_compressed_buffer with
        data := writeAt x.incoming_compressed_buffer.data x.incoming_compressed_buffer.length bs,
        length := x.incoming_compressed_buffer.length + bs.length } : array_t).WF :=
      ⟨by simp only; rw [hwl, hd], hroom, hc⟩
    obtain ⟨icb, hres, hwf1, hl1, hc1, _⟩ := recv_decode_incomplete c
      { x with incoming_compressed_buffer := { x.incoming_compressed_buffer with
          data := writeAt x.incoming_compressed_buffer.data
            x.incoming_compressed_buffer.length bs,
          length := x.incoming_compressed_buffer.length + bs.length } } hwf2 (by
      rcases hpart with h | ⟨L, hL, hh, hlt⟩
      · exact Or.inl h
      · refine Or.inr ⟨L, hL, ?_, hlt⟩
        show ((writeAt x.incoming_compressed_buffer.data x.incoming_compressed_buffer.length
          bs).drop 1).take 4 = le 4 L
        rw [← List.take_append_drop (x.incoming_compressed_buffer.length + bs.length)
          (writeAt x.incoming_compressed_buffer.data x.incoming_compressed_buffer.length bs),
          hcont]
        exact header_of_contents _ _ L hh)
    refine ⟨{ x with incoming_compressed_buffer := icb }, ?_, rfl, rfl, rfl, ?_, hl1, hwf1,
      rfl, rfl⟩
    · simp only [recv_compressed_buffer, if_neg hfd]
      rw [if_pos ⟨hroom, by omega, hint⟩, hres]
    · rw [hc1]
      exact hcont

/-- C21 for the small channel when a `read` delivers the first seven bytes
of a frame of 5 + 3 bytes. -/
theorem partial_frames_persist_witness :
    ∃ y, recv_compressed_buffer stored_codec (.data [3, 3, 0, 0, 0, 83, 104]) small_duplex
        = some (1, y)
      ∧ y.fd = small_duplex.fd ∧ y.incoming_packet_type = small_duplex.incoming_packet_type
      ∧ y.incoming_buffer = small_duplex.incoming_buffer
      ∧ y.incoming_compressed_buffer.contents
          = small_duplex.incoming_compressed_buffer.contents ++ [3, 3, 0, 0, 0, 83, 104]
      ∧ y.incoming_compressed_buffer.length
          = small_duplex.incoming_compressed_buffer.length + 7
      ∧ y.incoming_compressed_buffer.WF
      ∧ y.outgoing_buffer = small_duplex.outgoing_buffer
      ∧ y.outgoing_compressed_buffer = small_duplex.outgoing_compressed_buffer :=
  partial_frames_persist stored_codec small_duplex (.data [3, 3, 0, 0, 0, 83, 104])
    [3, 3, 0, 0, 0, 83, 104] (by decide) (by decide)
    (Or.inr ⟨rfl, by decide, by decide⟩)
    (Or.inr ⟨3, by decide, by decide, by decide⟩)

/-! ### C22: two frames in one read -/

/-- The decoding of a whole valid frame at the head of the compressed
buffer: the type and the decompressed payload are delivered and the frame is
shifted out. -/
theorem recv_decode_valid (c : Codec) (x : SDuplex) (t : Byte) (payload plain rest : List Byte)
    (hdata : x.incoming_compressed_buffer.data = frame_bytes t payload ++ rest)
    (hwf : x.incoming_compressed_buffer.WF)
    (hint : 5 + payload.length < 2 ^ 31)
    (hlen : 5 + payload.length ≤ x.incoming_compressed_buffer.length)
    (hib : x.incoming_buffer.WF)
    (hsize : c.getFrameContentSize payload ≤ 2 ^ 63)
    (hdec : ∀ capacity, c.getFrameContentSize payload ≤ capacity →
      c.decompress capacity payload = .ok plain)
    (hplain : plain.length ≤ c.getFrameContentSize payload) :
    ∃ y, recv_decode c x = some (1, y)
      ∧ y.fd = x.fd ∧ y.incoming_packet_type = charToEnum t
      ∧ y.incoming_buffer.WF ∧ y.incoming_buffer.length = plain.length
      ∧ y.incoming_buffer.contents = plain
      ∧ y.incoming_compressed_buffer.WF
      ∧ y.incoming_compressed_buffer.capacity = x.incoming_compressed_buffer.capacity
      ∧ y.incoming_compressed_buffer.length
          = x.incoming_compressed_buffer.length - (5 + payload.length)
      ∧ y.incoming_compressed_buffer.contents
          = x.incoming_compressed_buffer.contents.drop (5 + payload.length)
      ∧ y.outgoing_buffer = x.outgoing_buffer
      ∧ y.outgoing_compressed_buffer = x.outgoing_compressed_buffer := by
  obtain ⟨hd, hl, hc⟩ := hwf
  obtain ⟨ib, hres, hwfib, _, _, hcapib, _⟩ :=
    array_reserve_spec x.incoming_buffer (c.getFrameContentSize payload) hib hsize
  have hstore : store ib.data 0 plain = some (writeAt ib.data 0 plain) := by
    simp only [store, Nat.zero_add]
    rw [if_pos (by rw [hwfib.1]; omega)]
  obtain ⟨b, hshift, hbl, hbc, _, hbd, hbcont, _⟩ :=
    array_shift_spec x.incoming_compressed_buffer (5 + payload.length) hlen (by omega)
  have hb : b = { x.incoming_compressed_buffer with
      data := writeAt x.incoming_compressed_buffer.data 0
        ((x.incoming_compressed_buffer.data.drop (5 + payload.length)).take
          (x.incoming_compressed_buffer.length - (5 + payload.length))),
      length := x.incoming_compressed_buffer.length - (5 + payload.length) } := by
    have h := hshift
    simp only [array_shift, if_neg (by omega : ¬ 5 + payload.length = 0)] at h
    rw [if_pos ⟨hlen, by omega⟩] at h
    exact (Option.some.inj h).symm
  refine ⟨{ x with
      incoming_packet_type := charToEnum t,
      incoming_buffer := { ib with data := writeAt ib.data 0 plain, length := plain.length },
      incoming_compressed_buffer := b }, ?_, rfl, rfl, ?_, rfl, ?_, ?_, hbc, hbl, hbcont,
    rfl, rfl⟩
  · rw [recv_decode_frame c x t payload rest hdata (by
      have := frame_bytes_length t payload
      rw [← hd, hdata, List.length_append, this]; omega) hint hlen (by omega)]
    simp only [hres, hdec ib.capacity hcapib, hstore, hb]
  · exact ⟨by
      simp only
      rw [writeAt_length _ _ _ (by rw [hwfib.1]; omega)]
      exact hwfib.1, by simp only; omega, hwfib.2.2⟩
  · simp only [array_t.contents, writeAt_zero, List.take_left]
  · exact ⟨by rw [hbd, hd, hbc], by rw [hbl, hbc]; omega, by rw [hbc]; exact hc⟩

/-- C22: let two frames (type bytes t1 and t2, compressed payloads p1 and p2
that the codec decompresses to plain1 and plain2 whenever the destination
holds the content size it reports) arrive in one `read` on an open channel
whose compressed buffer is empty and can hold both. The first
`recv_compressed_buffer` returns 1, delivers t1 and plain1 and leaves exactly
the bytes of the second frame in the compressed buffer. In any later state
with the same descriptor and compressed buffer (as `poll_event` and
`process_event` leave it when they consume the first frame), a call whose
`read` would block returns 1, delivers t2 and plain2, and leaves the
compressed buffer empty. -/
theorem back_to_back_frames (c : Codec) (d : SDuplex) (t1 t2 : Byte)
    (p1 p2 plain1 plain2 : List Byte)
    (hfd : d.fd ≠ 0) (hwf : d.incoming_compressed_buffer.WF)
    (hempty : d.incoming_compressed_buffer.length = 0)
    (hib : d.incoming_buffer.WF)
    (hcap : 10 + p1.length + p2.length ≤ d.incoming_compressed_buffer.capacity)
    (hint : 10 + p1.length + p2.length < 2 ^ 31)
    (hsize1 : c.getFrameContentSize p1 ≤ 2 ^ 63)
    (hdec1 : ∀ capacity, c.getFrameContentSize p1 ≤ capacity →
      c.decompress capacity p1 = .ok plain1)
    (hplain1 : plain1.length ≤ c.getFrameContentSize p1)
    (hsize2 : c.getFrameContentSize p2 ≤ 2 ^ 63)
    (hdec2 : ∀ capacity, c.getFrameContentSize p2 ≤ capacity →
      c.decompress capacity p2 = .ok plain2)
    (hplain2 : plain2.length ≤ c.getFrameContentSize p2) :
    ∃ y1, recv_compressed_buffer c (.data (frame_bytes t1 p1 ++ frame_bytes t2 p2)) d
        = some (1, y1)
      ∧ y1.fd = d.fd ∧ y1.incoming_packet_type = charToEnum t1
      ∧ y1.incoming_buffer.contents = plain1 ∧ y1.incoming_buffer.length = plain1.length
      ∧ y1.incoming_buffer.WF
      ∧ y1.incoming_compressed_buffer.contents = frame_bytes t2 p2
      ∧ ∀ z : SDuplex, z.fd = y1.fd →
          z.incoming_compressed_buffer = y1.incoming_compressed_buffer →
          z.incoming_buffer.WF →
          ∃ y2, recv_compressed_buffer c .would_block z = some (1, y2)
            ∧ y2.fd = d.fd ∧ y2.incoming_packet_type = charToEnum t2
            ∧ y2.incoming_buffer.contents = plain2
            ∧ y2.incoming_buffer.length = plain2.length
            ∧ y2.incoming_compressed_buffer.length = 0
            ∧ y2.incoming_compressed_buffer.contents = [] := by
  obtain ⟨hd, hl, hc⟩ := hwf
  have hf1 := frame_bytes_length t1 p1
  have hf2 := frame_bytes_length t2 p2
  have hbl : (frame_bytes t1 p1 ++ frame_bytes t2 p2).length = 10 + p1.length + p2.length := by
    rw [List.length_append, hf1, hf2]; omega
  have hwl : (writeAt d.incoming_compressed_buffer.data d.incoming_compressed_buffer.length
      (frame_bytes t1 p1 ++ frame_bytes t2 p2)).length
      = d.incoming_compressed_buffer.data.length :=
    writeAt_length _ _ _ (by omega)
  have hwd : writeAt d.incoming_compressed_buffer.data d.incoming_compressed_buffer.length
      (frame_bytes t1 p1 ++ frame_bytes t2 p2)
      = frame_bytes t1 p1 ++ (frame_bytes t2 p2 ++ d.incoming_compressed_buffer.data.drop
          (frame_bytes t1 p1 ++ frame_bytes t2 p2).length) := by
    rw [hempty, writeAt_zero, List.append_assoc]
  have hcont : (writeAt d.incoming_compressed_buffer.data d.incoming_compressed_buffer.length
      (frame_bytes t1 p1 ++ frame_bytes t2 p2)).take
        (d.incoming_compressed_buffer.length + (frame_bytes t1 p1 ++ frame_bytes t2 p2).length)
      = frame_bytes t1 p1 ++ frame_bytes t2 p2 := by
    rw [hempty, writeAt_zero, Nat.zero_add, List.take_left]
  obtain ⟨y1, h1, hfd1, ht1, hwfib1, hibl1, hibc1, hwficb1, _, hl1, hc1, _, _⟩ :=
    recv_decode_valid c
      { d with incoming_compressed_buffer := { d.incoming_compressed_buffer with
          data := writeAt d.incoming_compressed_buffer.data
            d.incoming_compressed_buffer.length (frame_bytes t1 p1 ++ frame_bytes t2 p2),
          length := d.incoming_compressed_buffer.length
            + (frame_bytes t1 p1 ++ frame_bytes t2 p2).length } }
      t1 p1 plain1 _ hwd ⟨by simp only; rw [hwl, hd], by simp only; omega, hc⟩
      (by omega) (by simp only; omega) hib hsize1 hdec1 hplain1
  simp only at hfd1 hl1 hc1
  have hc1b : y1.incoming_compressed_buffer.contents = frame_bytes t2 p2 := by
    rw [hc1, array_t.contents]
    simp only
    rw [hcont, ← hf1, List.drop_left]
  have hl1b : y1.incoming_compressed_buffer.length = 5 + p2.length := by
    rw [hl1, hbl, hempty]; omega
  refine ⟨y1, ?_, hfd1, ht1, hibc1, hibl1, hwfib1, hc1b, ?_⟩
  · simp only [recv_compressed_buffer, if_neg hfd]
    rw [if_pos ⟨by omega, by omega, by omega⟩, h1]
  · intro z hzfd hzicb hzib
    have hzdata : z.incoming_compressed_buffer.data
        = frame_bytes t2 p2 ++ z.incoming_compressed_buffer.data.drop
            z.incoming_compressed_buffer.length := by
      rw [hzicb]
      conv_lhs => rw [← List.take_append_drop y1.incoming_compressed_buffer.length
        y1.incoming_compressed_buffer.data]
      rw [← hc1b]
      rfl
    obtain ⟨y2, h2, hfd2, ht2, _, hibl2, hibc2, hwficb2, _, hl2, hc2, _, _⟩ :=
      recv_decode_valid c z t2 p2 plain2 _ hzdata (by rw [hzicb]; exact hwficb1)
        (by omega) (by rw [hzicb, hl1b]) hzib hsize2 hdec2 hplain2
    have hzero : y2.incoming_compressed_buffer.length = 0 := by
      rw [hl2, hzicb, hl1b]; omega
    refine ⟨y2, ?_, by rw [hfd2, hzfd, hfd1], ht2, hibc2, hibl2, hzero, ?_⟩
    · simp only [recv_compressed_buffer, if_neg (by rw [hzfd, hfd1]; exact hfd : ¬ z.fd = 0), h2]
    · rw [array_t.contents, hzero, List.take_zero]

/-- C22 for the small channel and the storing codec: an event frame with the
plaintext 104 and a command-buffer frame with the plaintext 105, 106 arrive
in one read of 15 bytes. -/
theorem back_to_back_frames_witness :
    ∃ y1, recv_compressed_buffer stored_codec
          (.data (frame_bytes 3 [83, 104] ++ frame_bytes 1 [83, 105, 106])) small_duplex
        = some (1, y1)
      ∧ y1.incoming_packet_type = PACKET_EVENT ∧ y1.incoming_buffer.contents = [104]
      ∧ y1.incoming_compressed_buffer.contents = frame_bytes 1 [83, 105, 106]
      ∧ ∃ y2, recv_compressed_buffer stored_codec .would_block y1.consumed = some (1, y2)
          ∧ y2.incoming_packet_type = PACKET_COMMAND_BUFFER
          ∧ y2.incoming_buffer.contents = [105, 106]
          ∧ y2.incoming_compressed_buffer.length = 0 := by
  obtain ⟨y1, h1, _, ht1, hc1, _, hwf1, hicb1, hnext⟩ :=
    back_to_back_frames stored_codec small_duplex 3 1 [83, 104] [83, 105, 106] [104]
      [105, 106] (by decide) (by decide) (by decide) (by decide) (by decide) (by decide)
      (by decide) (fun capacity h => by
        simp only [stored_codec, List.length_singleton] at h ⊢
        rw [if_pos h])
      (by decide) (by decide) (fun capacity h => by
        simp only [stored_codec, List.length_cons, List.length_nil] at h ⊢
        rw [if_pos h])
      (by decide)
  obtain ⟨y2, h2, _, ht2, hc2, _, hl2, _⟩ := hnext y1.consumed rfl rfl
    ⟨hwf1.1, Nat.zero_le _, hwf1.2.2⟩
  exact ⟨y1, h1, ht1, hc1, hicb1, y2, h2, ht2, hc2, hl2⟩

/-- What `f_server_poll_event` does to the channel when a frame is pending. -/
theorem poll_event_consumes (c : Codec) (r : ReadOutcome) (server s1 : SServer) (n : Int)
    (vals : List Value) (hfd : server.duplex.fd ≠ 0)
    (htype : server.duplex.incoming_packet_type ≠ PACKET_NONE)
    (h : f_server_poll_event c r server = some (n, vals, s1)) :
    s1.duplex = server.duplex.consumed := by
  unfold f_server_poll_event at h
  rw [if_pos hfd, if_neg htype] at h
  simp only [if_pos htype] at h
  split at h
  · cases h
  · simp only [Option.some.injEq, Prod.mk.injEq] at h
    rw [← h.2.2]
    rfl

/-! ### C24: the scan of the command buffer ends -/

/-- The replay loop and the loop with the visible cursor are the same loop:
they invoke the same callbacks and are defined together. -/
theorem replay_loop_trace (fonts : List (Int × Nat)) (data : List Byte) (length : Nat) :
    ∀ (fuel cursor : Nat),
      replay_loop fonts fuel (data.drop cursor) (length - cursor)
        = (replay_trace fonts fuel data cursor length).map (fun r => r.1) := by
  intro fuel
  induction fuel with
  | zero => intro cursor; rfl
  | succ f ih =>
    intro cursor
    rw [replay_loop, replay_trace]
    by_cases hlt : cursor < length
    · rw [if_pos (by omega : 0 < length - cursor), if_pos hlt]
      cases field (data.drop cursor) 0 4 with
      | none => rfl
      | some type =>
        cases field (data.drop cursor) 4 4 with
        | none => rfl
        | some size =>
          simp only
          cases replay_command fonts (data.drop cursor) type with
          | none => rfl
          | some calls =>
            simp only
            rw [List.drop_drop, Nat.sub_sub, ih (cursor + size)]
            cases replay_trace fonts f data (cursor + size) length with
            | none => rfl
            | some r => rfl
    · rw [if_neg (by omega : ¬ 0 < length - cursor), if_neg hlt]
      rfl

theorem record_offsets_sizes (cmds : List Cmd) :
    ∀ offset, (record_offsets offset cmds).map (fun v => v.2) = cmds.map Cmd.size := by
  induction cmds with
  | nil => intro offset; rfl
  | cons cmd cmds ih => intro offset; simp only [record_offsets, List.map_cons, ih]

theorem records_length (server : SServer) (cmds : List Cmd) :
    ∀ junks : List (List Byte), junks.length = cmds.length → (∀ j ∈ junks, j.length = 7) →
      (records server cmds junks).length = (cmds.map Cmd.size).sum := by
  induction cmds with
  | nil => intro junks _ _; cases junks <;> rfl
  | cons cmd cmds ih =>
    intro junks hlen hjunk
    cases junks with
    | nil => simp at hlen
    | cons j js =>
      have hrl := record_length server j cmd (hjunk j (List.mem_cons_self _ _))
      have := ih js (by simpa using hlen) (fun x hx => hjunk x (List.mem_cons_of_mem _ hx))
      simp only [records, List.length_append, List.map_cons, List.sum_cons, hrl, this]

/-- The loop with the visible cursor over the records of a sequence of
drawing calls stored behind the bytes `pre`: every record is visited once, in
order, at its offset, and the loop exits with the cursor at the end of the
records. -/
theorem replay_trace_records (server : SServer) (fonts : List (Int × Nat)) (cmds : List Cmd) :
    ∀ (junks : List (List Byte)) (pre rest : List Byte) (fuel : Nat),
      (∀ cmd ∈ cmds, cmd.fits) →
      (∀ cmd ∈ cmds, ∀ font text x y color, cmd = .draw_text font text x y color →
        ∃ i, get_font_index server font = some i) →
      junks.length = cmds.length → (∀ j ∈ junks, j.length = 7) → cmds.length < fuel →
      replay_trace fonts fuel (pre ++ (records server cmds junks ++ rest)) pre.length
          (pre.length + (records server cmds junks).length)
        = some (expected_calls server fonts cmds, record_offsets pre.length cmds,
            pre.length + (records server cmds junks).length) := by
  induction cmds with
  | nil =>
    intro junks pre rest fuel _ _ _ _ hfuel
    cases fuel with
    | zero => omega
    | succ f =>
      cases junks <;> simp [records, replay_trace, expected_calls, record_offsets]
  | cons cmd cmds ih =>
    intro junks pre rest fuel hfit hreg hlen hjunk hfuel
    cases junks with
    | nil => simp at hlen
    | cons j js =>
      cases fuel with
      | zero => omega
      | succ f =>
        have hj : j.length = 7 := hjunk j (List.mem_cons_self _ _)
        have hrl := record_length server j cmd hj
        have hsz := size_pos cmd
        obtain ⟨type, h0, h4, hcall⟩ := replay_record server fonts cmd j
          (records server cmds js ++ rest) (hfit cmd (List.mem_cons_self _ _))
          (hreg cmd (List.mem_cons_self _ _))
        have hmem : records server (cmd :: cmds) (j :: js) ++ rest
            = cmd.record server j ++ (records server cmds js ++ rest) := by
          simp only [records, List.append_assoc]
        have hlen2 : (records server (cmd :: cmds) (j :: js)).length
            = cmd.size + (records server cmds js).length := by
          simp only [records, List.length_append, hrl]
        have hdata : pre ++ (records server (cmd :: cmds) (j :: js) ++ rest)
            = (pre ++ cmd.record server j) ++ (records server cmds js ++ rest) := by
          rw [hmem, List.append_assoc]
        have hpl : (pre ++ cmd.record server j).length = pre.length + cmd.size := by
          rw [List.length_append, hrl]
        have hih := ih js (pre ++ cmd.record server j) rest f
          (fun c hc => hfit c (List.mem_cons_of_mem _ hc))
          (fun c hc => hreg c (List.mem_cons_of_mem _ hc))
          (by simpa using hlen) (fun x hx => hjunk x (List.mem_cons_of_mem _ hx))
          (by simp only [List.length_cons] at hfuel; omega)
        rw [hpl, ← hdata] at hih
        have hend : pre.length + cmd.size + (records server cmds js).length
            = pre.length + (records server (cmd :: cmds) (j :: js)).length := by
          rw [hlen2]; omega
        rw [hend] at hih
        rw [replay_trace, if_pos (by rw [hlen2]; omega), List.drop_left, hmem, h0, h4]
        simp only [hcall]
        rw [← hmem, hih, expected_calls_cons server fonts cmd cmds]
        rfl

/-- C24: for every sequence of `SetClip`/`DrawRect`/`DrawText` calls appended
after `begin_frame` (open channel, registered fonts, arguments that fit the
record fields), the calls return, and on every buffer `b` that holds the
bytes of the resulting command buffer the replay loop of
`f_client_process_event` ends, for every fuel above the buffer length: it
visits the records of the calls once each, in order, at their offsets, every
`size` it reads is at least the 8 bytes of the `Command` header (hence
positive), the sizes add up to the buffer length, and the cursor at the exit
is exactly the buffer length. -/
theorem command_scan_terminates (server : SServer) (cmds : List Cmd) (b : array_t)
    (fonts : List (Int × Nat))
    (hopen : server.duplex.fd ≠ 0) (hbuf : server.rencache.buffer.WF)
    (hscratch : server.cmd_array.WF) (hfit : ∀ cmd ∈ cmds, cmd.fits)
    (hreg : ∀ cmd ∈ cmds, cmd.registered server)
    (hsize : (cmds.map Cmd.size).sum ≤ 2 ^ 63)
    (hlen : b.length ≤ b.data.length) :
    ∃ s, draw_all (f_server_begin_frame server) cmds = some (.ok s)
      ∧ (b.contents = s.rencache.buffer.contents →
          b.length = s.rencache.buffer.length
          ∧ ∃ calls trace,
              (∀ fuel, b.length < fuel →
                replay_trace fonts fuel b.data 0 b.length = some (calls, trace, b.length)
                ∧ replay_loop fonts fuel b.data b.length = some calls)
              ∧ trace = record_offsets 0 cmds
              ∧ trace.length = cmds.length
              ∧ (∀ v ∈ trace, sizeof_Command ≤ v.2 ∧ 0 < v.2)
              ∧ (trace.map (fun v => v.2)).sum = b.length) := by
  obtain ⟨s, junks, hrun, hjl, hjs, _, _, _, hwfs, _, _, hcont, _⟩ :=
    draw_all_spec server cmds (f_server_begin_frame server) rfl hopen
      ⟨hbuf.1, Nat.zero_le _, hbuf.2.2⟩ hscratch hfit hreg
      (by simp only [f_server_begin_frame, array_clear]; omega)
  refine ⟨s, hrun, ?_⟩
  intro hsame
  have hc0 : (f_server_begin_frame server).rencache.buffer.contents = [] := by
    simp [f_server_begin_frame, array_clear, array_t.contents]
  rw [hc0, List.nil_append] at hcont
  have hdata : b.data = records server cmds junks ++ b.data.drop b.length := by
    rw [← hcont, ← hsame, array_t.contents, List.take_append_drop]
  have hl : b.length = (records server cmds junks).length := by
    rw [← hcont, ← hsame, array_t.contents, List.length_take]; omega
  have hls : s.rencache.buffer.length = (records server cmds junks).length := by
    rw [← hcont, array_t.contents, List.length_take, hwfs.1]
    exact (Nat.min_eq_left hwfs.2.1).symm
  have hreg1 : ∀ cmd ∈ cmds, ∀ font text x y color, cmd = Cmd.draw_text font text x y color →
      ∃ i, get_font_index server font = some i := by
    intro cmd hc font text x y color he
    have h := hreg cmd hc
    rw [he] at h
    cases hg : get_font_index server font with
    | none => exact absurd hg h.1
    | some i => exact ⟨i, rfl⟩
  have hge := records_length_ge server cmds junks hjl hjs
  have hsum := records_length server cmds junks hjl hjs
  refine ⟨by rw [hl, hls], expected_calls server fonts cmds, record_offsets 0 cmds, ?_, rfl,
    ?_, ?_, ?_⟩
  · intro fuel hfuel
    have ht := replay_trace_records server fonts cmds junks [] (b.data.drop b.length) fuel
      hfit hreg1 hjl hjs (by omega)
    simp only [List.nil_append, List.length_nil, Nat.zero_add] at ht
    rw [← hdata, ← hl] at ht
    refine ⟨ht, ?_⟩
    have hlink := replay_loop_trace fonts b.data b.length fuel 0
    rw [List.drop_zero, Nat.sub_zero, ht] at hlink
    exact hlink
  · have := congrArg List.length (record_offsets_sizes cmds 0)
    simpa using this
  · intro v hv
    have hmem : v.2 ∈ (record_offsets 0 cmds).map (fun v => v.2) := List.mem_map_of_mem _ hv
    rw [record_offsets_sizes] at hmem
    obtain ⟨cmd, _, hcmd⟩ := List.mem_map.mp hmem
    have := size_pos cmd
    simp only [sizeof_Command]
    omega
  · rw [record_offsets_sizes, ← hsum, hl]

/-- C24 for the frame of the four calls on `font_server`: the scan visits the
records at the offsets 0, 24, 82 and 140 and ends at 168, the buffer length. -/
theorem command_scan_terminates_witness :
    ∃ calls trace,
      replay_trace [(1, 77)] (four_calls_buffer.length + 1) four_calls_buffer.data 0
          four_calls_buffer.length = some (calls, trace, four_calls_buffer.length)
      ∧ trace = [(0, 24), (24, 58), (82, 58), (140, 28)]
      ∧ (trace.map (fun v => v.2)).sum = four_calls_buffer.length := by
  obtain ⟨s, hrun, h⟩ := command_scan_terminates font_server four_calls four_calls_buffer
    [(1, 77)] (by decide) (by decide) (by decide) (by decide) (by decide) (by decide)
    (by decide!)
  have key : ∀ r, draw_all (f_server_begin_frame font_server) four_calls = r →
      four_calls_buffer = (match r with
        | some (.ok s) => s.rencache.buffer
        | _ => array_t.zero) := by
    intro r hr
    subst hr
    unfold four_calls_buffer
    exact Eq.refl _
  obtain ⟨_, calls, trace, hfuel, htrace, _, _, hsum⟩ := h (by rw [key _ hrun])
  have hrun2 := (hfuel (four_calls_buffer.length + 1) (Nat.lt_add_one _)).1
  exact ⟨calls, trace, hrun2, by rw [htrace]; decide, hsum⟩

end Remote
